import Mathlib

/-!
# mmex: MMFW resource extractor

A shallow embedding of `src/mmex.c` and a verification development over it.

Modelling conventions.
* A byte is a `Fin 256`; a C string (without its terminating NUL) is a list of bytes.
* `uint16_t` / `uint32_t` values are naturals, reduced `% 2^16` / `% 2^32` wherever the C
  arithmetic can wrap; `int` values are integers.
* The input stream `FILE * f` is the list of the file's bytes together with a read position.
  File positions are naturals (`long` wide enough for every position reached: the largest is
  below `2^32 + 2^20`), and a seek on the regular input file succeeds.
* Everything outside the program (host byte order, `sscanf`, the file system, `malloc`,
  opening and writing of output files) is a field of `Env`.
* The program's observable behaviour is its exit status and the sequence of `Event`s it
  performs: every `printf`, `fread`, `fseek`, `malloc`, `fopen`, `fwrite`, `fclose`.
-/

namespace Mmex

/-! ## Bytes and C strings -/

abbrev Byte := Fin 256

abbrev CStr := List Byte

/-- The byte of an ASCII character literal. -/
def ch (c : Char) : Byte := Fin.ofNat c.toNat

/-- The bytes of a string literal (without the terminating NUL). -/
def cstr (s : String) : CStr := s.toList.map ch

/-- What `%s` prints for a pointer into a buffer: the bytes up to the first NUL. -/
def untilNul (buf : List Byte) : CStr := buf.takeWhile (fun b => b != 0)

/-- `memcmp(a, b, n) == 0` on buffers holding at least `n` bytes. -/
def memcmpEq (a b : List Byte) (n : Nat) : Bool := a.take n == b.take n

/-- `strncmp(s, lit, n) == 0` for NUL-free strings: the first `n` characters agree
(a string shorter than `n` has to be equal as a whole). -/
def strncmpEq (s lit : CStr) (n : Nat) : Bool := s.take n == lit.take n

/-! ## Binary file structure (mmex.c lines 39-67) -/

/-- `magicStr`: `"MMFW Pictures\0\0\0MM"`. -/
def magicStr : List Byte :=
  [ch 'M', ch 'M', ch 'F', ch 'W', ch ' ', ch 'P', ch 'i', ch 'c', ch 't', ch 'u', ch 'r',
   ch 'e', ch 's', 0, 0, 0, ch 'M', ch 'M']

/-- `magicStr2`: `"Vector File Version 1.0"`, 23 bytes. -/
def magicStr2 : List Byte :=
  [ch 'V', ch 'e', ch 'c', ch 't', ch 'o', ch 'r', ch ' ', ch 'F', ch 'i', ch 'l', ch 'e',
   ch ' ', ch 'V', ch 'e', ch 'r', ch 's', ch 'i', ch 'o', ch 'n', ch ' ', ch '1', ch '.',
   ch '0']

/-- The string literal `"\0MM"` compared at `buf[0x0F]`. -/
def subKindMarker : List Byte := [0, ch 'M', ch 'M']

structure KNOWN_FILES where
  magic : List Byte
  name : CStr
  offset : Nat
  hasFilenames : Nat
  ext : CStr
deriving DecidableEq, Repr

/-- The registry `knownFiles[]`; the magic for known files starts at 0x14. -/
def knownFiles : List KNOWN_FILES :=
  [ ⟨[0x00, 0x00, 0x1e, 0x49, 0x35, 0xCD], cstr "Lmps.pic",        0x1A, 1, cstr ".bin"⟩,
    ⟨[0x45, 0x02, 0x9d, 0x88, 0x00, 0x65], cstr "TarzanPI.mmp",    0x22, 1, cstr ".bin"⟩,
    ⟨[0x3D, 0x98, 0x27, 0x2B, 0x00, 0x65], cstr "ToyStory2PI.MMB", 0x22, 1, cstr ".bin"⟩,
    ⟨[0xB3, 0x3B, 0x6F, 0xF6, 0x00, 0x00], cstr "Bugs.mmp",        0x22, 1, cstr ".bin"⟩,
    ⟨[0x40, 0x00, 0x20, 0xFC, 0x9D, 0x12], cstr "MUpsIntS.SND",    0x1A, 1, cstr ".bin"⟩,
    ⟨[0x53, 0xAC, 0xA9, 0x9A, 0x00, 0x01], cstr "Bugsai.mms",      0x22, 0, cstr ".bin"⟩,
    ⟨[0x31, 0x2E, 0x30, 0x00, 0xFA, 0x00], cstr "MUpsVec.VEC",     0x17, 0, cstr ".cgm"⟩ ]

/-- `BLOCKSIZE`. -/
def BLOCKSIZE : Nat := 4096

/-- `sizeof(struct NAME)`: one `char str[32]`. -/
def NAME_SIZE : Nat := 32

/-! ## Byte order functions (mmex.c lines 128-149) -/

/-- The bytes of a 32-bit value in the host's memory, lowest address first. -/
def store32 (le : Bool) (v : Nat) : List Nat :=
  if le then [v % 256, v / 2 ^ 8 % 256, v / 2 ^ 16 % 256, v / 2 ^ 24 % 256]
  else [v / 2 ^ 24 % 256, v / 2 ^ 16 % 256, v / 2 ^ 8 % 256, v % 256]

/-- The `uint16_t` the host loads from two bytes in memory (`*(uint16_t*)p`, or an `fread`
into a `uint16_t`). -/
def load16 (le : Bool) (b : List Byte) : Nat :=
  if le then (b.getD 0 0).val + 2 ^ 8 * (b.getD 1 0).val
  else 2 ^ 8 * (b.getD 0 0).val + (b.getD 1 0).val

/-- The `uint32_t` the host loads from four bytes in memory (an `fread` into a `uint32_t`). -/
def load32 (le : Bool) (b : List Byte) : Nat :=
  if le then
    (b.getD 0 0).val + 2 ^ 8 * (b.getD 1 0).val + 2 ^ 16 * (b.getD 2 0).val
      + 2 ^ 24 * (b.getD 3 0).val
  else
    2 ^ 24 * (b.getD 0 0).val + 2 ^ 16 * (b.getD 1 0).val + 2 ^ 8 * (b.getD 2 0).val
      + (b.getD 3 0).val

/-- `systemIsLittleEndian`: stores `0x01234567` and looks at the byte at the lowest address. -/
def systemIsLittleEndian (le : Bool) : Bool :=
  (store32 le 0x01234567).head? == some 0x67

/-- `reverseByteOrder2` on a `uint16_t`. -/
def reverseByteOrder2 (le : Bool) (input : Nat) : Nat :=
  if !systemIsLittleEndian le then input
  else
    let output := ((input &&& 0xFF) <<< 8) % 2 ^ 16
    let output := (output ||| ((input &&& 0xFF00) >>> 8)) % 2 ^ 16
    output

/-- `reverseByteOrder4` on a `uint32_t`. -/
def reverseByteOrder4 (le : Bool) (input : Nat) : Nat :=
  if !systemIsLittleEndian le then input
  else
    let output := 0
    let output := (output ||| ((input &&& 0x000000FF) <<< 24) % 2 ^ 32) % 2 ^ 32
    let output := (output ||| ((input &&& 0x0000FF00) <<< 8) % 2 ^ 32) % 2 ^ 32
    let output := (output ||| ((input &&& 0x00FF0000) >>> 8)) % 2 ^ 32
    let output := (output ||| ((input &&& 0xFF000000) >>> 24)) % 2 ^ 32
    output

/-! ## The program's world: the input stream, the environment, the event log -/

/-- The input stream `FILE * f`: the bytes of the file and the read position. -/
structure FILE where
  data : List Byte
  pos : Nat
deriving DecidableEq, Repr

/-- The lines the program prints, one constructor per `printf` of the source, carrying the
values that are formatted. -/
inductive Msg
  | banner
  | usage (basename : CStr)
  | missingDump
  | usingSpecifiedOffset (offset : Nat)
  | missingOffset
  | unknownParameter (arg : CStr)
  | prefixTooLong
  | openFailed (filename : CStr)
  | readFailedHeader
  | notRecognised
  | fileHeaderVEC
  | fileHeader (buf : CStr)
  | mmfwVersion (mmVersion : Nat)
  | recognisedFile (name : CStr) (offset : Nat)
  | usingDefaultOffset (offset : Nat)
  | readFailedCount
  | resourceCount (n : Int)
  | noResources
  | memOffsets
  | memSizes
  | readFailedOffsets
  | readFailedSizes
  | hasNames (b : Bool)
  | memNames
  | readFailedNames
  | block (i offset size : Nat) (label : CStr)
  | dumpResourceFailed
  | dumpedTo (filename : CStr)
  | newline
  | dumpOpenFailed (filename : CStr)
  | dumpReadFailed
  | dumpWriteFailed
deriving DecidableEq, Repr

/-- What the program does to the outside, in order. -/
inductive Event
  | printf (m : Msg)
  | fopenRead (filename : CStr)
  | fseek (pos : Nat)
  | fread (pos count : Nat)
  | malloc (bytes : Nat)
  | fopenWrite (filename : CStr)
  | fwrite (filename : CStr) (bytes : List Byte)
  | fclose (filename : CStr)
  | fcloseInput
deriving DecidableEq, Repr

structure World where
  f : FILE
  log : List Event
deriving DecidableEq, Repr

/-- Everything the program takes from its host. -/
structure Env where
  /-- Byte order of the host. -/
  littleEndian : Bool
  /-- The value `sscanf(s, "%x", &offset)` stores, `none` when nothing is converted. -/
  sscanfHex : CStr → Option Nat
  /-- The file system: the content of a file that `fopen(name, "rb")` can open. -/
  fileContent : CStr → Option (List Byte)
  /-- Whether `malloc` of that many bytes returns a non-NULL pointer, after the events so
  far. -/
  mallocOk : List Event → Nat → Bool
  /-- Whether `fopen(name, "wb")` succeeds, after the events so far. -/
  fopenWriteOk : List Event → CStr → Bool
  /-- Whether `fwrite` of that block to that output file writes all of it, after the events
  so far. -/
  fwriteOk : List Event → CStr → List Byte → Bool

/-- Result of a piece of `main`: it goes on with a value, or `main` has returned a status. -/
inductive Res (α : Type)
  | ok (a : α) (w : World)
  | exit (status : Nat) (w : World)
deriving Repr

/-- A piece of `main`: a function of the world that goes on or returns from `main`. -/
def M (α : Type) : Type := World → Res α

def M.pure {α : Type} (a : α) : M α := fun w => .ok a w

def M.bind {α β : Type} (m : M α) (k : α → M β) : M β := fun w =>
  match m w with
  | .ok a w1 => k a w1
  | .exit s w1 => .exit s w1

instance : Monad M where
  pure := M.pure
  bind := M.bind

/-- A `return status;` of `main`. -/
def exit {α : Type} (status : Nat) : M α := fun w => .exit status w

def emit (e : Event) : M Unit := fun w => .ok () { w with log := w.log ++ [e] }

def printf (m : Msg) : M Unit := emit (.printf m)

/-- `fseek(f, pos, SEEK_SET)`. -/
def fseek (pos : Nat) : M Unit := fun w =>
  .ok () { f := { w.f with pos := pos }, log := w.log ++ [.fseek pos] }

/-- `fseek(f, delta, SEEK_CUR)`. -/
def fseekCur (delta : Nat) : M Unit := fun w =>
  .ok () { f := { w.f with pos := w.f.pos + delta }, log := w.log ++ [.fseek (w.f.pos + delta)] }

/-- `ftell(f)`. -/
def ftell : M Nat := fun w => .ok w.f.pos w

/-- An `fread` of `count` bytes in all (`fread(p,1,count,f)` or `fread(p,count,1,f)`):
the bytes when all of them are there, `none` for a short read (which leaves the stream at
the end of the file). -/
def fread (count : Nat) : M (Option (List Byte)) := fun w =>
  if w.f.pos + count ≤ w.f.data.length then
    .ok (some ((w.f.data.drop w.f.pos).take count))
      { f := { w.f with pos := w.f.pos + count }, log := w.log ++ [.fread w.f.pos count] }
  else
    .ok none
      { f := { w.f with pos := max w.f.pos w.f.data.length },
        log := w.log ++ [.fread w.f.pos count] }

/-- `malloc(bytes)`: whether the pointer is non-NULL. -/
def malloc (env : Env) (bytes : Nat) : M Bool := fun w =>
  .ok (env.mallocOk w.log bytes) { w with log := w.log ++ [.malloc bytes] }

/-- `fopen(filename, "wb")`: whether the stream is non-NULL. -/
def fopenWrite (env : Env) (filename : CStr) : M Bool := fun w =>
  .ok (env.fopenWriteOk w.log filename) { w with log := w.log ++ [.fopenWrite filename] }

/-- `fwrite(buf, 1, count, fout)`: whether all `count` bytes were written. -/
def fwrite (env : Env) (filename : CStr) (buf : List Byte) : M Bool := fun w =>
  .ok (env.fwriteOk w.log filename buf) { w with log := w.log ++ [.fwrite filename buf] }

/-! ## dumpResource (mmex.c lines 75-122) -/

/-- The block loop of `dumpResource`, `for(bytesLeft = byteCount; bytesLeft > 0; )`.
The result is 1 when the function has returned 1 from inside the loop, 0 when the loop has
ended.  The first argument bounds the number of iterations; `bytesLeft` itself is enough,
since every iteration takes at least one byte off it. -/
def copyBlocks (env : Env) (filename : CStr) : Nat → Nat → M Nat
  | 0, _ => pure 0
  | fuel + 1, bytesLeft =>
    if bytesLeft > 0 then do
      let count := if bytesLeft < BLOCKSIZE then bytesLeft else BLOCKSIZE
      let some buf ← fread count
        | do printf .dumpReadFailed; pure 1
      let written ← fwrite env filename buf
      if !written then do
        printf .dumpWriteFailed
        pure 1
      else
        copyBlocks env filename fuel (bytesLeft - count)
    else pure 0

/-- `dumpResource(fin, offset, byteCount, filename)`; the result is its return value. -/
def dumpResource (env : Env) (offset byteCount : Nat) (filename : CStr) : M Nat := do
  let fout ← fopenWrite env filename
  if !fout then do
    printf (.dumpOpenFailed filename)
    pure 1
  else do
    let oldPos ← ftell
    fseek offset
    let r ← copyBlocks env filename byteCount byteCount
    if r != 0 then pure 1
    else do
      emit (.fclose filename)
      fseek oldPos
      pure 0

/-! ## main (mmex.c lines 155-384) -/

/-- The local variables of `main` that the command line sets. -/
structure Options where
  outPrefix : CStr
  outExt : CStr
  dump : Bool
  usenames : Bool
  offset : Nat
  offsetFound : Bool
deriving DecidableEq, Repr

/-- The initial values (lines 182-187). -/
def Options.init : Options :=
  { outPrefix := [], outExt := cstr ".bin", dump := false, usenames := false,
    offset := 0x22, offsetFound := false }

/-- The part of `s` after the last `c`, if `c` occurs (`strrchr(s, c) + 1`). -/
def afterLast (c : Byte) : CStr → Option CStr
  | [] => none
  | x :: xs =>
    match afterLast c xs with
    | some t => some t
    | none => if x == c then some xs else none

/-- The display name of the executable (lines 158-166). -/
def basename (argv : List CStr) : CStr :=
  match argv with
  | [] => cstr "mmex"
  | a0 :: _ =>
    match afterLast (ch '\\') a0 with
    | some b => b
    | none =>
      match afterLast (ch '/') a0 with
      | some b => b
      | none => a0

/-- The argument loop `for(int i=2; i<argc; i++)` over the arguments not yet looked at. -/
def parseArgs (env : Env) : List CStr → Options → M Options
  | [], o => pure o
  | a :: rest, o =>
    if strncmpEq a (cstr "-usenames") 9 then
      parseArgs env rest { o with usenames := true }
    else if strncmpEq a (cstr "-dump") 5 then
      match rest with
      | p :: rest1 => parseArgs env rest1 { o with outPrefix := p, dump := true }
      | [] => do printf .missingDump; exit 1
    else if strncmpEq a (cstr "-offset") 7 then
      match rest with
      | p :: rest1 => do
        let offset := match env.sscanfHex p with
          | some v => v % 2 ^ 32
          | none => o.offset
        printf (.usingSpecifiedOffset offset)
        parseArgs env rest1 { o with offset := offset, offsetFound := true }
      | [] => do printf .missingOffset; exit 1
    else do
      printf (.unknownParameter a)
      parseArgs env rest o

/-- What the header decides: the variant, the offset of the resource table, the extension
of the files written. -/
structure Layout where
  isVEC : Bool
  offset : Nat
  outExt : CStr
deriving DecidableEq, Repr

/-- The loop over `knownFiles` (lines 265-273): the first entry whose magic is at `fileID`. -/
def lookupKnown (fileID : List Byte) : List KNOWN_FILES → Option KNOWN_FILES
  | [] => none
  | k :: ks => if memcmpEq fileID k.magic 6 then some k else lookupKnown fileID ks

/-- Lines 230-277: read the header, check the magic, look the file up among the known
files. -/
def detect (env : Env) (opts : Options) : M Layout := do
  fseek 0
  let some buf ← fread 26
    | do printf .readFailedHeader; exit 1
  let (isVEC, offset, offsetFound) ←
    (if !memcmpEq buf magicStr 5 || !memcmpEq (buf.drop 0x0F) subKindMarker 3 then
      if !memcmpEq buf magicStr2 23 then do
        printf .notRecognised
        exit 1
      else pure (true, 0x17, true)
    else pure (false, opts.offset, opts.offsetFound) : M (Bool × Nat × Bool))
  if isVEC then printf .fileHeaderVEC else printf (.fileHeader (untilNul buf))
  let mmVersion := reverseByteOrder2 env.littleEndian (load16 env.littleEndian (buf.drop 0x12))
  printf (.mmfwVersion mmVersion)
  let fileID := buf.drop 0x14
  let (offset, offsetFound, outExt) ←
    (match lookupKnown fileID knownFiles with
      | some k => do
        printf (.recognisedFile k.name k.offset)
        pure (k.offset, true, k.ext)
      | none => pure (offset, offsetFound, opts.outExt) : M (Nat × Bool × CStr))
  if !offsetFound then printf (.usingDefaultOffset offset)
  pure { isVEC := isVEC, offset := offset, outExt := outExt }

/-- Conversion of a wider integer to `int`: reduction modulo `2^32` into `[-2^31, 2^31)`. -/
def toInt32 (z : Int) : Int := (z + 2 ^ 31) % 2 ^ 32 - 2 ^ 31

/-- The table loop `for(uint16_t i=0; i<resCount; i++)` (lines 312-326); the first argument
is the number of iterations still to run, the arrays are filled from index 0 upwards. -/
def readTable (env : Env) (isVEC : Bool) : Nat → List Nat → List Nat → M (List Nat × List Nat)
  | 0, offsets, sizes => pure (offsets, sizes)
  | k + 1, offsets, sizes => do
    let some num ← fread 4
      | do printf .readFailedOffsets; exit 1
    let offsets := offsets ++ [reverseByteOrder4 env.littleEndian (load32 env.littleEndian num)]
    if isVEC then do
      let some num ← fread 4
        | do printf .readFailedSizes; exit 1
      readTable env isVEC k offsets
        (sizes ++ [reverseByteOrder4 env.littleEndian (load32 env.littleEndian num)])
    else
      readTable env isVEC k offsets sizes

/-- The name loop `for(uint16_t i=0; i<resCount; i++)` (lines 350-355), one 32-byte record
per iteration. -/
def readNames : Nat → List (List Byte) → M (List (List Byte))
  | 0, names => pure names
  | k + 1, names => do
    let some record ← fread NAME_SIZE
      | do printf .readFailedNames; exit 1
    readNames k (names ++ [record])

/-- What `%s` prints for `names[i].str`: the bytes from the start of record `i` up to the
first NUL of the buffer (a record without NUL runs on into the next one). -/
def nameStr (names : List (List Byte)) (i : Nat) : CStr := untilNul (names.drop i).flatten

/-- The conversion `%05u`. -/
def fmt05u (i : Nat) : CStr :=
  let digits := (Nat.toDigits 10 i).map ch
  List.replicate (5 - digits.length) (ch '0') ++ digits

/-- The listing loop `for(uint16_t i=0; i<(resCount-1); i++)` (lines 358-379); the first
argument is the number of iterations still to run. -/
def listLoop (env : Env) (opts : Options) (lay : Layout) (hasNames : Bool)
    (offsets sizes : List Nat) (names : List (List Byte)) : Nat → Nat → M Unit
  | 0, _ => pure ()
  | k + 1, i => do
    let size := (offsets.getD (i + 1) 0 + 2 ^ 32 - offsets.getD i 0) % 2 ^ 32
    let size := if lay.isVEC then sizes.getD i 0 else size
    printf (.block i (offsets.getD i 0) size (if hasNames then nameStr names i else []))
    if opts.dump then do
      let filename :=
        if !opts.usenames || !hasNames then opts.outPrefix ++ fmt05u i ++ lay.outExt
        else opts.outPrefix ++ nameStr names i
      let r ← dumpResource env (offsets.getD i 0) size filename
      if r != 0 then do
        printf .dumpResourceFailed
        exit 1
      printf (.dumpedTo filename)
    printf .newline
    listLoop env opts lay hasNames offsets sizes names k (i + 1)

/-- Lines 279-293: seek to the table, read the 16-bit resource count, add 1 for the last
offset (the end-of-file offset), refuse a count of 0. The result is `resCount` after the
increment. -/
def readCount (env : Env) (lay : Layout) : M Nat := do
  fseek lay.offset
  let some countBytes ← fread 2
    | do printf .readFailedCount; exit 1
  let resCount : Nat := reverseByteOrder2 env.littleEndian (load16 env.littleEndian countBytes)
  let resCount : Nat := (resCount + 1) % 2 ^ 16
  printf (.resourceCount ((resCount : Int) - 1))
  if resCount == 0 then do
    printf .noResources
    exit 1
  pure resCount

/-- Lines 295-310: allocate `offsets`, and `sizes` for a Vector file. -/
def allocTable (env : Env) (lay : Layout) (resCount : Nat) : M Unit := do
  let okOffsets ← malloc env (4 * resCount)
  if !okOffsets then do
    printf .memOffsets
    exit 1
  if lay.isVEC then do
    let okSizes ← malloc env (4 * resCount)
    if !okSizes then do
      printf .memSizes
      exit 1

/-- Lines 328-356: skip the two null bytes, decide from the gap before the first resource
whether there are names, and read them. The result is `hasNames` and the name records. -/
def findNames (env : Env) (lay : Layout) (resCount : Nat) (offsets : List Nat) :
    M (Bool × List (List Byte)) := do
  if lay.offset != 0x1A then fseekCur 2
  let pos ← ftell
  let gap := toInt32 ((offsets.getD 0 0 : Int) - (pos : Int))
  let hasNames := decide (gap ≥ 32 * ((resCount : Int) - 1))
  printf (.hasNames hasNames)
  if hasNames then do
    let okNames ← malloc env (resCount * NAME_SIZE)
    if !okNames then do
      printf .memNames
      exit 1
    let names ← readNames resCount []
    pure (hasNames, names)
  else pure (hasNames, [])

/-- Lines 328-383: decide on the names, read them, list (and dump) the resources, close the
input and return 0. -/
def listAll (env : Env) (opts : Options) (lay : Layout) (resCount : Nat)
    (offsets sizes : List Nat) : M Unit := do
  let (hasNames, names) ← findNames env lay resCount offsets
  listLoop env opts lay hasNames offsets sizes names (resCount - 1) 0
  emit .fcloseInput
  exit 0

/-- Lines 279-383: read the resource count and the table, decide whether there are names,
read them, list (and dump) the resources. -/
def parse (env : Env) (opts : Options) (lay : Layout) : M Unit := do
  let resCount ← readCount env lay
  allocTable env lay resCount
  let (offsets, sizes) ← readTable env lay.isVEC resCount [] []
  listAll env opts lay resCount offsets sizes

/-- Everything `main` does with the opened input file (lines 230-383). -/
def run (env : Env) (opts : Options) : M Unit := do
  let lay ← detect env opts
  parse env opts lay

/-- The function `main`, on `argv`. -/
def main (env : Env) (argv : List CStr) : M Unit := do
  printf .banner
  if argv.length < 2 then do
    printf (.usage (basename argv))
    exit 0
  let filename := argv.getD 1 []
  let opts ← parseArgs env (argv.drop 2) Options.init
  if opts.outPrefix.length > 256 then do
    printf .prefixTooLong
    exit 1
  emit (.fopenRead filename)
  match env.fileContent filename with
  | none => do
    printf (.openFailed filename)
    exit 1
  | some data =>
    fun w => run env opts { w with f := { data := data, pos := 0 } }

/-- What a run shows to the outside. -/
structure Outcome where
  status : Nat
  log : List Event
deriving DecidableEq, Repr

def Res.outcome {α : Type} : Res α → Outcome
  | .ok _ w => { status := 0, log := w.log }
  | .exit s w => { status := s, log := w.log }

/-- The run of the program on an opened input file holding `data`. -/
def runFile (env : Env) (opts : Options) (data : List Byte) : Outcome :=
  (run env opts { f := { data := data, pos := 0 }, log := [] }).outcome

/-- The run of the program on a command line. -/
def runMain (env : Env) (argv : List CStr) : Outcome :=
  (main env argv { f := { data := [], pos := 0 }, log := [] }).outcome

/-- The resources a log lists: index, offset, size and label of every `block` line. -/
def listed : List Event → List (Nat × Nat × Nat × CStr)
  | [] => []
  | .printf (.block i offset size label) :: es => (i, offset, size, label) :: listed es
  | _ :: es => listed es

/-! ## Reading the outcome of a piece of the program -/

inductive Variant
  | standard
  | vector
deriving DecidableEq, Repr

/-- The variant a run of `detect` has decided on, `none` when `main` has returned. -/
def Res.variant : Res Layout → Option Variant
  | .ok lay _ => some (if lay.isVEC then .vector else .standard)
  | .exit _ _ => none

/-- The layout `detect` goes on with, `none` when `main` has returned. -/
def Res.layout : Res Layout → Option Layout
  | .ok lay _ => some lay
  | .exit _ _ => none

/-- The world in which the input file `data` has just been opened. -/
def opened (data : List Byte) : World := { f := { data := data, pos := 0 }, log := [] }

/-- The events a piece of the program has performed when it goes on or returns. -/
def Res.log {α : Type} : Res α → List Event
  | .ok _ w => w.log
  | .exit _ w => w.log

/-- The bytes a sequence of events writes to the output file `filename`, in order. -/
def written (filename : CStr) : List Event → List Byte
  | [] => []
  | .fwrite name bytes :: es =>
    if name = filename then bytes ++ written filename es else written filename es
  | _ :: es => written filename es

/-- The names of the output files a sequence of events opens, in order. -/
def opens : List Event → List CStr
  | [] => []
  | .fopenWrite name :: es => name :: opens es
  | _ :: es => opens es

/-! ## What a file gives: the count, the table, the names -/

/-- The value of two bytes read as a big-endian 16-bit number. -/
def be16 (b : List Byte) : Nat := 2 ^ 8 * (b.getD 0 0).val + (b.getD 1 0).val

/-- The value of four bytes read as a big-endian 32-bit number. -/
def be32 (b : List Byte) : Nat :=
  2 ^ 24 * (b.getD 0 0).val + 2 ^ 16 * (b.getD 1 0).val + 2 ^ 8 * (b.getD 2 0).val
    + (b.getD 3 0).val

/-- The big-endian 16-bit number at position `p` of the file. -/
def be16At (data : List Byte) (p : Nat) : Nat := be16 (data.drop p)

/-- The big-endian 32-bit number at position `p` of the file. -/
def be32At (data : List Byte) (p : Nat) : Nat := be32 (data.drop p)

/-- Bytes one table entry takes: an offset, and for a Vector file a size after it. -/
def entryWidth (isVEC : Bool) : Nat := if isVEC then 8 else 4

/-- The resource count after the increment, as the file gives it: the big-endian 16-bit
field at the table offset, plus 1, as a `uint16_t`. -/
def adjustedCount (data : List Byte) (lay : Layout) : Nat :=
  (be16At data lay.offset + 1) % 2 ^ 16

/-- The position after the count and `n` table entries. -/
def tableEnd (lay : Layout) (n : Nat) : Nat := lay.offset + 2 + entryWidth lay.isVEC * n

/-- The `n` offsets of the table, as the file gives them. -/
def tableOffsets (data : List Byte) (lay : Layout) (n : Nat) : List Nat :=
  (List.range n).map (fun j => be32At data (lay.offset + 2 + entryWidth lay.isVEC * j))

/-- The `n` explicit sizes of the table of a Vector file, as the file gives them. -/
def tableSizes (data : List Byte) (lay : Layout) (n : Nat) : List Nat :=
  if lay.isVEC then (List.range n).map (fun j => be32At data (lay.offset + 2 + 8 * j + 4))
  else []

/-- The position at which the names are looked for: after the table and, unless the table
is at 0x1A, two more bytes. -/
def padded (lay : Layout) (p : Nat) : Nat := if lay.offset != 0x1A then p + 2 else p

/-- The decision on the names (lines 334-338) for the first offset, the position after the
table and padding, and the incremented resource count. -/
def namesDecision (offset0 pos resCount : Nat) : Bool :=
  decide (toInt32 ((offset0 : Int) - (pos : Int)) ≥ 32 * ((resCount : Int) - 1))

/-- The `k` name records of 32 bytes found from position `q` of the file. -/
def nameRecords (data : List Byte) (q k : Nat) : List (List Byte) :=
  (List.range k).map (fun j => (data.drop (q + 32 * j)).take 32)

/-- The `block` line the listing loop prints for index `i`, from the arrays it is given. -/
def entryOf (isVEC hasNames : Bool) (offsets sizes : List Nat) (names : List (List Byte))
    (i : Nat) : Nat × Nat × Nat × CStr :=
  (i, offsets.getD i 0,
    if isVEC then sizes.getD i 0
    else (offsets.getD (i + 1) 0 + 2 ^ 32 - offsets.getD i 0) % 2 ^ 32,
    if hasNames then nameStr names i else [])

/-- The decision on the names, as the file gives it. -/
def fileHasNames (data : List Byte) (lay : Layout) : Bool :=
  namesDecision ((tableOffsets data lay (adjustedCount data lay)).getD 0 0)
    (padded lay (tableEnd lay (adjustedCount data lay))) (adjustedCount data lay)

/-- The `block` line for index `i`, as the file gives it. -/
def fileEntry (data : List Byte) (lay : Layout) (i : Nat) : Nat × Nat × Nat × CStr :=
  entryOf lay.isVEC (fileHasNames data lay)
    (tableOffsets data lay (adjustedCount data lay))
    (tableSizes data lay (adjustedCount data lay))
    (nameRecords data (padded lay (tableEnd lay (adjustedCount data lay)))
      (adjustedCount data lay)) i

/-! ## The events of each part of the run -/

/-- The reads of the table loop over `k` entries from position `p`. -/
def tableReads (isVEC : Bool) : Nat → Nat → List Event
  | _, 0 => []
  | p, k + 1 =>
    (if isVEC then [Event.fread p 4, Event.fread (p + 4) 4] else [Event.fread p 4])
      ++ tableReads isVEC (p + entryWidth isVEC) k

/-- The events of reading the count. -/
def countEvents (lay : Layout) (n : Nat) : List Event :=
  [.fseek lay.offset, .fread lay.offset 2, .printf (.resourceCount ((n : Int) - 1))]

/-- The allocations of the table. -/
def allocEvents (lay : Layout) (n : Nat) : List Event :=
  if lay.isVEC then [.malloc (4 * n), .malloc (4 * n)] else [.malloc (4 * n)]

/-- Whether the allocations of the table succeed after the events `log`. -/
def allocOk (env : Env) (lay : Layout) (n : Nat) (log : List Event) : Bool :=
  env.mallocOk log (4 * n) &&
    (!lay.isVEC || env.mallocOk (log ++ [.malloc (4 * n)]) (4 * n))

/-- The seek over the two null bytes, if it is made. -/
def padEvents (lay : Layout) (p : Nat) : List Event :=
  if lay.offset != 0x1A then [.fseek (p + 2)] else []

/-- Whether an event is a `block` line of the listing. -/
def isBlock : Event → Bool
  | .printf (.block _ _ _ _) => true
  | _ => false

/-- The events of `detect`. -/
def detectEvent : Event → Bool
  | .fseek _ => true
  | .fread _ _ => true
  | .printf .readFailedHeader => true
  | .printf .notRecognised => true
  | .printf .fileHeaderVEC => true
  | .printf (.fileHeader _) => true
  | .printf (.mmfwVersion _) => true
  | .printf (.recognisedFile _ _) => true
  | .printf (.usingDefaultOffset _) => true
  | _ => false

/-- The events before the decision on the names: reading the count, allocating and reading
the table, skipping the two null bytes. -/
def preEvent : Event → Bool
  | .fseek _ => true
  | .fread _ _ => true
  | .malloc _ => true
  | .printf .readFailedCount => true
  | .printf (.resourceCount _) => true
  | .printf .noResources => true
  | .printf .memOffsets => true
  | .printf .memSizes => true
  | .printf .readFailedOffsets => true
  | .printf .readFailedSizes => true
  | _ => false

/-- The events the table loop can perform. -/
def tableEvent : Event → Bool
  | .fread _ 4 => true
  | .printf .readFailedOffsets => true
  | .printf .readFailedSizes => true
  | _ => false

/-- The events the name loop can perform. -/
def namesEvent : Event → Bool
  | .fread _ 32 => true
  | .printf .readFailedNames => true
  | _ => false

/-- The events `dumpResource` can perform. -/
def dumpEvent : Event → Bool
  | .fopenWrite _ => true
  | .fseek _ => true
  | .fread _ _ => true
  | .fwrite _ _ => true
  | .fclose _ => true
  | .printf (.dumpOpenFailed _) => true
  | .printf .dumpReadFailed => true
  | .printf .dumpWriteFailed => true
  | _ => false

/-- The events of the listing loop that are not a `block` line. -/
def loopEvent : Event → Bool
  | .printf .newline => true
  | .printf (.dumpedTo _) => true
  | .printf .dumpResourceFailed => true
  | e => dumpEvent e

/-- The events after the decision on the names: the reading of the names, the listing, the
closing of the input. -/
def tailEvent : Event → Bool
  | .malloc _ => true
  | .printf .memNames => true
  | .printf .readFailedNames => true
  | .printf (.block _ _ _ _) => true
  | .fcloseInput => true
  | e => loopEvent e

/-! ## The events of a listing that runs to its end -/

/-- The events of a block loop of `dumpResource` that runs to its end from position `p` with
`bytesLeft` bytes to copy: one read and one write per block. -/
def copyEvents (filename : CStr) (data : List Byte) : Nat → Nat → Nat → List Event
  | 0, _, _ => []
  | fuel + 1, p, bytesLeft =>
    if bytesLeft > 0 then
      .fread p (if bytesLeft < BLOCKSIZE then bytesLeft else BLOCKSIZE) ::
        .fwrite filename
          ((data.drop p).take (if bytesLeft < BLOCKSIZE then bytesLeft else BLOCKSIZE)) ::
        copyEvents filename data fuel (p + (if bytesLeft < BLOCKSIZE then bytesLeft else BLOCKSIZE))
          (bytesLeft - (if bytesLeft < BLOCKSIZE then bytesLeft else BLOCKSIZE))
    else []

/-- The events of a call `dumpResource(f, offset, byteCount, filename)` that returns 0, made
with the input at `oldPos`. -/
def dumpEvents (filename : CStr) (data : List Byte) (oldPos offset byteCount : Nat) :
    List Event :=
  [.fopenWrite filename, .fseek offset] ++ copyEvents filename data byteCount offset byteCount ++
    [.fclose filename, .fseek oldPos]

/-- The name of the file written for resource `i` (lines 366-371). -/
def outName (opts : Options) (lay : Layout) (hasNames : Bool) (names : List (List Byte))
    (i : Nat) : CStr :=
  if !opts.usenames || !hasNames then opts.outPrefix ++ fmt05u i ++ lay.outExt
  else opts.outPrefix ++ nameStr names i

/-- The events of one turn of the listing loop that goes on to the next, for the resource
with index, offset, size and label `e`, with the input at `pos`. -/
def listEvents (opts : Options) (lay : Layout) (hasNames : Bool) (names : List (List Byte))
    (data : List Byte) (pos : Nat) (e : Nat × Nat × Nat × CStr) : List Event :=
  .printf (.block e.1 e.2.1 e.2.2.1 e.2.2.2) ::
    (if opts.dump then
      dumpEvents (outName opts lay hasNames names e.1) data pos e.2.1 e.2.2.1 ++
        [.printf (.dumpedTo (outName opts lay hasNames names e.1))]
    else []) ++ [.printf .newline]

/-- Whether an event is neither a `block` line nor the opening of an output file nor a write
to one. -/
def silent : Event → Bool
  | .printf (.block _ _ _ _) => false
  | .fopenWrite _ => false
  | .fwrite _ _ => false
  | _ => true

/-! ## Sample inputs -/

/-- A little-endian host on which every allocation and every write succeeds, with an empty
file system and an `sscanf` that converts nothing. -/
def sampleEnv : Env :=
  { littleEndian := true, sscanfHex := fun _ => none, fileContent := fun _ => none,
    mallocOk := fun _ _ => true, fopenWriteOk := fun _ _ => true,
    fwriteOk := fun _ _ _ => true }

/-- The bytes of a 16-bit value, big-endian. -/
def bytes16 (v : Nat) : List Byte := [Fin.ofNat (v / 2 ^ 8), Fin.ofNat v]

/-- The bytes of a 32-bit value, big-endian. -/
def bytes32 (v : Nat) : List Byte :=
  [Fin.ofNat (v / 2 ^ 24), Fin.ofNat (v / 2 ^ 16), Fin.ofNat (v / 2 ^ 8), Fin.ofNat v]

/-- A 26-byte Standard header: `"MMFW Pictures"`, the marker at 0x0F, version 3, and six
bytes at 0x14 that belong to no known file. -/
def sampleStdHeader : List Byte :=
  cstr "MMFW Pictures" ++ [0, 0, 0, ch 'M', ch 'M', 0, 3, 1, 2, 3, 4, 5, 6]

/-- A 26-byte Vector header: the magic and three more bytes. -/
def sampleVecHeader : List Byte := cstr "Vector File Version 1.0" ++ [0, 0, 1]

/-- A Standard header carrying the signature of the known file `TarzanPI.mmp` at 0x14. -/
def sampleKnownHeader : List Byte :=
  cstr "MMFW Pictures" ++ [0, 0, 0, ch 'M', ch 'M', 0, 3, 0x45, 0x02, 0x9d, 0x88, 0x00, 0x65]

/-- A Standard file of 250 bytes: the sample header, eight more bytes, at the default offset
0x22 the count field 3 and the offsets 100, 150, 200, 250, then the resource data. -/
def sampleStdFile : List Byte :=
  sampleStdHeader ++ List.replicate 8 0 ++ bytes16 3 ++
    bytes32 100 ++ bytes32 150 ++ bytes32 200 ++ bytes32 250 ++ List.replicate 198 7

/-- A Vector file of 70 bytes: the magic, at 0x17 the count field 1, then the pairs
(offset 60, size 5) and (offset 50, size 7), then data. -/
def sampleVecFile : List Byte :=
  cstr "Vector File Version 1.0" ++ bytes16 1 ++ bytes32 60 ++ bytes32 5 ++ bytes32 50 ++
    bytes32 7 ++ List.replicate 29 9

/-- A Standard file whose table decreases: count field 1, offsets 60 and 50. -/
def sampleDecreasingFile : List Byte :=
  sampleStdHeader ++ List.replicate 8 0 ++ bytes16 1 ++ bytes32 60 ++ bytes32 50 ++
    List.replicate 20 7

/-- A Standard file with the count field 0: only the end-of-file offset 40 is in the
table. -/
def sampleZeroCountFile : List Byte :=
  sampleStdHeader ++ List.replicate 8 0 ++ bytes16 0 ++ bytes32 40

/-- A Standard file whose first offset is 0xFFFFFFFF: count field 1, offsets 0xFFFFFFFF
and 0. -/
def sampleWrapFile : List Byte :=
  sampleStdHeader ++ List.replicate 8 0 ++ bytes16 1 ++ bytes32 0xFFFFFFFF ++ bytes32 0 ++
    List.replicate 20 7

/-- A Standard file in which the gap before the first resource is exactly 32 bytes for one
resource: count field 1, offsets 78 and 80, the table ends at 44, the names are looked for
at 46; two name records and the data follow. -/
def sampleBoundaryFile : List Byte :=
  sampleStdHeader ++ List.replicate 8 0 ++ bytes16 1 ++ bytes32 78 ++ bytes32 80 ++ [0, 0] ++
    (cstr "abc" ++ List.replicate 29 0) ++ List.replicate 32 0 ++ [1, 2]

/-- The same file with the first offset one byte lower: a gap of 31 bytes. -/
def sampleBelowFile : List Byte :=
  sampleStdHeader ++ List.replicate 8 0 ++ bytes16 1 ++ bytes32 77 ++ bytes32 80 ++ [0, 0] ++
    (cstr "abc" ++ List.replicate 29 0) ++ List.replicate 32 0 ++ [1, 2]

/-- A Standard file whose count field is 1000 although the file has 46 bytes. -/
def sampleAbsurdFile : List Byte :=
  sampleStdHeader ++ List.replicate 8 0 ++ bytes16 1000 ++ bytes32 60 ++ bytes32 70 ++ [0, 0]

/-- A Standard file with one resource of four bytes and no names: count field 1, offsets
50 and 54. -/
def sampleDumpFile : List Byte :=
  sampleStdHeader ++ List.replicate 8 0 ++ bytes16 1 ++ bytes32 50 ++ bytes32 54 ++
    [0, 0, 0, 0, 0, 0, 10, 11, 12, 13]

/-- The sample host with one file, `in.mmp`, in its file system. -/
def sampleEnvWithFile : Env :=
  { sampleEnv with
    fileContent := fun name => if name = cstr "in.mmp" then some sampleDumpFile else none }

/-- The command line `mmex in.mmp -dump out -ext .cgm`. -/
def sampleExtArgv : List CStr :=
  [cstr "mmex", cstr "in.mmp", cstr "-dump", cstr "out", cstr "-ext", cstr ".cgm"]

/-- A Standard file whose count field is 0xFFFF. -/
def sampleNoResourcesFile : List Byte :=
  sampleStdHeader ++ List.replicate 8 0 ++ bytes16 0xFFFF ++ bytes32 60 ++ bytes32 70

/-- A table of ten bytes: count field 1, offsets 0 and 0. -/
def sampleEndTable : List Byte := bytes16 1 ++ bytes32 0 ++ bytes32 0

/-- A Standard file of `2^31 - 1` bytes whose last ten bytes, from `2^31 - 11`, are
`sampleEndTable`. -/
def sampleHugeFile : List Byte :=
  sampleStdHeader ++ List.replicate (2 ^ 31 - 37) 0 ++ sampleEndTable

/-- The options after `-offset 7FFFFFF5`. -/
def sampleHugeOpts : Options :=
  { Options.init with offset := 2 ^ 31 - 11, offsetFound := true }

/-- The options of `-dump out`. -/
def sampleDumpOpts : Options := { Options.init with outPrefix := cstr "out", dump := true }

/-- A Standard file that carries the signature of the known file `TarzanPI.mmp` and has a
name table: count field 1, offsets 78 and 80, names looked for at 46, first name `abc`. -/
def sampleKnownNamesFile : List Byte :=
  sampleKnownHeader ++ List.replicate 8 0 ++ bytes16 1 ++ bytes32 78 ++ bytes32 80 ++ [0, 0] ++
    (cstr "abc" ++ List.replicate 29 0) ++ List.replicate 32 0 ++ [1, 2]

/-- The options of `-dump out -usenames`. -/
def sampleUsenamesOpts : Options :=
  { Options.init with outPrefix := cstr "out", dump := true, usenames := true }

/-- A Vector file that carries the signature of the known file `MUpsVec.VEC`: the magic, at
0x17 the count field 250, and a table of 251 pairs, all zero. -/
def sampleCgmFile : List Byte :=
  cstr "Vector File Version 1.0" ++ [0x00, 0xFA] ++ List.replicate 2008 0

/-- The options of `-dump out -offset 50`. -/
def sampleCgmOpts : Options :=
  { sampleDumpOpts with offset := 0x50, offsetFound := true }

/-! # Lemmas -/

/-! ## The monad, step by step -/

section lemmas
variable {α β : Type}

@[simp] theorem bind_apply (m : M α) (k : α → M β) (w : World) :
    (m >>= k) w = match m w with
      | .ok a w1 => k a w1
      | .exit s w1 => .exit s w1 := rfl

@[simp] theorem pure_apply (a : α) (w : World) : (pure a : M α) w = .ok a w := rfl

@[simp] theorem exit_apply (s : Nat) (w : World) : (exit s : M α) w = .exit s w := rfl

@[simp] theorem emit_apply (e : Event) (w : World) :
    emit e w = .ok () { w with log := w.log ++ [e] } := rfl

@[simp] theorem printf_apply (m : Msg) (w : World) :
    printf m w = .ok () { w with log := w.log ++ [.printf m] } := rfl

@[simp] theorem fseek_apply (pos : Nat) (w : World) :
    fseek pos w = .ok () { f := { w.f with pos := pos }, log := w.log ++ [.fseek pos] } := rfl

@[simp] theorem fseekCur_apply (delta : Nat) (w : World) :
    fseekCur delta w =
      .ok () ⟨{ w.f with pos := w.f.pos + delta }, w.log ++ [.fseek (w.f.pos + delta)]⟩ := rfl

@[simp] theorem ftell_apply (w : World) : ftell w = .ok w.f.pos w := rfl

@[simp] theorem malloc_apply (env : Env) (bytes : Nat) (w : World) :
    malloc env bytes w =
      .ok (env.mallocOk w.log bytes) { w with log := w.log ++ [.malloc bytes] } := rfl

@[simp] theorem fopenWrite_apply (env : Env) (filename : CStr) (w : World) :
    fopenWrite env filename w =
      .ok (env.fopenWriteOk w.log filename) { w with log := w.log ++ [.fopenWrite filename] } :=
  rfl

@[simp] theorem fwrite_apply (env : Env) (filename : CStr) (buf : List Byte) (w : World) :
    fwrite env filename buf w =
      .ok (env.fwriteOk w.log filename buf)
        { w with log := w.log ++ [.fwrite filename buf] } := rfl

theorem fread_ok (count : Nat) (w : World) (h : w.f.pos + count ≤ w.f.data.length) :
    fread count w = .ok (some ((w.f.data.drop w.f.pos).take count))
      { f := { w.f with pos := w.f.pos + count }, log := w.log ++ [.fread w.f.pos count] } := by
  simp [fread, h]

theorem fread_short (count : Nat) (w : World) (h : ¬ w.f.pos + count ≤ w.f.data.length) :
    fread count w = .ok none
      { f := { w.f with pos := max w.f.pos w.f.data.length },
        log := w.log ++ [.fread w.f.pos count] } := by
  simp [fread, h]

end lemmas

/-! ## detect -/

/-- What `detect` does on a file with a full header, in one expression. -/
theorem detect_eq (env : Env) (opts : Options) (data : List Byte) (log : List Event)
    (hlen : 26 ≤ data.length) :
    detect env opts ⟨⟨data, 0⟩, log⟩ =
      (let buf := data.take 26
       let w0 : World := ⟨⟨data, 26⟩, log ++ [.fseek 0, .fread 0 26]⟩
       let std := memcmpEq buf magicStr 5 && memcmpEq (buf.drop 0x0F) subKindMarker 3
       let vec := memcmpEq buf magicStr2 23
       if !std && !vec then
         .exit 1 { w0 with log := w0.log ++ [.printf .notRecognised] }
       else
         let hdr : Event :=
           if std then .printf (.fileHeader (untilNul buf)) else .printf .fileHeaderVEC
         let ver : Event := .printf (.mmfwVersion
           (reverseByteOrder2 env.littleEndian (load16 env.littleEndian (buf.drop 0x12))))
         match lookupKnown (buf.drop 0x14) knownFiles with
         | some k =>
           .ok ⟨!std, k.offset, k.ext⟩
             { w0 with log := w0.log ++ [hdr, ver, .printf (.recognisedFile k.name k.offset)] }
         | none =>
           if std then
             .ok ⟨false, opts.offset, opts.outExt⟩
               { w0 with log := w0.log ++ [hdr, ver] ++
                  (if opts.offsetFound then [] else [.printf (.usingDefaultOffset opts.offset)]) }
           else
             .ok ⟨true, 0x17, opts.outExt⟩ { w0 with log := w0.log ++ [hdr, ver] }) := by
  unfold detect
  simp only [bind_apply, fseek_apply]
  rw [fread_ok _ _ (by simpa using hlen)]
  simp only [Nat.zero_add, List.drop_zero]
  rcases Bool.eq_false_or_eq_true (memcmpEq (List.take 26 data) magicStr 5) with h1 | h1 <;>
  rcases Bool.eq_false_or_eq_true
    (memcmpEq (List.drop 15 (List.take 26 data)) subKindMarker 3) with h2 | h2 <;>
  rcases Bool.eq_false_or_eq_true (memcmpEq (List.take 26 data) magicStr2 23) with h3 | h3 <;>
  rcases Bool.eq_false_or_eq_true opts.offsetFound with h5 | h5 <;>
  rcases h4 : lookupKnown (List.drop 20 (List.take 26 data)) knownFiles with _ | k <;>
  simp [h1, h2, h3, h4, h5]

section detectLemmas

theorem take_take26 (data : List Byte) (n : Nat) (h : n ≤ 26) :
    (data.take 26).take n = data.take n := by
  rw [List.take_take, Nat.min_eq_left h]

theorem drop_take26 (data : List Byte) (n m : Nat) (h : n + m ≤ 26) :
    ((data.take 26).drop n).take m = (data.drop n).take m := by
  rw [List.drop_take, List.take_take, Nat.min_eq_left (by omega)]

theorem memcmp_magicStr (data : List Byte) :
    memcmpEq (data.take 26) magicStr 5 = true ↔ data.take 5 = cstr "MMFW " := by
  simp only [memcmpEq, take_take26 data 5 (by omega), beq_iff_eq]
  exact Iff.rfl

theorem memcmp_marker (data : List Byte) :
    memcmpEq ((data.take 26).drop 0x0F) subKindMarker 3 = true ↔
      (data.drop 0x0F).take 3 = [0, ch 'M', ch 'M'] := by
  simp only [memcmpEq, drop_take26 data 15 3 (by omega), beq_iff_eq]
  exact Iff.rfl

theorem memcmp_magicStr2 (data : List Byte) :
    memcmpEq (data.take 26) magicStr2 23 = true ↔
      data.take 23 = cstr "Vector File Version 1.0" := by
  simp only [memcmpEq, take_take26 data 23 (by omega), beq_iff_eq]
  exact Iff.rfl

end detectLemmas

theorem detect_variant (env : Env) (opts : Options) (data : List Byte) (log : List Event)
    (hlen : 26 ≤ data.length) :
    (detect env opts ⟨⟨data, 0⟩, log⟩).variant =
      if memcmpEq (data.take 26) magicStr 5 && memcmpEq ((data.take 26).drop 0x0F) subKindMarker 3
      then some .standard
      else if memcmpEq (data.take 26) magicStr2 23 then some .vector else none := by
  rw [detect_eq env opts data log hlen]
  rcases Bool.eq_false_or_eq_true (memcmpEq (List.take 26 data) magicStr 5) with h1 | h1 <;>
  rcases Bool.eq_false_or_eq_true
    (memcmpEq (List.drop 15 (List.take 26 data)) subKindMarker 3) with h2 | h2 <;>
  rcases Bool.eq_false_or_eq_true (memcmpEq (List.take 26 data) magicStr2 23) with h3 | h3 <;>
  rcases h4 : lookupKnown (List.drop 20 (List.take 26 data)) knownFiles with _ | k <;>
  simp [h1, h2, h3, h4, Res.variant]

theorem std_vec_exclusive (data : List Byte) :
    ¬ (data.take 5 = cstr "MMFW " ∧ data.take 23 = cstr "Vector File Version 1.0") := by
  rintro ⟨h1, h2⟩
  have h3 : (data.take 23).take 5 = data.take 5 := by
    rw [List.take_take]; rfl
  rw [h2, h1] at h3
  exact absurd h3 (by decide)

theorem run_eq_of_detect {env : Env} {opts : Options} {w w1 : World} {lay : Layout}
    (h : detect env opts w = .ok lay w1) : run env opts w = parse env opts lay w1 := by
  simp [run, h]

theorem run_eq_of_detect_exit {env : Env} {opts : Options} {w w1 : World} {s : Nat}
    (h : detect env opts w = .exit s w1) : run env opts w = .exit s w1 := by
  simp [run, h]

theorem lookupKnown_of_mem (fileID : List Byte) (k : KNOWN_FILES) (hk : k ∈ knownFiles)
    (hsig : fileID.take 6 = k.magic) : lookupKnown fileID knownFiles = some k := by
  simp only [knownFiles, List.mem_cons, List.mem_singleton, List.not_mem_nil, or_false] at hk
  rcases hk with rfl | rfl | rfl | rfl | rfl | rfl | rfl <;>
    simp [lookupKnown, knownFiles, memcmpEq, hsig]

theorem lookupKnown_cons_ne (fileID : List Byte) (k : KNOWN_FILES) (ks : List KNOWN_FILES)
    (p : List Byte) (h : fileID.take 3 = p) (hk : k.magic.take 3 ≠ p) :
    lookupKnown fileID (k :: ks) = lookupKnown fileID ks := by
  have hne : memcmpEq fileID k.magic 6 = false := by
    rw [Bool.eq_false_iff]
    intro hc
    simp only [memcmpEq, beq_iff_eq] at hc
    apply hk
    have h3 := congrArg (List.take 3) hc
    simp only [List.take_take] at h3
    simpa [h] using h3.symm
  simp [lookupKnown, hne]

/-- On the bytes at 0x14 of a Vector header (`"1.0"` and three more bytes) the lookup finds
nothing or the entry `MUpsVec.VEC`, whose offset is 0x17. -/
theorem lookupKnown_vector (fileID : List Byte) (h : fileID.take 3 = [0x31, 0x2E, 0x30])
    (k : KNOWN_FILES) (hk : lookupKnown fileID knownFiles = some k) : k.offset = 0x17 := by
  unfold knownFiles at hk
  rw [lookupKnown_cons_ne _ _ _ _ h (by decide), lookupKnown_cons_ne _ _ _ _ h (by decide),
    lookupKnown_cons_ne _ _ _ _ h (by decide), lookupKnown_cons_ne _ _ _ _ h (by decide),
    lookupKnown_cons_ne _ _ _ _ h (by decide), lookupKnown_cons_ne _ _ _ _ h (by decide)] at hk
  simp only [lookupKnown] at hk
  split at hk
  · cases hk; rfl
  · cases hk

theorem vector_tail (data : List Byte) (h : data.take 23 = cstr "Vector File Version 1.0") :
    (data.drop 0x14).take 3 = [0x31, 0x2E, 0x30] := by
  have h1 : (data.take 23).drop 20 = (data.drop 20).take 3 := by
    rw [List.drop_take]
  rw [← h1, h]; decide

/-! ## Byte order -/

theorem and_shifted_mask (x k : Nat) : x &&& (255 <<< k) = ((x >>> k) % 256) <<< k := by
  apply Nat.eq_of_testBit_eq
  intro i
  have h255 : (255 : Nat) = 2 ^ 8 - 1 := by norm_num
  have h256 : (256 : Nat) = 2 ^ 8 := by norm_num
  rw [h255, h256]
  simp only [Nat.testBit_and, Nat.testBit_shiftLeft, Nat.testBit_shiftRight,
    Nat.testBit_mod_two_pow, Nat.testBit_two_pow_sub_one]
  by_cases h : i ≥ k
  · have : k + (i - k) = i := by omega
    simp [h, this, Bool.and_comm]
  · simp [h]

theorem or_eq_add (i a b : Nat) (h : b < 2 ^ i) : a * 2 ^ i ||| b = a * 2 ^ i + b := by
  rw [Nat.mul_comm]; exact (Nat.mul_add_lt_is_or h a).symm

theorem systemIsLittleEndian_eq (le : Bool) : systemIsLittleEndian le = le := by
  cases le <;> decide

/-- On a little-endian host `reverseByteOrder4` swaps the four bytes of its argument. -/
theorem reverseByteOrder4_le (x : Nat) :
    reverseByteOrder4 true x =
      16777216 * (x % 256) + 65536 * (x / 256 % 256) + 256 * (x / 65536 % 256)
        + x / 16777216 % 256 := by
  have hA : x &&& 0xFF = x % 256 := by
    simpa using and_shifted_mask x 0
  have hB : x &&& 0xFF00 = (x / 256 % 256) * 256 := by
    simpa [Nat.shiftLeft_eq, Nat.shiftRight_eq_div_pow] using and_shifted_mask x 8
  have hC : x &&& 0xFF0000 = (x / 65536 % 256) * 65536 := by
    simpa [Nat.shiftLeft_eq, Nat.shiftRight_eq_div_pow] using and_shifted_mask x 16
  have hD : x &&& 0xFF000000 = (x / 16777216 % 256) * 16777216 := by
    simpa [Nat.shiftLeft_eq, Nat.shiftRight_eq_div_pow] using and_shifted_mask x 24
  simp only [reverseByteOrder4, systemIsLittleEndian_eq, Bool.not_true, Bool.false_eq_true,
    if_false, hA, hB, hC, hD, Nat.shiftLeft_eq, Nat.shiftRight_eq_div_pow, Nat.zero_or]
  have ha : x % 256 < 256 := Nat.mod_lt _ (by norm_num)
  have hb : x / 256 % 256 < 256 := Nat.mod_lt _ (by norm_num)
  have hc : x / 65536 % 256 < 256 := Nat.mod_lt _ (by norm_num)
  have hd : x / 16777216 % 256 < 256 := Nat.mod_lt _ (by norm_num)
  generalize x % 256 = a at ha ⊢
  generalize x / 256 % 256 = b at hb ⊢
  generalize x / 65536 % 256 = c at hc ⊢
  generalize x / 16777216 % 256 = d at hd ⊢
  norm_num
  have e1 : a * 16777216 % 4294967296 = a * 2 ^ 24 := by omega
  have e2 : b * 256 * 256 % 4294967296 = b * 65536 := by omega
  have e3 : c * 65536 / 256 = c * 256 := by omega
  have e4 : d * 16777216 / 16777216 = d := by omega
  simp only [e1, e2, e3, e4]
  rw [or_eq_add 24 a (b * 65536) (by omega)]
  have e5 : (a * 2 ^ 24 + b * 65536) % 4294967296 = (a * 256 + b) * 2 ^ 16 := by omega
  rw [e5, or_eq_add 16 _ (c * 256) (by omega)]
  have e6 : ((a * 256 + b) * 2 ^ 16 + c * 256) % 4294967296 = (a * 65536 + b * 256 + c) * 2 ^ 8 := by
    omega
  rw [e6, or_eq_add 8 _ d (by omega)]
  omega

theorem reverseByteOrder2_le (x : Nat) :
    reverseByteOrder2 true x = 256 * (x % 256) + x / 256 % 256 := by
  have hA : x &&& 0xFF = x % 256 := by
    simpa using and_shifted_mask x 0
  have hB : x &&& 0xFF00 = (x / 256 % 256) * 256 := by
    simpa [Nat.shiftLeft_eq, Nat.shiftRight_eq_div_pow] using and_shifted_mask x 8
  simp only [reverseByteOrder2, systemIsLittleEndian_eq, Bool.not_true, Bool.false_eq_true,
    if_false, hA, hB, Nat.shiftLeft_eq, Nat.shiftRight_eq_div_pow]
  have ha : x % 256 < 256 := Nat.mod_lt _ (by norm_num)
  have hb : x / 256 % 256 < 256 := Nat.mod_lt _ (by norm_num)
  generalize x % 256 = a at ha ⊢
  generalize x / 256 % 256 = b at hb ⊢
  norm_num
  have e1 : a * 256 % 65536 = a * 2 ^ 8 := by omega
  simp only [e1]
  rw [or_eq_add 8 a b (by omega)]
  omega

/-- The program's 16-bit decoding (native load, then `reverseByteOrder2`) is big-endian on
either host. -/
theorem decode16 (le : Bool) (b : List Byte) :
    reverseByteOrder2 le (load16 le b) = be16 b := by
  have h0 := (b.getD 0 0).isLt
  have h1 := (b.getD 1 0).isLt
  cases le
  · simp [reverseByteOrder2, systemIsLittleEndian_eq, load16, be16]
  · rw [reverseByteOrder2_le]
    simp only [load16, be16, if_true]
    omega

/-- The program's 32-bit decoding (native load, then `reverseByteOrder4`) is big-endian on
either host. -/
theorem decode32 (le : Bool) (b : List Byte) :
    reverseByteOrder4 le (load32 le b) = be32 b := by
  have h0 := (b.getD 0 0).isLt
  have h1 := (b.getD 1 0).isLt
  have h2 := (b.getD 2 0).isLt
  have h3 := (b.getD 3 0).isLt
  cases le
  · simp [reverseByteOrder4, systemIsLittleEndian_eq, load32, be32]
  · rw [reverseByteOrder4_le]
    simp only [load32, be32, if_true]
    omega

theorem be16_lt (b : List Byte) : be16 b < 2 ^ 16 := by
  have h0 := (b.getD 0 0).isLt
  have h1 := (b.getD 1 0).isLt
  simp only [be16]; omega

theorem be32_lt (b : List Byte) : be32 b < 2 ^ 32 := by
  have h0 := (b.getD 0 0).isLt
  have h1 := (b.getD 1 0).isLt
  have h2 := (b.getD 2 0).isLt
  have h3 := (b.getD 3 0).isLt
  simp only [be32]; omega

theorem getD_take (l : List Byte) (n j : Nat) (h : j < n) :
    (l.take n).getD j 0 = l.getD j 0 := by
  simp [List.getD_eq_getElem?_getD, List.getElem?_take, h]

theorem be16_take (l : List Byte) : be16 (l.take 2) = be16 l := by
  simp [be16, getD_take]

theorem be32_take (l : List Byte) : be32 (l.take 4) = be32 l := by
  simp [be32, getD_take]

/-! ## The count and the table -/

theorem readCount_eq_be16 (env : Env) (lay : Layout) (data : List Byte) (p : Nat)
    (log : List Event) :
    readCount env lay ⟨⟨data, p⟩, log⟩ =
      if lay.offset + 2 ≤ data.length then
        if (be16At data lay.offset + 1) % 2 ^ 16 = 0 then
          .exit 1 ⟨⟨data, lay.offset + 2⟩, log ++ [.fseek lay.offset, .fread lay.offset 2,
            .printf (.resourceCount (-1)), .printf .noResources]⟩
        else
          .ok ((be16At data lay.offset + 1) % 2 ^ 16)
            ⟨⟨data, lay.offset + 2⟩, log ++ [.fseek lay.offset, .fread lay.offset 2,
              .printf (.resourceCount ((((be16At data lay.offset + 1) % 2 ^ 16 : Nat) : Int) - 1))]⟩
      else
        .exit 1 ⟨⟨data, max lay.offset data.length⟩,
          log ++ [.fseek lay.offset, .fread lay.offset 2, .printf .readFailedCount]⟩ := by
  unfold readCount
  simp only [bind_apply, fseek_apply]
  by_cases h : lay.offset + 2 ≤ data.length
  · rw [fread_ok _ _ (by simpa using h)]
    simp only [decode16, be16_take, h, if_true]
    by_cases h0 : (be16At data lay.offset + 1) % 2 ^ 16 = 0
    · simp [be16At] at h0
      simp [be16At, h0]
    · simp [be16At] at h0
      simp [be16At, h0]
  · rw [fread_short _ _ (by simpa using h)]
    simp [h]

theorem allocTable_eq (env : Env) (lay : Layout) (n : Nat) (w : World) :
    allocTable env lay n w =
      if env.mallocOk w.log (4 * n) then
        if lay.isVEC then
          if env.mallocOk (w.log ++ [.malloc (4 * n)]) (4 * n) then
            .ok () { w with log := w.log ++ [.malloc (4 * n), .malloc (4 * n)] }
          else
            .exit 1 { w with log := w.log ++ [.malloc (4 * n), .malloc (4 * n),
              .printf .memSizes] }
        else .ok () { w with log := w.log ++ [.malloc (4 * n)] }
      else .exit 1 { w with log := w.log ++ [.malloc (4 * n), .printf .memOffsets] } := by
  unfold allocTable
  rcases Bool.eq_false_or_eq_true (env.mallocOk w.log (4 * n)) with h | h <;>
  rcases Bool.eq_false_or_eq_true lay.isVEC with h2 | h2 <;>
  rcases Bool.eq_false_or_eq_true (env.mallocOk (w.log ++ [.malloc (4 * n)]) (4 * n))
    with h3 | h3 <;>
  simp [h, h2, h3]

theorem map_range_succ {β : Type} (f : Nat → β) (k : Nat) :
    (List.range (k + 1)).map f = f 0 :: (List.range k).map (fun j => f (j + 1)) := by
  rw [List.range_succ_eq_map]; simp [Function.comp]

theorem readTable_ok (env : Env) (isVEC : Bool) (data : List Byte) :
    ∀ (k p : Nat) (offs szs : List Nat) (log : List Event),
      p + entryWidth isVEC * k ≤ data.length →
      readTable env isVEC k offs szs ⟨⟨data, p⟩, log⟩ =
        .ok (offs ++ (List.range k).map (fun j => be32At data (p + entryWidth isVEC * j)),
             szs ++ (if isVEC then (List.range k).map (fun j => be32At data (p + 8 * j + 4))
                     else []))
          ⟨⟨data, p + entryWidth isVEC * k⟩, log ++ tableReads isVEC p k⟩ := by
  intro k
  induction k with
  | zero => intro p offs szs log _; cases isVEC <;> simp [readTable, tableReads]
  | succ k ih =>
    intro p offs szs log h
    cases isVEC
    · simp only [entryWidth, Bool.false_eq_true, if_false] at h ih ⊢
      unfold readTable
      simp only [bind_apply]
      rw [fread_ok _ _ (by simp; omega)]
      simp only [decode32, be32_take, Bool.false_eq_true, if_false]
      rw [ih (p + 4) _ _ _ (by omega)]
      have e1 : ∀ j, p + 4 + 4 * j = p + 4 * (j + 1) := by intro j; omega
      have e3 : p + 4 + 4 * k = p + 4 * (k + 1) := by omega
      simp only [map_range_succ, tableReads, entryWidth, Bool.false_eq_true, if_false,
        List.append_assoc, List.singleton_append, List.cons_append, List.nil_append, be32At,
        Nat.mul_zero, Nat.add_zero, e1, e3, List.append_nil]
    · simp only [entryWidth, if_true] at h ih ⊢
      unfold readTable
      simp only [bind_apply]
      rw [fread_ok _ _ (by simp; omega)]
      simp only [decode32, be32_take, if_true, bind_apply]
      rw [fread_ok _ _ (by simp; omega)]
      simp only [decode32, be32_take]
      rw [show p + 4 + 4 = p + 8 from by omega, ih (p + 8) _ _ _ (by omega)]
      have e1 : ∀ j, p + 8 + 8 * j = p + 8 * (j + 1) := by intro j; omega
      have e3 : p + 8 + 8 * k = p + 8 * (k + 1) := by omega
      simp only [map_range_succ, tableReads, entryWidth, if_true,
        List.append_assoc, List.singleton_append, List.cons_append, List.nil_append, be32At,
        Nat.mul_zero, Nat.add_zero, e1, e3]

theorem readTable_short (env : Env) (isVEC : Bool) (data : List Byte) :
    ∀ (k p : Nat) (offs szs : List Nat) (log : List Event),
      0 < k → ¬ p + entryWidth isVEC * k ≤ data.length →
      ∃ (pos : Nat) (evs : List Event),
        readTable env isVEC k offs szs ⟨⟨data, p⟩, log⟩ = .exit 1 ⟨⟨data, pos⟩, log ++ evs⟩ ∧
        ∀ e ∈ evs, tableEvent e = true := by
  intro k
  induction k with
  | zero => intro p offs szs log h0; exact absurd h0 (lt_irrefl 0)
  | succ k ih =>
    intro p offs szs log _ h
    unfold readTable
    simp only [bind_apply]
    by_cases h1 : p + 4 ≤ data.length
    · rw [fread_ok _ _ (by simpa using h1)]
      cases isVEC
      · simp only [entryWidth, Bool.false_eq_true, if_false] at h ih ⊢
        obtain ⟨pos, evs, he, hev⟩ := ih (p + 4)
          (offs ++ [reverseByteOrder4 env.littleEndian
            (load32 env.littleEndian (List.take 4 (List.drop p data)))]) szs
          (log ++ [.fread p 4]) (by omega) (by omega)
        refine ⟨pos, .fread p 4 :: evs, ?_, ?_⟩
        · simpa using he
        · intro e he2
          rcases List.mem_cons.mp he2 with rfl | h3
          · rfl
          · exact hev e h3
      · simp only [entryWidth, if_true, bind_apply] at h ih ⊢
        by_cases h2 : p + 4 + 4 ≤ data.length
        · rw [fread_ok _ _ (by simpa using h2)]
          obtain ⟨pos, evs, he, hev⟩ := ih (p + 4 + 4)
            (offs ++ [reverseByteOrder4 env.littleEndian
              (load32 env.littleEndian (List.take 4 (List.drop p data)))])
            (szs ++ [reverseByteOrder4 env.littleEndian
              (load32 env.littleEndian (List.take 4 (List.drop (p + 4) data)))])
            (log ++ [.fread p 4] ++ [.fread (p + 4) 4]) (by omega) (by omega)
          refine ⟨pos, .fread p 4 :: .fread (p + 4) 4 :: evs, ?_, ?_⟩
          · simpa using he
          · intro e he2
            rcases List.mem_cons.mp he2 with rfl | h3
            · rfl
            rcases List.mem_cons.mp h3 with rfl | h4
            · rfl
            · exact hev e h4
        · rw [fread_short _ _ (by simpa using h2)]
          refine ⟨max (p + 4) data.length,
            [.fread p 4, .fread (p + 4) 4, .printf .readFailedSizes], ?_, ?_⟩
          · simp
          · simp [tableEvent]
    · rw [fread_short _ _ (by simpa using h1)]
      refine ⟨max p data.length, [.fread p 4, .printf .readFailedOffsets], ?_, ?_⟩
      · simp
      · simp [tableEvent]

/-! ## The name table -/

theorem readNames_ok (data : List Byte) :
    ∀ (k p : Nat) (names : List (List Byte)) (log : List Event),
      p + 32 * k ≤ data.length →
      readNames k names ⟨⟨data, p⟩, log⟩ =
        .ok (names ++ (List.range k).map (fun j => (data.drop (p + 32 * j)).take 32))
          ⟨⟨data, p + 32 * k⟩, log ++ (List.range k).map (fun j => Event.fread (p + 32 * j) 32)⟩ := by
  intro k
  induction k with
  | zero => intro p names log _; simp [readNames]
  | succ k ih =>
    intro p names log h
    unfold readNames
    simp only [bind_apply, NAME_SIZE]
    rw [fread_ok _ _ (by simp; omega)]
    simp only []
    rw [ih (p + 32) _ _ (by omega)]
    have e1 : ∀ j, p + 32 + 32 * j = p + 32 * (j + 1) := by intro j; omega
    have e3 : p + 32 + 32 * k = p + 32 * (k + 1) := by omega
    simp only [map_range_succ, List.append_assoc, List.singleton_append, List.cons_append,
      List.nil_append, Nat.mul_zero, Nat.add_zero, e1, e3]

theorem readNames_short (data : List Byte) :
    ∀ (k p : Nat) (names : List (List Byte)) (log : List Event),
      0 < k → ¬ p + 32 * k ≤ data.length →
      ∃ (pos : Nat) (evs : List Event),
        readNames k names ⟨⟨data, p⟩, log⟩ = .exit 1 ⟨⟨data, pos⟩, log ++ evs⟩ ∧
        ∀ e ∈ evs, namesEvent e = true := by
  intro k
  induction k with
  | zero => intro p names log h0; exact absurd h0 (lt_irrefl 0)
  | succ k ih =>
    intro p names log _ h
    unfold readNames
    simp only [bind_apply, NAME_SIZE]
    by_cases h1 : p + 32 ≤ data.length
    · rw [fread_ok _ _ (by simpa using h1)]
      obtain ⟨pos, evs, he, hev⟩ := ih (p + 32)
        (names ++ [List.take 32 (List.drop p data)]) (log ++ [.fread p 32]) (by omega) (by omega)
      refine ⟨pos, .fread p 32 :: evs, ?_, ?_⟩
      · simpa using he
      · intro e he2
        rcases List.mem_cons.mp he2 with rfl | h3
        · rfl
        · exact hev e h3
    · rw [fread_short _ _ (by simpa using h1)]
      refine ⟨max p data.length, [.fread p 32, .printf .readFailedNames], ?_, ?_⟩
      · simp
      · simp [namesEvent]

/-! ## The listing -/

theorem listed_append (a b : List Event) : listed (a ++ b) = listed a ++ listed b := by
  induction a with
  | nil => rfl
  | cons e es ih =>
    cases e with
    | printf m =>
      cases m <;> first
        | exact ih
        | exact congrArg (List.cons _) ih
    | _ => exact ih

/-- An event that is not a `block` line adds nothing to the listing. -/
theorem listed_cons_of_not_block (e : Event) (es : List Event) (h : isBlock e = false) :
    listed (e :: es) = listed es := by
  cases e with
  | printf m => cases m <;> first | rfl | exact Bool.noConfusion h
  | _ => rfl

theorem listed_eq_nil_of_not_block (evs : List Event) (h : ∀ e ∈ evs, isBlock e = false) :
    listed evs = [] := by
  induction evs with
  | nil => rfl
  | cons e es ih =>
    rw [listed_cons_of_not_block e es (h e (List.mem_cons_self _ _))]
    exact ih (fun x hx => h x (List.mem_cons_of_mem _ hx))

theorem listed_eq_nil_of_loopEvent (evs : List Event)
    (h : ∀ e ∈ evs, loopEvent e = true) : listed evs = [] := by
  apply listed_eq_nil_of_not_block
  intro e he
  have h1 := h e he
  cases e with
  | printf m => cases m <;> first | rfl | exact Bool.noConfusion h1
  | _ => rfl

theorem loopEvent_of_dumpEvent (e : Event) (h : dumpEvent e = true) : loopEvent e = true := by
  cases e with
  | printf m => cases m <;> first | rfl | exact Bool.noConfusion h
  | _ => first | rfl | exact Bool.noConfusion h

theorem copyBlocks_spec (env : Env) (filename : CStr) (data : List Byte) :
    ∀ (fuel bytesLeft p : Nat) (log : List Event),
      ∃ (r pos : Nat) (evs : List Event),
        copyBlocks env filename fuel bytesLeft ⟨⟨data, p⟩, log⟩ =
          .ok r ⟨⟨data, pos⟩, log ++ evs⟩ ∧
        ∀ e ∈ evs, dumpEvent e = true := by
  intro fuel
  induction fuel with
  | zero => intro b p log; exact ⟨0, p, [], by simp [copyBlocks], by simp⟩
  | succ fuel ih =>
    intro b p log
    unfold copyBlocks
    by_cases hb : b > 0
    · simp only [hb, if_true, bind_apply]
      by_cases hr : p + (if b < BLOCKSIZE then b else BLOCKSIZE) ≤ data.length
      · rw [fread_ok _ _ (by simpa using hr)]
        simp only [fwrite_apply]
        rcases Bool.eq_false_or_eq_true (env.fwriteOk (log ++ [.fread p (if b < BLOCKSIZE then b else BLOCKSIZE)]) filename
          (List.take (if b < BLOCKSIZE then b else BLOCKSIZE) (List.drop p data))) with hw | hw
        · obtain ⟨r, pos, evs, he, hev⟩ := ih (b - (if b < BLOCKSIZE then b else BLOCKSIZE))
            (p + (if b < BLOCKSIZE then b else BLOCKSIZE))
            (log ++ [.fread p (if b < BLOCKSIZE then b else BLOCKSIZE)] ++
              [.fwrite filename (List.take (if b < BLOCKSIZE then b else BLOCKSIZE)
                (List.drop p data))])
          refine ⟨r, pos, .fread p (if b < BLOCKSIZE then b else BLOCKSIZE) ::
            .fwrite filename (List.take (if b < BLOCKSIZE then b else BLOCKSIZE)
                (List.drop p data)) :: evs, ?_, ?_⟩
          · simpa [hw] using he
          · intro e he2
            rcases List.mem_cons.mp he2 with rfl | h3
            · rfl
            rcases List.mem_cons.mp h3 with rfl | h4
            · rfl
            · exact hev e h4
        · refine ⟨1, p + (if b < BLOCKSIZE then b else BLOCKSIZE),
            [.fread p (if b < BLOCKSIZE then b else BLOCKSIZE),
             .fwrite filename (List.take (if b < BLOCKSIZE then b else BLOCKSIZE)
                (List.drop p data)), .printf .dumpWriteFailed], ?_, ?_⟩
          · simp [hw]
          · simp [dumpEvent]
      · rw [fread_short _ _ (by simpa using hr)]
        refine ⟨1, max p data.length,
          [.fread p (if b < BLOCKSIZE then b else BLOCKSIZE), .printf .dumpReadFailed], ?_, ?_⟩
        · simp
        · simp [dumpEvent]
    · exact ⟨0, p, [], by simp [hb], by simp⟩

theorem dumpResource_spec (env : Env) (offset byteCount : Nat) (filename : CStr)
    (data : List Byte) (p : Nat) (log : List Event) :
    ∃ (r pos : Nat) (evs : List Event),
      dumpResource env offset byteCount filename ⟨⟨data, p⟩, log⟩ =
        .ok r ⟨⟨data, pos⟩, log ++ evs⟩ ∧
      (∀ e ∈ evs, dumpEvent e = true) ∧ (r = 0 → pos = p) := by
  unfold dumpResource
  simp only [bind_apply, fopenWrite_apply]
  rcases Bool.eq_false_or_eq_true (env.fopenWriteOk log filename) with ho | ho
  · obtain ⟨r, pos, evs, he, hev⟩ := copyBlocks_spec env filename data byteCount byteCount
      offset (log ++ [.fopenWrite filename, .fseek offset])
    have hn : (log ++ [Event.fopenWrite filename] ++ [Event.fseek offset]) =
        log ++ [.fopenWrite filename, .fseek offset] := by simp
    by_cases hr : r = 0
    · subst hr
      refine ⟨0, p, .fopenWrite filename :: .fseek offset :: (evs ++ [.fclose filename, .fseek p]),
        ?_, ?_, fun _ => rfl⟩
      · simp only [ho, Bool.not_true, Bool.false_eq_true, if_false, bind_apply, ftell_apply,
          fseek_apply, hn, he]
        simp
      · intro e he2
        rcases List.mem_cons.mp he2 with rfl | h3
        · rfl
        rcases List.mem_cons.mp h3 with rfl | h4
        · rfl
        rcases List.mem_append.mp h4 with h5 | h5
        · exact hev e h5
        · simp at h5
          rcases h5 with rfl | rfl <;> rfl
    · refine ⟨1, pos, .fopenWrite filename :: .fseek offset :: evs, ?_, ?_, fun h => by omega⟩
      · simp only [ho, Bool.not_true, Bool.false_eq_true, if_false, bind_apply, ftell_apply,
          fseek_apply, hn, he]
        simp [hr]
      · intro e he2
        rcases List.mem_cons.mp he2 with rfl | h3
        · rfl
        rcases List.mem_cons.mp h3 with rfl | h4
        · rfl
        · exact hev e h4
  · refine ⟨1, p, [.fopenWrite filename, .printf (.dumpOpenFailed filename)], ?_, ?_,
      fun h => by omega⟩
    · simp [ho]
    · simp [dumpEvent]

theorem listLoop_spec (env : Env) (opts : Options) (lay : Layout) (hasNames : Bool)
    (offsets sizes : List Nat) (names : List (List Byte)) (data : List Byte) :
    ∀ (k i p : Nat) (log : List Event),
      ∃ (m pos : Nat) (evs : List Event),
        m ≤ k ∧
        listed evs = (List.range' i m).map (entryOf lay.isVEC hasNames offsets sizes names) ∧
        (∀ e ∈ evs, loopEvent e = true ∨ ∃ j off sz lbl, e = .printf (.block j off sz lbl)) ∧
        ((listLoop env opts lay hasNames offsets sizes names k i ⟨⟨data, p⟩, log⟩ =
            .ok () ⟨⟨data, p⟩, log ++ evs⟩ ∧ m = k) ∨
         (listLoop env opts lay hasNames offsets sizes names k i ⟨⟨data, p⟩, log⟩ =
            .exit 1 ⟨⟨data, pos⟩, log ++ evs⟩ ∧ opts.dump = true)) := by
  intro k
  induction k with
  | zero =>
    intro i p log
    exact ⟨0, p, [], le_refl _, by simp [listed], by simp, Or.inl ⟨by simp [listLoop], rfl⟩⟩
  | succ k ih =>
    intro i p log
    unfold listLoop
    simp only [bind_apply, printf_apply]
    have hblock : ∀ (sz : Nat) (lbl : CStr) (rest : List Event),
        listed (Event.printf (.block i (offsets.getD i 0) sz lbl) :: rest) =
          (i, offsets.getD i 0, sz, lbl) :: listed rest := by
      intro sz lbl rest; rfl
    rcases Bool.eq_false_or_eq_true opts.dump with hd | hd
    · -- dumping
      simp only [hd, if_true, bind_apply]
      obtain ⟨r, pos, devs, hde, hdev, hpos⟩ := dumpResource_spec env (offsets.getD i 0)
        (if lay.isVEC = true then sizes.getD i 0
          else (offsets.getD (i + 1) 0 + 2 ^ 32 - offsets.getD i 0) % 2 ^ 32)
        (if (!opts.usenames || !hasNames) = true then opts.outPrefix ++ fmt05u i ++ lay.outExt
          else opts.outPrefix ++ nameStr names i) data p
        (log ++ [.printf (.block i (offsets.getD i 0)
          (if lay.isVEC = true then sizes.getD i 0
            else (offsets.getD (i + 1) 0 + 2 ^ 32 - offsets.getD i 0) % 2 ^ 32)
          (if hasNames = true then nameStr names i else []))])
      rw [hde]
      have hdl : listed devs = [] :=
        listed_eq_nil_of_loopEvent devs (fun e he => loopEvent_of_dumpEvent e (hdev e he))
      by_cases hr : r = 0
      · subst hr
        have hp := hpos rfl
        subst hp
        obtain ⟨m, pos2, evs, hm, hl, hev, hres⟩ := ih (i + 1) pos
          (log ++ [.printf (.block i (offsets.getD i 0)
            (if lay.isVEC = true then sizes.getD i 0
              else (offsets.getD (i + 1) 0 + 2 ^ 32 - offsets.getD i 0) % 2 ^ 32)
            (if hasNames = true then nameStr names i else []))] ++ devs ++
            [.printf (.dumpedTo (if (!opts.usenames || !hasNames) = true then
                opts.outPrefix ++ fmt05u i ++ lay.outExt
              else opts.outPrefix ++ nameStr names i))] ++ [.printf .newline])
        refine ⟨m + 1, pos2, .printf (.block i (offsets.getD i 0)
            (if lay.isVEC = true then sizes.getD i 0
              else (offsets.getD (i + 1) 0 + 2 ^ 32 - offsets.getD i 0) % 2 ^ 32)
            (if hasNames = true then nameStr names i else [])) :: (devs ++
            [.printf (.dumpedTo (if (!opts.usenames || !hasNames) = true then
                opts.outPrefix ++ fmt05u i ++ lay.outExt
              else opts.outPrefix ++ nameStr names i)), .printf .newline] ++ evs),
          by omega, ?_, ?_, ?_⟩
        · rw [hblock, listed_append, listed_append, hdl, hl, List.range'_succ]
          simp [listed, entryOf]
        · intro e he2
          rcases List.mem_cons.mp he2 with rfl | h3
          · exact Or.inr ⟨_, _, _, _, rfl⟩
          rcases List.mem_append.mp h3 with h4 | h4
          · rcases List.mem_append.mp h4 with h5 | h5
            · exact Or.inl (loopEvent_of_dumpEvent e (hdev e h5))
            · simp at h5
              rcases h5 with rfl | rfl <;> exact Or.inl rfl
          · exact hev e h4
        · rcases hres with ⟨h1, h2⟩ | ⟨h1, h2⟩
          · left
            refine ⟨?_, by omega⟩
            simp only [bne_self_eq_false, Bool.false_eq_true, if_false, pure_apply, bind_apply,
              printf_apply]
            simpa using h1
          · right
            refine ⟨?_, by simp [hd]⟩
            simp only [bne_self_eq_false, Bool.false_eq_true, if_false, pure_apply, bind_apply,
              printf_apply]
            simpa using h1
      · refine ⟨1, pos, .printf (.block i (offsets.getD i 0)
            (if lay.isVEC = true then sizes.getD i 0
              else (offsets.getD (i + 1) 0 + 2 ^ 32 - offsets.getD i 0) % 2 ^ 32)
            (if hasNames = true then nameStr names i else [])) :: (devs ++
            [.printf .dumpResourceFailed]), by omega, ?_, ?_, Or.inr ⟨?_, by simp [hd]⟩⟩
        · rw [hblock, listed_append, hdl]
          simp [listed, entryOf]
        · intro e he2
          rcases List.mem_cons.mp he2 with rfl | h3
          · exact Or.inr ⟨_, _, _, _, rfl⟩
          rcases List.mem_append.mp h3 with h4 | h4
          · exact Or.inl (loopEvent_of_dumpEvent e (hdev e h4))
          · simp at h4
            subst h4
            exact Or.inl rfl
        · simp [hr]
    · -- listing only
      simp only [hd, Bool.false_eq_true, if_false, pure_apply, bind_apply, printf_apply]
      obtain ⟨m, pos2, evs, hm, hl, hev, hres⟩ := ih (i + 1) p
        (log ++ [.printf (.block i (offsets.getD i 0)
          (if lay.isVEC = true then sizes.getD i 0
            else (offsets.getD (i + 1) 0 + 2 ^ 32 - offsets.getD i 0) % 2 ^ 32)
          (if hasNames = true then nameStr names i else []))] ++ [.printf .newline])
      refine ⟨m + 1, pos2, .printf (.block i (offsets.getD i 0)
          (if lay.isVEC = true then sizes.getD i 0
            else (offsets.getD (i + 1) 0 + 2 ^ 32 - offsets.getD i 0) % 2 ^ 32)
          (if hasNames = true then nameStr names i else [])) :: .printf .newline :: evs,
        by omega, ?_, ?_, ?_⟩
      · rw [hblock, List.range'_succ]
        simp [listed, entryOf, hl]
      · intro e he2
        rcases List.mem_cons.mp he2 with rfl | h3
        · exact Or.inr ⟨_, _, _, _, rfl⟩
        rcases List.mem_cons.mp h3 with rfl | h4
        · exact Or.inl rfl
        · exact hev e h4
      · rcases hres with ⟨h1, h2⟩ | ⟨h1, h2⟩
        · left
          exact ⟨by simpa using h1, by omega⟩
        · right
          rw [hd] at h2; exact absurd h2 (by decide)

theorem findNames_eq (env : Env) (lay : Layout) (n : Nat) (offsets : List Nat)
    (data : List Byte) (p : Nat) (log : List Event) :
    findNames env lay n offsets ⟨⟨data, p⟩, log⟩ =
      if namesDecision (offsets.getD 0 0) (padded lay p) n then
        if env.mallocOk (log ++ padEvents lay p ++
            [.printf (.hasNames (namesDecision (offsets.getD 0 0) (padded lay p) n))])
            (n * 32) then
          match readNames n [] ⟨⟨data, padded lay p⟩, log ++ padEvents lay p ++
              [.printf (.hasNames (namesDecision (offsets.getD 0 0) (padded lay p) n)),
               .malloc (n * 32)]⟩ with
          | .ok names w => .ok (true, names) w
          | .exit s w => .exit s w
        else
          .exit 1 ⟨⟨data, padded lay p⟩, log ++ padEvents lay p ++
            [.printf (.hasNames (namesDecision (offsets.getD 0 0) (padded lay p) n)),
             .malloc (n * 32), .printf .memNames]⟩
      else
        .ok (false, []) ⟨⟨data, padded lay p⟩, log ++ padEvents lay p ++
          [.printf (.hasNames (namesDecision (offsets.getD 0 0) (padded lay p) n))]⟩ := by
  have hdec : ∀ q : Nat, decide (toInt32 ((offsets.getD 0 0 : Int) - (q : Int)) ≥
      32 * ((n : Int) - 1)) = namesDecision (offsets.getD 0 0) q n := fun _ => rfl
  unfold findNames
  by_cases hT : lay.offset = 0x1A
  · simp only [hT, bne_self_eq_false, Bool.false_eq_true, if_false, bind_apply, pure_apply,
      ftell_apply, printf_apply, padded, padEvents, List.append_nil, malloc_apply, NAME_SIZE,
      hdec, List.append_assoc, List.singleton_append, List.cons_append, List.nil_append]
    cases namesDecision (offsets.getD 0 0) p n
    · simp only [Bool.false_eq_true, if_false, pure_apply]
    · simp only [if_true, bind_apply, malloc_apply, List.append_assoc, List.singleton_append,
        List.cons_append, List.nil_append]
      cases env.mallocOk (log ++ [.printf (.hasNames true)]) (n * 32)
      · simp only [Bool.not_false, if_true, bind_apply, printf_apply, exit_apply,
          Bool.false_eq_true, if_false, List.append_assoc, List.singleton_append,
          List.cons_append, List.nil_append]
      · simp only [Bool.not_true, Bool.false_eq_true, if_false, bind_apply, pure_apply, if_true]
        cases readNames n [] ⟨⟨data, p⟩, log ++ [.printf (.hasNames true), .malloc (n * 32)]⟩ <;>
          rfl
  · have hT2 : (lay.offset != 0x1A) = true := by simpa using hT
    simp only [hT2, if_true, bind_apply, pure_apply, fseekCur_apply,
      ftell_apply, printf_apply, padded, padEvents, malloc_apply, NAME_SIZE,
      hdec, List.append_assoc, List.singleton_append, List.cons_append, List.nil_append]
    cases namesDecision (offsets.getD 0 0) (p + 2) n
    · simp only [Bool.false_eq_true, if_false, pure_apply]
    · simp only [if_true, bind_apply, malloc_apply, List.append_assoc, List.singleton_append,
        List.cons_append, List.nil_append]
      cases env.mallocOk (log ++ [.fseek (p + 2), .printf (.hasNames true)]) (n * 32)
      · simp only [Bool.not_false, if_true, bind_apply, printf_apply, exit_apply,
          Bool.false_eq_true, if_false, List.append_assoc, List.singleton_append,
          List.cons_append, List.nil_append]
      · simp only [Bool.not_true, Bool.false_eq_true, if_false, bind_apply, pure_apply, if_true]
        cases readNames n [] ⟨⟨data, p + 2⟩,
          log ++ [.fseek (p + 2), .printf (.hasNames true), .malloc (n * 32)]⟩ <;> rfl

theorem tailEvent_of_namesEvent (e : Event) (h : namesEvent e = true) : tailEvent e = true := by
  cases e with
  | printf m => cases m <;> first | rfl | exact Bool.noConfusion h
  | _ => first | rfl | exact Bool.noConfusion h

theorem tailEvent_of_loop (e : Event)
    (h : loopEvent e = true ∨ ∃ j off sz lbl, e = .printf (.block j off sz lbl)) :
    tailEvent e = true := by
  rcases h with h | ⟨j, off, sz, lbl, rfl⟩
  · cases e with
    | printf m => cases m <;> first | rfl | exact Bool.noConfusion h
    | _ => first | rfl | exact Bool.noConfusion h
  · rfl

theorem listed_eq_nil_of_namesEvent (evs : List Event)
    (h : ∀ e ∈ evs, namesEvent e = true) : listed evs = [] := by
  apply listed_eq_nil_of_not_block
  intro e he
  have h1 := h e he
  cases e with
  | printf m => cases m <;> first | rfl | exact Bool.noConfusion h1
  | _ => rfl

theorem entryOf_noNames (isVEC : Bool) (offsets sizes : List Nat)
    (names1 names2 : List (List Byte)) :
    entryOf isVEC false offsets sizes names1 = entryOf isVEC false offsets sizes names2 := by
  funext i; simp [entryOf]

/-- What the part of `main` after the table does: it prints its decision on the names, then
lists the resources `0 .. m-1` as the arrays and the name records of the file give them, and
returns 0 when it has listed all `n - 1` of them, 1 otherwise. -/
theorem listAll_spec (env : Env) (opts : Options) (lay : Layout) (n : Nat)
    (offsets sizes : List Nat) (data : List Byte) (p : Nat) (log : List Event) (hn0 : 0 < n) :
    ∃ (s m pos : Nat) (evs : List Event),
      listAll env opts lay n offsets sizes ⟨⟨data, p⟩, log⟩ =
        .exit s ⟨⟨data, pos⟩, log ++ padEvents lay p ++
          [.printf (.hasNames (namesDecision (offsets.getD 0 0) (padded lay p) n))] ++ evs⟩ ∧
      (s = 0 ∨ s = 1) ∧ m ≤ n - 1 ∧ (s = 0 → m = n - 1) ∧
      listed evs = (List.range' 0 m).map
        (entryOf lay.isVEC (namesDecision (offsets.getD 0 0) (padded lay p) n) offsets sizes
          (nameRecords data (padded lay p) n)) ∧
      (∀ e ∈ evs, tailEvent e = true) := by
  unfold listAll
  simp only [bind_apply]
  rw [findNames_eq]
  rcases Bool.eq_false_or_eq_true (namesDecision (offsets.getD 0 0) (padded lay p) n)
    with hn | hn
  · -- names
    simp only [hn, if_true]
    rcases Bool.eq_false_or_eq_true (env.mallocOk (log ++ padEvents lay p ++
      [.printf (.hasNames true)]) (n * 32)) with hm | hm
    · simp only [hm, if_true]
      by_cases hlen : padded lay p + 32 * n ≤ data.length
      · rw [readNames_ok data n _ _ _ hlen]
        simp only [List.nil_append]
        obtain ⟨m, pos, evs, hm1, hl, hev, hres⟩ := listLoop_spec env opts lay true offsets sizes
          (nameRecords data (padded lay p) n) data (n - 1) 0 (padded lay p + 32 * n)
          (log ++ padEvents lay p ++ [.printf (.hasNames true), .malloc (n * 32)] ++
            (List.range n).map (fun j => Event.fread (padded lay p + 32 * j) 32))
        have hreads : ∀ e ∈ (List.range n).map (fun j => Event.fread (padded lay p + 32 * j) 32),
            tailEvent e = true := by
          intro e he
          obtain ⟨j, _, rfl⟩ := List.mem_map.mp he
          simp [tailEvent, loopEvent, dumpEvent]
        have hlr : listed ((List.range n).map
            (fun j => Event.fread (padded lay p + 32 * j) 32)) = [] := by
          apply listed_eq_nil_of_loopEvent
          intro e he
          obtain ⟨j, _, rfl⟩ := List.mem_map.mp he
          simp [loopEvent, dumpEvent]
        rcases hres with ⟨h1, h2⟩ | ⟨h1, _⟩
        · refine ⟨0, m, padded lay p + 32 * n, .malloc (n * 32) ::
            ((List.range n).map (fun j => Event.fread (padded lay p + 32 * j) 32) ++ evs ++
              [.fcloseInput]), ?_, Or.inl rfl, hm1, fun _ => h2, ?_, ?_⟩
          · simp only [nameRecords] at h1 ⊢
            rw [h1]
            simp
          · simp only [listed, listed_append, hlr, hl, List.nil_append, List.append_nil]
          · intro e he
            rcases List.mem_cons.mp he with rfl | h3
            · rfl
            rcases List.mem_append.mp h3 with h4 | h4
            · rcases List.mem_append.mp h4 with h5 | h5
              · exact hreads e h5
              · exact tailEvent_of_loop e (hev e h5)
            · simp at h4; subst h4; rfl
        · refine ⟨1, m, pos, .malloc (n * 32) ::
            ((List.range n).map (fun j => Event.fread (padded lay p + 32 * j) 32) ++ evs),
            ?_, Or.inr rfl, hm1, fun h => by omega, ?_, ?_⟩
          · simp only [nameRecords] at h1 ⊢
            rw [h1]
            simp
          · simp only [listed, listed_append, hlr, hl, List.nil_append]
          · intro e he
            rcases List.mem_cons.mp he with rfl | h3
            · rfl
            rcases List.mem_append.mp h3 with h5 | h5
            · exact hreads e h5
            · exact tailEvent_of_loop e (hev e h5)
      · obtain ⟨pos, evs, he, hev⟩ := readNames_short data n (padded lay p) []
          (log ++ padEvents lay p ++ [.printf (.hasNames true), .malloc (n * 32)]) hn0 hlen
        rw [he]
        refine ⟨1, 0, pos, .malloc (n * 32) :: evs, by simp, Or.inr rfl, by omega,
          fun h => by omega, ?_, ?_⟩
        · simp only [listed, List.range'_zero, List.map_nil]
          exact listed_eq_nil_of_namesEvent evs hev
        · intro e he2
          rcases List.mem_cons.mp he2 with rfl | h3
          · rfl
          · exact tailEvent_of_namesEvent e (hev e h3)
    · simp only [hm, Bool.false_eq_true, if_false]
      exact ⟨1, 0, padded lay p, [.malloc (n * 32), .printf .memNames], by simp, Or.inr rfl,
        by omega, fun h => by omega, by simp [listed], by simp [tailEvent]⟩
  · -- no names
    simp only [hn, Bool.false_eq_true, if_false]
    obtain ⟨m, pos, evs, hm1, hl, hev, hres⟩ := listLoop_spec env opts lay false offsets sizes
      [] data (n - 1) 0 (padded lay p) (log ++ padEvents lay p ++ [.printf (.hasNames false)])
    rw [entryOf_noNames lay.isVEC offsets sizes [] (nameRecords data (padded lay p) n)] at hl
    rcases hres with ⟨h1, h2⟩ | ⟨h1, _⟩
    · refine ⟨0, m, padded lay p, evs ++ [.fcloseInput], ?_, Or.inl rfl, hm1, fun _ => h2,
        ?_, ?_⟩
      · rw [h1]; simp
      · simp only [listed_append, hl, listed, List.append_nil]
      · intro e he
        rcases List.mem_append.mp he with h5 | h5
        · exact tailEvent_of_loop e (hev e h5)
        · simp at h5; subst h5; rfl
    · refine ⟨1, m, pos, evs, ?_, Or.inr rfl, hm1, fun h => by omega, hl, ?_⟩
      · rw [h1]
      · intro e he
        exact tailEvent_of_loop e (hev e he)


theorem listed_eq_nil_of_preEvent (evs : List Event)
    (h : ∀ e ∈ evs, preEvent e = true) : listed evs = [] := by
  apply listed_eq_nil_of_not_block
  intro e he
  have h1 := h e he
  cases e with
  | printf m => cases m <;> first | rfl | exact Bool.noConfusion h1
  | _ => rfl

theorem preEvent_of_tableEvent (e : Event) (h : tableEvent e = true) : preEvent e = true := by
  cases e with
  | printf m => cases m <;> first | rfl | exact Bool.noConfusion h
  | _ => first | rfl | exact Bool.noConfusion h

theorem preEvent_countEvents (lay : Layout) (n : Nat) :
    ∀ e ∈ countEvents lay n, preEvent e = true := by
  intro e he
  simp only [countEvents, List.mem_cons, List.mem_singleton, List.not_mem_nil, or_false] at he
  rcases he with rfl | rfl | rfl <;> rfl

theorem preEvent_allocEvents (lay : Layout) (n : Nat) :
    ∀ e ∈ allocEvents lay n, preEvent e = true := by
  intro e he
  cases h : lay.isVEC <;> simp [allocEvents, h] at he
  · subst he; rfl
  · subst he; rfl

theorem preEvent_padEvents (lay : Layout) (p : Nat) :
    ∀ e ∈ padEvents lay p, preEvent e = true := by
  intro e he
  by_cases h : lay.offset = 0x1A <;> simp [padEvents, h] at he
  subst he; rfl

theorem preEvent_append {a b : List Event} (ha : ∀ e ∈ a, preEvent e = true)
    (hb : ∀ e ∈ b, preEvent e = true) : ∀ e ∈ a ++ b, preEvent e = true := by
  intro e he
  rcases List.mem_append.mp he with h | h
  · exact ha e h
  · exact hb e h

theorem listed_eq_nil_of_tableEvent (evs : List Event)
    (h : ∀ e ∈ evs, tableEvent e = true) : listed evs = [] := by
  apply listed_eq_nil_of_not_block
  intro e he
  have h1 := h e he
  cases e with
  | printf m => cases m <;> first | rfl | exact Bool.noConfusion h1
  | _ => rfl

theorem tableEvent_tableReads (isVEC : Bool) :
    ∀ (k p : Nat), ∀ e ∈ tableReads isVEC p k, tableEvent e = true := by
  intro k
  induction k with
  | zero => intro p e he; simp [tableReads] at he
  | succ k ih =>
    intro p e he
    simp only [tableReads, List.mem_append] at he
    rcases he with h | h
    · cases isVEC <;> simp at h
      · subst h; rfl
      · rcases h with rfl | rfl <;> rfl
    · exact ih _ e h

theorem listed_tableReads (isVEC : Bool) (k p : Nat) : listed (tableReads isVEC p k) = [] :=
  listed_eq_nil_of_tableEvent _ (tableEvent_tableReads isVEC k p)

theorem listed_countEvents (lay : Layout) (n : Nat) : listed (countEvents lay n) = [] := rfl

theorem listed_allocEvents (lay : Layout) (n : Nat) : listed (allocEvents lay n) = [] := by
  cases h : lay.isVEC <;> simp [allocEvents, h, listed]

theorem listed_padEvents (lay : Layout) (p : Nat) : listed (padEvents lay p) = [] := by
  by_cases h : lay.offset = 0x1A <;> simp [padEvents, h, listed]

/-! ## parse -/

theorem readCount_eq (env : Env) (lay : Layout) (data : List Byte) (p : Nat)
    (log : List Event) :
    readCount env lay ⟨⟨data, p⟩, log⟩ =
      if lay.offset + 2 ≤ data.length then
        if adjustedCount data lay = 0 then
          .exit 1 ⟨⟨data, lay.offset + 2⟩, log ++ [.fseek lay.offset, .fread lay.offset 2,
            .printf (.resourceCount (-1)), .printf .noResources]⟩
        else
          .ok (adjustedCount data lay)
            ⟨⟨data, lay.offset + 2⟩, log ++ countEvents lay (adjustedCount data lay)⟩
      else
        .exit 1 ⟨⟨data, max lay.offset data.length⟩,
          log ++ [.fseek lay.offset, .fread lay.offset 2, .printf .readFailedCount]⟩ :=
  readCount_eq_be16 env lay data p log

theorem allocTable_ok (env : Env) (lay : Layout) (n : Nat) (w : World)
    (h : allocOk env lay n w.log = true) :
    allocTable env lay n w = .ok () { w with log := w.log ++ allocEvents lay n } := by
  rw [allocTable_eq]
  simp only [allocOk, Bool.and_eq_true, Bool.or_eq_true, Bool.not_eq_true'] at h
  obtain ⟨h1, h2⟩ := h
  rcases Bool.eq_false_or_eq_true lay.isVEC with hv | hv
  · simp only [hv, Bool.true_eq_false, false_or] at h2
    simp only [h1, hv, h2, if_true, allocEvents]
  · simp only [h1, hv, if_true, Bool.false_eq_true, if_false, allocEvents]

theorem allocTable_fail (env : Env) (lay : Layout) (n : Nat) (w : World)
    (h : allocOk env lay n w.log = false) :
    ∃ evs : List Event, allocTable env lay n w = .exit 1 { w with log := w.log ++ evs } ∧
      ∀ e ∈ evs, preEvent e = true := by
  rw [allocTable_eq]
  rcases Bool.eq_false_or_eq_true (env.mallocOk w.log (4 * n)) with h1 | h1
  · rcases Bool.eq_false_or_eq_true lay.isVEC with hv | hv
    · rcases Bool.eq_false_or_eq_true (env.mallocOk (w.log ++ [.malloc (4 * n)]) (4 * n))
        with h2 | h2
      · simp [allocOk, h1, hv, h2] at h
      · exact ⟨[.malloc (4 * n), .malloc (4 * n), .printf .memSizes],
          by simp only [h1, hv, h2, if_true, Bool.false_eq_true, if_false],
          by simp [preEvent]⟩
    · simp [allocOk, h1, hv] at h
  · exact ⟨[.malloc (4 * n), .printf .memOffsets],
      by simp only [h1, Bool.false_eq_true, if_false], by simp [preEvent]⟩

/-- When the count and the table can be read and allocated, `parse` is the rest of `main`
on the arrays the file gives. -/
theorem parse_table_ok (env : Env) (opts : Options) (lay : Layout) (data : List Byte)
    (p : Nat) (log : List Event)
    (hcount : lay.offset + 2 ≤ data.length) (hn : adjustedCount data lay ≠ 0)
    (halloc : allocOk env lay (adjustedCount data lay)
      (log ++ countEvents lay (adjustedCount data lay)) = true)
    (htable : tableEnd lay (adjustedCount data lay) ≤ data.length) :
    parse env opts lay ⟨⟨data, p⟩, log⟩ =
      listAll env opts lay (adjustedCount data lay)
        (tableOffsets data lay (adjustedCount data lay))
        (tableSizes data lay (adjustedCount data lay))
        ⟨⟨data, tableEnd lay (adjustedCount data lay)⟩,
          log ++ countEvents lay (adjustedCount data lay) ++
            allocEvents lay (adjustedCount data lay) ++
            tableReads lay.isVEC (lay.offset + 2) (adjustedCount data lay)⟩ := by
  unfold parse
  simp only [bind_apply]
  rw [readCount_eq]
  simp only [hcount, hn, if_true, if_false]
  rw [allocTable_ok env lay _ _ halloc]
  simp only []
  rw [readTable_ok env lay.isVEC data _ _ _ _ _ htable]
  simp only [List.nil_append]
  rfl

/-- What `parse` does, whatever the file. It returns 0 or 1. Its events are those before
the decision on the names (`pre`) and, if it gets that far, the line with the decision the
file gives and what follows (`post`). It lists the resources `0 .. m-1` as the file gives
them, all `n - 1` of them when it returns 0. -/
theorem parse_spec (env : Env) (opts : Options) (lay : Layout) (data : List Byte)
    (p : Nat) (log : List Event) :
    ∃ (s m pos : Nat) (pre post : List Event),
      parse env opts lay ⟨⟨data, p⟩, log⟩ = .exit s ⟨⟨data, pos⟩, log ++ pre ++ post⟩ ∧
      (s = 0 ∨ s = 1) ∧ m ≤ adjustedCount data lay - 1 ∧
      (s = 0 → m = adjustedCount data lay - 1 ∧ adjustedCount data lay ≠ 0 ∧
        tableEnd lay (adjustedCount data lay) ≤ data.length) ∧
      (∀ e ∈ pre, preEvent e = true) ∧
      (post = [] ∨ ∃ tl, post = .printf (.hasNames (fileHasNames data lay)) :: tl ∧
        (∀ e ∈ tl, tailEvent e = true) ∧ adjustedCount data lay ≠ 0 ∧
        tableEnd lay (adjustedCount data lay) ≤ data.length) ∧
      (lay.offset + 2 ≤ data.length → adjustedCount data lay ≠ 0 →
        allocOk env lay (adjustedCount data lay)
          (log ++ countEvents lay (adjustedCount data lay)) = true →
        tableEnd lay (adjustedCount data lay) ≤ data.length → post ≠ []) ∧
      listed post = (List.range' 0 m).map (fileEntry data lay) := by
  by_cases hcount : lay.offset + 2 ≤ data.length
  swap
  · refine ⟨1, 0, max lay.offset data.length,
      [.fseek lay.offset, .fread lay.offset 2, .printf .readFailedCount], [], ?_, Or.inr rfl,
      by omega, fun h => by omega, by simp [preEvent], Or.inl rfl,
      fun h => absurd h hcount, by simp [listed]⟩
    unfold parse
    simp only [bind_apply]
    rw [readCount_eq]
    simp only [hcount, if_false, List.append_nil]
  by_cases hn : adjustedCount data lay = 0
  · refine ⟨1, 0, lay.offset + 2,
      [.fseek lay.offset, .fread lay.offset 2, .printf (.resourceCount (-1)),
        .printf .noResources], [], ?_, Or.inr rfl, by omega, fun h => by omega,
      by simp [preEvent], Or.inl rfl, fun _ h => absurd hn h, by simp [listed]⟩
    unfold parse
    simp only [bind_apply]
    rw [readCount_eq]
    simp only [hcount, hn, if_true, List.append_nil]
  rcases Bool.eq_false_or_eq_true (allocOk env lay (adjustedCount data lay)
      (log ++ countEvents lay (adjustedCount data lay))) with halloc | halloc
  swap
  · -- an allocation fails
    obtain ⟨aevs, hae, hal⟩ := allocTable_fail env lay (adjustedCount data lay)
      ⟨⟨data, lay.offset + 2⟩, log ++ countEvents lay (adjustedCount data lay)⟩ halloc
    refine ⟨1, 0, lay.offset + 2, countEvents lay (adjustedCount data lay) ++ aevs, [], ?_,
      Or.inr rfl, by omega, fun h => by omega,
      preEvent_append (preEvent_countEvents _ _) hal, Or.inl rfl,
      fun _ _ h => by rw [halloc] at h; exact absurd h (by decide), by simp [listed]⟩
    unfold parse
    simp only [bind_apply]
    rw [readCount_eq]
    simp only [hcount, hn, if_true, if_false]
    rw [hae]
    simp only [List.append_assoc, List.append_nil]
  by_cases htable : tableEnd lay (adjustedCount data lay) ≤ data.length
  · rw [parse_table_ok env opts lay data p log hcount hn halloc htable]
    obtain ⟨s, m, pos, evs, he, hs, hm, hs0, hl, htl⟩ := listAll_spec env opts lay
      (adjustedCount data lay) (tableOffsets data lay (adjustedCount data lay))
      (tableSizes data lay (adjustedCount data lay)) data
      (tableEnd lay (adjustedCount data lay))
      (log ++ countEvents lay (adjustedCount data lay) ++
        allocEvents lay (adjustedCount data lay) ++
        tableReads lay.isVEC (lay.offset + 2) (adjustedCount data lay))
      (Nat.pos_of_ne_zero hn)
    refine ⟨s, m, pos, countEvents lay (adjustedCount data lay) ++
        allocEvents lay (adjustedCount data lay) ++
        tableReads lay.isVEC (lay.offset + 2) (adjustedCount data lay) ++
        padEvents lay (tableEnd lay (adjustedCount data lay)),
        .printf (.hasNames (fileHasNames data lay)) :: evs, ?_, hs, hm,
      fun h => ⟨hs0 h, hn, htable⟩, ?_, Or.inr ⟨evs, rfl, htl, hn, htable⟩,
      fun _ _ _ _ => List.cons_ne_nil _ _, ?_⟩
    · rw [he]; simp only [fileHasNames, List.append_assoc, List.singleton_append]
    · exact preEvent_append (preEvent_append (preEvent_append (preEvent_countEvents _ _)
        (preEvent_allocEvents _ _))
        (fun e h => preEvent_of_tableEvent e (tableEvent_tableReads _ _ _ e h)))
        (preEvent_padEvents _ _)
    · exact hl
  · -- the table is cut short
    obtain ⟨pos, tevs, hte, htev⟩ := readTable_short env lay.isVEC data
      (adjustedCount data lay) (lay.offset + 2) [] []
      (log ++ countEvents lay (adjustedCount data lay) ++
        allocEvents lay (adjustedCount data lay))
      (Nat.pos_of_ne_zero hn) htable
    refine ⟨1, 0, pos, countEvents lay (adjustedCount data lay) ++
      allocEvents lay (adjustedCount data lay) ++ tevs, [], ?_,
      Or.inr rfl, by omega, fun h => by omega, ?_, Or.inl rfl,
      fun _ _ _ h => absurd h htable, by simp [listed]⟩
    · unfold parse
      simp only [bind_apply]
      rw [readCount_eq]
      simp only [hcount, hn, if_true, if_false]
      rw [allocTable_ok env lay _ _ halloc]
      simp only []
      rw [hte]
      simp only [List.append_assoc, List.append_nil]
    · exact preEvent_append (preEvent_append (preEvent_countEvents _ _)
        (preEvent_allocEvents _ _)) (fun e h => preEvent_of_tableEvent e (htev e h))

/-! ## The whole run -/

theorem listed_eq_nil_of_detectEvent (evs : List Event)
    (h : ∀ e ∈ evs, detectEvent e = true) : listed evs = [] := by
  apply listed_eq_nil_of_not_block
  intro e he
  have h1 := h e he
  cases e with
  | printf m => cases m <;> first | rfl | exact Bool.noConfusion h1
  | _ => rfl

theorem detect_short (env : Env) (opts : Options) (data : List Byte) (log : List Event)
    (hlen : ¬ 26 ≤ data.length) :
    detect env opts ⟨⟨data, 0⟩, log⟩ =
      .exit 1 ⟨⟨data, max 0 data.length⟩,
        log ++ [.fseek 0, .fread 0 26, .printf .readFailedHeader]⟩ := by
  unfold detect
  simp only [bind_apply, fseek_apply]
  rw [fread_short _ _ (by simpa using hlen)]
  simp

/-- When `detect` goes on, the header was read in full, the stream stands after it, and
nothing but the events of `detect` has happened. -/
theorem detect_ok (env : Env) (opts : Options) (data : List Byte) (lay : Layout)
    (hdet : (detect env opts (opened data)).layout = some lay) :
    26 ≤ data.length ∧ ∃ devs : List Event,
      detect env opts (opened data) = .ok lay ⟨⟨data, 26⟩, devs⟩ ∧
      ∀ e ∈ devs, detectEvent e = true := by
  by_cases hlen : 26 ≤ data.length
  swap
  · rw [opened, detect_short env opts data [] hlen] at hdet
    simp [Res.layout] at hdet
  refine ⟨hlen, ?_⟩
  rw [opened] at hdet ⊢
  rw [detect_eq env opts data [] hlen] at hdet ⊢
  rcases Bool.eq_false_or_eq_true (memcmpEq (List.take 26 data) magicStr 5) with h1 | h1 <;>
  rcases Bool.eq_false_or_eq_true
    (memcmpEq (List.drop 15 (List.take 26 data)) subKindMarker 3) with h2 | h2 <;>
  rcases Bool.eq_false_or_eq_true (memcmpEq (List.take 26 data) magicStr2 23) with h3 | h3 <;>
  rcases Bool.eq_false_or_eq_true opts.offsetFound with h5 | h5 <;>
  rcases h4 : lookupKnown (List.drop 20 (List.take 26 data)) knownFiles with _ | k <;>
  simp [h1, h2, h3, h4, h5, Res.layout] at hdet ⊢ <;>
  subst hdet <;>
  simp [detectEvent]

/-- What a run on an opened file does once `detect` has gone on with the layout `lay`. -/
theorem runFile_spec (env : Env) (opts : Options) (data : List Byte) (lay : Layout)
    (hdet : (detect env opts (opened data)).layout = some lay) :
    ∃ (m : Nat) (devs pre post : List Event),
      (runFile env opts data).log = devs ++ pre ++ post ∧
      ((runFile env opts data).status = 0 ∨ (runFile env opts data).status = 1) ∧
      m ≤ adjustedCount data lay - 1 ∧
      ((runFile env opts data).status = 0 →
        m = adjustedCount data lay - 1 ∧ adjustedCount data lay ≠ 0 ∧
        tableEnd lay (adjustedCount data lay) ≤ data.length) ∧
      (∀ e ∈ devs, detectEvent e = true) ∧
      (∀ e ∈ pre, preEvent e = true) ∧
      (post = [] ∨ ∃ tl, post = .printf (.hasNames (fileHasNames data lay)) :: tl ∧
        (∀ e ∈ tl, tailEvent e = true) ∧ adjustedCount data lay ≠ 0 ∧
        tableEnd lay (adjustedCount data lay) ≤ data.length) ∧
      (lay.offset + 2 ≤ data.length → adjustedCount data lay ≠ 0 →
        (∀ l b, env.mallocOk l b = true) →
        tableEnd lay (adjustedCount data lay) ≤ data.length → post ≠ []) ∧
      listed (runFile env opts data).log = (List.range' 0 m).map (fileEntry data lay) := by
  obtain ⟨_, devs, hd, hdev⟩ := detect_ok env opts data lay hdet
  obtain ⟨s, m, pos, pre, post, hp, hs, hm, hs0, hpre, hpost, hne, hl⟩ :=
    parse_spec env opts lay data 26 devs
  have hrun : runFile env opts data = ⟨s, devs ++ pre ++ post⟩ := by
    rw [opened] at hd
    simp only [runFile, run_eq_of_detect hd, hp, Res.outcome]
  refine ⟨m, devs, pre, post, by rw [hrun], by rw [hrun]; exact hs, hm,
    by rw [hrun]; exact hs0, hdev, hpre, hpost, ?_, ?_⟩
  · intro h1 h2 h3 h4
    refine hne h1 h2 ?_ h4
    simp [allocOk, h3]
  · rw [hrun]
    simp only [listed_append, listed_eq_nil_of_detectEvent devs hdev,
      listed_eq_nil_of_preEvent pre hpre, hl, List.nil_append]

theorem tableOffsets_getD (data : List Byte) (lay : Layout) (n i : Nat) (h : i < n) :
    (tableOffsets data lay n).getD i 0 =
      be32At data (lay.offset + 2 + entryWidth lay.isVEC * i) := by
  simp [tableOffsets, List.getD_eq_getElem?_getD, List.getElem?_range, h]

theorem tableSizes_getD (data : List Byte) (lay : Layout) (n i : Nat) (h : i < n)
    (hv : lay.isVEC = true) :
    (tableSizes data lay n).getD i 0 = be32At data (lay.offset + 2 + 8 * i + 4) := by
  simp [tableSizes, hv, List.getD_eq_getElem?_getD, List.getElem?_range, h]

theorem be32At_lt (data : List Byte) (p : Nat) : be32At data p < 2 ^ 32 := be32_lt _

theorem range'_zero_eq_range (m : Nat) : List.range' 0 m = List.range m := by
  rw [List.range_eq_range']

theorem hasNames_not_detectEvent (b : Bool) :
    detectEvent (.printf (.hasNames b)) = false := rfl

theorem hasNames_not_preEvent (b : Bool) : preEvent (.printf (.hasNames b)) = false := rfl

theorem hasNames_not_tailEvent (b : Bool) : tailEvent (.printf (.hasNames b)) = false := rfl

theorem toInt32_of_range (z : Int) (h1 : -2 ^ 31 ≤ z) (h2 : z < 2 ^ 31) : toInt32 z = z := by
  simp only [toInt32]
  omega

/-! ## The byte order functions and the registry -/

theorem reverseByteOrder2_be (x : Nat) : reverseByteOrder2 false x = x := by
  simp [reverseByteOrder2, systemIsLittleEndian_eq]

theorem reverseByteOrder4_be (x : Nat) : reverseByteOrder4 false x = x := by
  simp [reverseByteOrder4, systemIsLittleEndian_eq]

theorem getD_drop_take26 (data : List Byte) (n j : Nat) (h : n + j < 26) :
    ((data.take 26).drop n).getD j 0 = data.getD (n + j) 0 := by
  simp [List.getD_eq_getElem?_getD, List.getElem?_drop, List.getElem?_take, h]

theorem lookupKnown_some (fileID : List Byte) :
    ∀ (l : List KNOWN_FILES) (k : KNOWN_FILES), lookupKnown fileID l = some k →
      k ∈ l ∧ memcmpEq fileID k.magic 6 = true := by
  intro l
  induction l with
  | nil => intro k h; simp [lookupKnown] at h
  | cons a as ih =>
    intro k h
    simp only [lookupKnown] at h
    split at h
    · next hm =>
      injection h with h
      subst h
      exact ⟨List.mem_cons_self _ _, hm⟩
    · obtain ⟨h1, h2⟩ := ih k h
      exact ⟨List.mem_cons_of_mem _ h1, h2⟩

theorem lookupKnown_none (fileID : List Byte) :
    ∀ (l : List KNOWN_FILES), lookupKnown fileID l = none →
      ∀ k ∈ l, memcmpEq fileID k.magic 6 = false := by
  intro l
  induction l with
  | nil => intro _ k hk; simp at hk
  | cons a as ih =>
    intro h k hk
    simp only [lookupKnown] at h
    split at h
    · cases h
    · next hm =>
      rcases List.mem_cons.mp hk with rfl | hk2
      · simpa using hm
      · exact ih h k hk2

theorem knownFiles_match_unique (fileID : List Byte) (k1 k2 : KNOWN_FILES)
    (h1 : k1 ∈ knownFiles) (h2 : k2 ∈ knownFiles)
    (m1 : memcmpEq fileID k1.magic 6 = true) (m2 : memcmpEq fileID k2.magic 6 = true) :
    k1 = k2 := by
  have e : k1.magic.take 6 = k2.magic.take 6 := by
    simp only [memcmpEq, beq_iff_eq] at m1 m2
    rw [← m1, ← m2]
  simp only [knownFiles, List.mem_cons, List.mem_singleton, List.not_mem_nil, or_false]
    at h1 h2
  rcases h1 with rfl | rfl | rfl | rfl | rfl | rfl | rfl <;>
  rcases h2 with rfl | rfl | rfl | rfl | rfl | rfl | rfl <;>
  first
    | rfl
    | exact absurd e (by decide)

theorem four_mul_le_tableEnd (lay : Layout) (n : Nat) : 4 * n ≤ tableEnd lay n := by
  cases h : lay.isVEC <;> simp only [tableEnd, entryWidth, h, if_true, Bool.false_eq_true,
    if_false] <;> omega

theorem sum_map_range_succ (f : Nat → Nat) (m : Nat) :
    ((List.range (m + 1)).map f).sum = ((List.range m).map f).sum + f m := by
  rw [List.range_succ, List.map_append, List.sum_append]
  simp

/-- The sizes `(o (i+1) - o i) mod 2^32` for `i < m` add up to `(o m - o 0) mod 2^32`. -/
theorem sum_wrapped_sizes (o : Nat → Nat) (ho : ∀ j, o j < 2 ^ 32) (m : Nat) :
    ((List.range m).map (fun i => (o (i + 1) + 2 ^ 32 - o i) % 2 ^ 32)).sum % 2 ^ 32 =
      (o m + 2 ^ 32 - o 0) % 2 ^ 32 := by
  induction m with
  | zero =>
    have := ho 0
    simp only [List.range_zero, List.map_nil, List.sum_nil]
    omega
  | succ m ih =>
    rw [sum_map_range_succ]
    have h0 := ho 0
    have h1 := ho m
    have h2 := ho (m + 1)
    generalize ((List.range m).map (fun i => (o (i + 1) + 2 ^ 32 - o i) % 2 ^ 32)).sum = S
      at ih ⊢
    omega

/-- For non-decreasing `o` the sizes add up to `o m - o 0` exactly. -/
theorem sum_exact_sizes (o : Nat → Nat) (ho : ∀ j, o j < 2 ^ 32) (m : Nat)
    (hmono : ∀ j, j < m → o j ≤ o (j + 1)) :
    ((List.range m).map (fun i => (o (i + 1) + 2 ^ 32 - o i) % 2 ^ 32)).sum = o m - o 0 ∧
      o 0 ≤ o m := by
  induction m with
  | zero => simp
  | succ m ih =>
    rw [sum_map_range_succ]
    obtain ⟨ih1, ih2⟩ := ih (fun j hj => hmono j (by omega))
    have h1 := ho m
    have h2 := ho (m + 1)
    have h3 := hmono m (by omega)
    rw [ih1]
    omega

/-! ## dumpResource, byte for byte -/

theorem written_append (filename : CStr) (a b : List Event) :
    written filename (a ++ b) = written filename a ++ written filename b := by
  induction a with
  | nil => rfl
  | cons e es ih =>
    cases e with
    | fwrite name bytes =>
      by_cases h : name = filename <;> simp [written, h, ih]
    | _ => simpa [written] using ih

theorem take_drop_split (l : List Byte) (p c b : Nat) (hc : c ≤ b) :
    (l.drop p).take c ++ (l.drop (p + c)).take (b - c) = (l.drop p).take b := by
  have h1 : l.drop (p + c) = (l.drop p).drop c := by rw [List.drop_drop]
  rw [h1]
  have h2 : b = c + (b - c) := by omega
  conv_rhs => rw [h2, List.take_add]

/-- The block loop, exactly: with enough iterations allowed it ends with 0 only after it has
read and written the `bytesLeft` bytes from the position `p`, in order, and it does end
with 0 when these bytes are in the file and every write succeeds. -/
theorem copyBlocks_exact (env : Env) (filename : CStr) (data : List Byte) :
    ∀ (fuel bytesLeft p : Nat) (log : List Event), bytesLeft ≤ fuel →
      ∃ (r pos : Nat) (evs : List Event),
        copyBlocks env filename fuel bytesLeft ⟨⟨data, p⟩, log⟩ =
          .ok r ⟨⟨data, pos⟩, log ++ evs⟩ ∧
        (r = 0 ∨ r = 1) ∧
        (r = 0 → pos = p + bytesLeft ∧ (0 < bytesLeft → p + bytesLeft ≤ data.length) ∧
          written filename evs = (data.drop p).take bytesLeft) ∧
        ((∀ l bs, env.fwriteOk l filename bs = true) → p + bytesLeft ≤ data.length →
          r = 0) := by
  intro fuel
  induction fuel with
  | zero =>
    intro b p log hb
    have hb0 : b = 0 := by omega
    subst hb0
    exact ⟨0, p, [], by simp [copyBlocks], Or.inl rfl,
      fun _ => ⟨rfl, fun h => absurd h (lt_irrefl 0), by simp [written]⟩, fun _ _ => rfl⟩
  | succ fuel ih =>
    intro b p log hb
    unfold copyBlocks
    by_cases hb0 : b > 0
    · simp only [hb0, if_true, bind_apply]
      have hcb : (if b < BLOCKSIZE then b else BLOCKSIZE) ≤ b := by
        split <;> simp only [BLOCKSIZE] at * <;> omega
      have hc0 : 0 < (if b < BLOCKSIZE then b else BLOCKSIZE) := by
        split <;> simp only [BLOCKSIZE] at * <;> omega
      generalize (if b < BLOCKSIZE then b else BLOCKSIZE) = c at hcb hc0 ⊢
      by_cases hr : p + c ≤ data.length
      · rw [fread_ok _ _ (by simpa using hr)]
        simp only [fwrite_apply]
        rcases Bool.eq_false_or_eq_true (env.fwriteOk (log ++ [.fread p c]) filename
          (List.take c (List.drop p data))) with hw | hw
        · obtain ⟨r, pos, evs, he, hr01, hr0, hrok⟩ := ih (b - c) (p + c)
            (log ++ [.fread p c] ++ [.fwrite filename (List.take c (List.drop p data))])
            (by omega)
          refine ⟨r, pos, .fread p c :: .fwrite filename (List.take c (List.drop p data)) ::
            evs, ?_, hr01, ?_, ?_⟩
          · simpa [hw] using he
          · intro h0
            obtain ⟨h1, h2, h3⟩ := hr0 h0
            refine ⟨by omega, fun _ => by omega, ?_⟩
            simp only [written, if_true, h3]
            exact take_drop_split data p c b hcb
          · intro hall hlen
            exact hrok hall (by omega)
        · refine ⟨1, p + c, [.fread p c,
            .fwrite filename (List.take c (List.drop p data)), .printf .dumpWriteFailed],
            ?_, Or.inr rfl, fun h => by omega, ?_⟩
          · simp [hw]
          · intro hall _
            rw [hall] at hw
            exact absurd hw (by decide)
      · rw [fread_short _ _ (by simpa using hr)]
        refine ⟨1, max p data.length, [.fread p c, .printf .dumpReadFailed], ?_, Or.inr rfl,
          fun h => by omega, fun _ hlen => by omega⟩
        simp
    · have hb1 : b = 0 := by omega
      subst hb1
      exact ⟨0, p, [], by simp, Or.inl rfl,
        fun _ => ⟨rfl, fun h => absurd h (lt_irrefl 0), by simp [written]⟩, fun _ _ => rfl⟩

/-! ## The command line -/

theorem parseArgs_outExt_aux (env : Env) :
    ∀ (n : Nat) (args : List CStr), args.length ≤ n → ∀ (o o2 : Options) (w w2 : World),
      parseArgs env args o w = .ok o2 w2 → o2.outExt = o.outExt := by
  intro n
  induction n with
  | zero =>
    intro args hl o o2 w w2 h
    have : args = [] := List.length_eq_zero.mp (by omega)
    subst this
    simp only [parseArgs, pure_apply] at h
    injection h with h1 _
    rw [← h1]
  | succ n ih =>
    intro args hl o o2 w w2 h
    cases args with
    | nil =>
      simp only [parseArgs, pure_apply] at h
      injection h with h1 _
      rw [← h1]
    | cons a rest =>
      have hrest : rest.length ≤ n := by simpa using hl
      unfold parseArgs at h
      split at h
      · have key := ih rest hrest _ _ _ _ h
        exact key
      · split at h
        · cases rest with
          | nil => simp at h
          | cons p rest1 =>
            have h1 : rest1.length ≤ n := by simp at hrest; omega
            have key := ih rest1 h1 _ _ _ _ h
            exact key
        · split at h
          · cases rest with
            | nil => simp at h
            | cons p rest1 =>
              have h1 : rest1.length ≤ n := by simp at hrest; omega
              simp only [bind_apply, printf_apply] at h
              have key := ih rest1 h1 _ _ _ _ h
              exact key
          · simp only [bind_apply, printf_apply] at h
            have key := ih rest hrest _ _ _ _ h
            exact key

/-- The argument loop never assigns `outExt`. -/
theorem parseArgs_outExt (env : Env) (args : List CStr) (o o2 : Options) (w w2 : World)
    (h : parseArgs env args o w = .ok o2 w2) : o2.outExt = o.outExt :=
  parseArgs_outExt_aux env args.length args (le_refl _) o o2 w w2 h

/-! ## The trace of `parse` after the count -/

theorem readTable_short_head (env : Env) (isVEC : Bool) (data : List Byte)
    (k p : Nat) (offs szs : List Nat) (log : List Event)
    (hk : 0 < k) (h : ¬ p + entryWidth isVEC * k ≤ data.length) :
    ∃ (pos : Nat) (tl : List Event),
      readTable env isVEC k offs szs ⟨⟨data, p⟩, log⟩ =
        .exit 1 ⟨⟨data, pos⟩, log ++ .fread p 4 :: tl⟩ ∧
      ∀ e ∈ tl, tableEvent e = true := by
  obtain ⟨k, rfl⟩ : ∃ j, k = j + 1 := ⟨k - 1, by omega⟩
  unfold readTable
  simp only [bind_apply]
  by_cases h1 : p + 4 ≤ data.length
  · rw [fread_ok _ _ (by simpa using h1)]
    cases isVEC
    · simp only [entryWidth, Bool.false_eq_true, if_false] at h ⊢
      obtain ⟨pos, evs, he, hev⟩ := readTable_short env false data k (p + 4)
        (offs ++ [reverseByteOrder4 env.littleEndian
          (load32 env.littleEndian (List.take 4 (List.drop p data)))]) szs
        (log ++ [.fread p 4]) (by omega)
        (by simp only [entryWidth, Bool.false_eq_true, if_false]; omega)
      exact ⟨pos, evs, by simpa using he, hev⟩
    · simp only [entryWidth, if_true, bind_apply] at h ⊢
      by_cases h2 : p + 4 + 4 ≤ data.length
      · rw [fread_ok _ _ (by simpa using h2)]
        obtain ⟨pos, evs, he, hev⟩ := readTable_short env true data k (p + 4 + 4)
          (offs ++ [reverseByteOrder4 env.littleEndian
            (load32 env.littleEndian (List.take 4 (List.drop p data)))])
          (szs ++ [reverseByteOrder4 env.littleEndian
            (load32 env.littleEndian (List.take 4 (List.drop (p + 4) data)))])
          (log ++ [.fread p 4] ++ [.fread (p + 4) 4]) (by omega)
          (by simp only [entryWidth, if_true]; omega)
        refine ⟨pos, .fread (p + 4) 4 :: evs, by simpa using he, ?_⟩
        intro e he2
        rcases List.mem_cons.mp he2 with rfl | h3
        · rfl
        · exact hev e h3
      · rw [fread_short _ _ (by simpa using h2)]
        exact ⟨max (p + 4) data.length, [.fread (p + 4) 4, .printf .readFailedSizes],
          by simp, by simp [tableEvent]⟩
  · rw [fread_short _ _ (by simpa using h1)]
    exact ⟨max p data.length, [.printf .readFailedOffsets], by simp, by simp [tableEvent]⟩

theorem tableReads_head (isVEC : Bool) (k p : Nat) (hk : 0 < k) :
    ∃ tl, tableReads isVEC p k = .fread p 4 :: tl ∧ ∀ e ∈ tl, tableEvent e = true := by
  obtain ⟨k, rfl⟩ : ∃ j, k = j + 1 := ⟨k - 1, by omega⟩
  have ht := tableEvent_tableReads isVEC k (p + entryWidth isVEC)
  cases isVEC
  · exact ⟨tableReads false (p + entryWidth false) k, by simp [tableReads], ht⟩
  · refine ⟨.fread (p + 4) 4 :: tableReads true (p + entryWidth true) k,
      by simp [tableReads], ?_⟩
    intro e he
    rcases List.mem_cons.mp he with rfl | h3
    · rfl
    · exact ht e h3

theorem allocEvents_head (lay : Layout) (n : Nat) :
    ∃ tl, allocEvents lay n = .malloc (4 * n) :: tl ∧ ∀ e ∈ tl, e = Event.malloc (4 * n) := by
  rcases Bool.eq_false_or_eq_true lay.isVEC with hv | hv
  · exact ⟨[.malloc (4 * n)], by simp [allocEvents, hv], by simp⟩
  · exact ⟨[], by simp [allocEvents, hv], by simp⟩

theorem allocTable_fail_head (env : Env) (lay : Layout) (n : Nat) (w : World)
    (h : allocOk env lay n w.log = false) :
    ∃ tl : List Event,
      allocTable env lay n w = .exit 1 { w with log := w.log ++ .malloc (4 * n) :: tl } ∧
      ∀ e ∈ tl, e ≠ .printf .noResources := by
  rw [allocTable_eq]
  rcases Bool.eq_false_or_eq_true (env.mallocOk w.log (4 * n)) with h1 | h1
  · rcases Bool.eq_false_or_eq_true lay.isVEC with hv | hv
    · rcases Bool.eq_false_or_eq_true (env.mallocOk (w.log ++ [.malloc (4 * n)]) (4 * n))
        with h2 | h2
      · simp [allocOk, h1, hv, h2] at h
      · exact ⟨[.malloc (4 * n), .printf .memSizes],
          by simp only [h1, hv, h2, if_true, Bool.false_eq_true, if_false],
          by simp⟩
    · simp [allocOk, h1, hv] at h
  · exact ⟨[.printf .memOffsets],
      by simp only [h1, Bool.false_eq_true, if_false], by simp⟩

theorem noResources_not_tableEvent (e : Event) (h : tableEvent e = true) :
    e ≠ .printf .noResources := by
  intro he; subst he; exact Bool.noConfusion h

theorem noResources_not_tailEvent (e : Event) (h : tailEvent e = true) :
    e ≠ .printf .noResources := by
  intro he; subst he; exact Bool.noConfusion h

theorem noResources_not_detectEvent (e : Event) (h : detectEvent e = true) :
    e ≠ .printf .noResources := by
  intro he; subst he; exact Bool.noConfusion h

theorem noResources_not_padEvents (lay : Layout) (p : Nat) (e : Event)
    (h : e ∈ padEvents lay p) : e ≠ .printf .noResources := by
  intro he; subst he
  by_cases h2 : lay.offset = 0x1A <;> simp [padEvents, h2] at h

/-- Once the count is read and is not 0, `parse` goes on to the table: it asks for the
memory of the offsets, prints "No resources!" nowhere, and when the memory is there its
next step is the first read of the table. -/
theorem parse_trace (env : Env) (opts : Options) (lay : Layout) (data : List Byte)
    (p : Nat) (log : List Event)
    (hcount : lay.offset + 2 ≤ data.length) (hn : adjustedCount data lay ≠ 0) :
    ∃ (s pos : Nat) (tl : List Event),
      parse env opts lay ⟨⟨data, p⟩, log⟩ =
        .exit s ⟨⟨data, pos⟩, log ++ countEvents lay (adjustedCount data lay) ++
          .malloc (4 * adjustedCount data lay) :: tl⟩ ∧
      (∀ e ∈ tl, e ≠ .printf .noResources) ∧
      (allocOk env lay (adjustedCount data lay)
          (log ++ countEvents lay (adjustedCount data lay)) = true →
        ∃ tl2, Event.malloc (4 * adjustedCount data lay) :: tl =
          allocEvents lay (adjustedCount data lay) ++ .fread (lay.offset + 2) 4 :: tl2) := by
  obtain ⟨atl, hatl, hatl2⟩ := allocEvents_head lay (adjustedCount data lay)
  rcases Bool.eq_false_or_eq_true (allocOk env lay (adjustedCount data lay)
      (log ++ countEvents lay (adjustedCount data lay))) with halloc | halloc
  swap
  · -- an allocation fails
    obtain ⟨tl, hae, hal⟩ := allocTable_fail_head env lay (adjustedCount data lay)
      ⟨⟨data, lay.offset + 2⟩, log ++ countEvents lay (adjustedCount data lay)⟩ halloc
    refine ⟨1, lay.offset + 2, tl, ?_, hal,
      fun h => by rw [halloc] at h; exact absurd h (by decide)⟩
    unfold parse
    simp only [bind_apply]
    rw [readCount_eq]
    simp only [hcount, hn, if_true, if_false]
    rw [hae]
  obtain ⟨ttl, httl, httl2⟩ := tableReads_head lay.isVEC (adjustedCount data lay)
    (lay.offset + 2) (Nat.pos_of_ne_zero hn)
  by_cases htable : tableEnd lay (adjustedCount data lay) ≤ data.length
  · rw [parse_table_ok env opts lay data p log hcount hn halloc htable]
    obtain ⟨s, m, pos, evs, he, _, _, _, _, htl⟩ := listAll_spec env opts lay
      (adjustedCount data lay) (tableOffsets data lay (adjustedCount data lay))
      (tableSizes data lay (adjustedCount data lay)) data
      (tableEnd lay (adjustedCount data lay))
      (log ++ countEvents lay (adjustedCount data lay) ++
        allocEvents lay (adjustedCount data lay) ++
        tableReads lay.isVEC (lay.offset + 2) (adjustedCount data lay))
      (Nat.pos_of_ne_zero hn)
    refine ⟨s, pos, atl ++ .fread (lay.offset + 2) 4 :: (ttl ++
      padEvents lay (tableEnd lay (adjustedCount data lay)) ++
      .printf (.hasNames (namesDecision
        ((tableOffsets data lay (adjustedCount data lay)).getD 0 0)
        (padded lay (tableEnd lay (adjustedCount data lay))) (adjustedCount data lay))) ::
      evs), ?_, ?_, fun _ => ⟨_, by rw [hatl]; rfl⟩⟩
    · rw [he, hatl, httl]
      simp only [List.append_assoc, List.cons_append, List.nil_append]
    · intro e he2
      rcases List.mem_append.mp he2 with h3 | h3
      · rw [hatl2 e h3]; exact fun h => Event.noConfusion h
      rcases List.mem_cons.mp h3 with rfl | h3
      · exact fun h => Event.noConfusion h
      rcases List.mem_append.mp h3 with h3 | h3
      · rcases List.mem_append.mp h3 with h3 | h3
        · exact noResources_not_tableEvent e (httl2 e h3)
        · exact noResources_not_padEvents _ _ e h3
      rcases List.mem_cons.mp h3 with rfl | h3
      · intro h; injection h with h; exact Msg.noConfusion h
      · exact noResources_not_tailEvent e (htl e h3)
  · -- the table is cut short
    obtain ⟨pos, tevs, hte, htev⟩ := readTable_short_head env lay.isVEC data
      (adjustedCount data lay) (lay.offset + 2) [] []
      (log ++ countEvents lay (adjustedCount data lay) ++
        allocEvents lay (adjustedCount data lay))
      (Nat.pos_of_ne_zero hn) htable
    refine ⟨1, pos, atl ++ .fread (lay.offset + 2) 4 :: tevs, ?_, ?_,
      fun _ => ⟨_, by rw [hatl]; rfl⟩⟩
    · unfold parse
      simp only [bind_apply]
      rw [readCount_eq]
      simp only [hcount, hn, if_true, if_false]
      rw [allocTable_ok env lay _ _ halloc]
      simp only []
      rw [hte, hatl]
      simp only [List.append_assoc, List.cons_append, List.nil_append]
    · intro e he2
      rcases List.mem_append.mp he2 with h3 | h3
      · rw [hatl2 e h3]; exact fun h => Event.noConfusion h
      rcases List.mem_cons.mp h3 with rfl | h3
      · exact fun h => Event.noConfusion h
      · exact noResources_not_tableEvent e (htev e h3)

theorem adjustedCount_eq_zero_iff (data : List Byte) (lay : Layout) :
    adjustedCount data lay = 0 ↔ be16At data lay.offset = 0xFFFF := by
  have h := be16_lt (data.drop lay.offset)
  simp only [adjustedCount, be16At]
  omega

theorem noResources_not_countEvents (lay : Layout) (n : Nat) (e : Event)
    (h : e ∈ countEvents lay n) : e ≠ .printf .noResources := by
  intro he; subst he
  simp [countEvents] at h

/-! ## The first read of the names -/

theorem readNames_short_head (data : List Byte) (k p : Nat) (names : List (List Byte))
    (log : List Event) (hk : 0 < k) (h : ¬ p + 32 * k ≤ data.length) :
    ∃ (pos : Nat) (tl : List Event),
      readNames k names ⟨⟨data, p⟩, log⟩ = .exit 1 ⟨⟨data, pos⟩, log ++ .fread p 32 :: tl⟩ := by
  obtain ⟨k, rfl⟩ : ∃ j, k = j + 1 := ⟨k - 1, by omega⟩
  unfold readNames
  simp only [bind_apply, NAME_SIZE]
  by_cases h1 : p + 32 ≤ data.length
  · rw [fread_ok _ _ (by simpa using h1)]
    obtain ⟨pos, evs, he, _⟩ := readNames_short data k (p + 32)
      (names ++ [List.take 32 (List.drop p data)]) (log ++ [.fread p 32]) (by omega) (by omega)
    exact ⟨pos, evs, by simpa using he⟩
  · rw [fread_short _ _ (by simpa using h1)]
    exact ⟨max p data.length, [.printf .readFailedNames], by simp⟩

/-- When the decision is for names and their memory is there, the next step of `main` is
the read of the first name record, at the position of the decision. -/
theorem listAll_names_head (env : Env) (opts : Options) (lay : Layout) (n : Nat)
    (offsets sizes : List Nat) (data : List Byte) (p : Nat) (log : List Event) (hn0 : 0 < n)
    (hdec : namesDecision (offsets.getD 0 0) (padded lay p) n = true)
    (hm : env.mallocOk (log ++ padEvents lay p ++ [.printf (.hasNames true)]) (n * 32) = true) :
    ∃ (s pos : Nat) (tl : List Event),
      listAll env opts lay n offsets sizes ⟨⟨data, p⟩, log⟩ =
        .exit s ⟨⟨data, pos⟩, log ++ padEvents lay p ++
          [.printf (.hasNames true), .malloc (n * 32), .fread (padded lay p) 32] ++ tl⟩ := by
  unfold listAll
  simp only [bind_apply]
  rw [findNames_eq]
  simp only [hdec, if_true, hm]
  by_cases hlen : padded lay p + 32 * n ≤ data.length
  · rw [readNames_ok data n _ _ _ hlen]
    simp only [List.nil_append]
    obtain ⟨m, pos, evs, _, _, _, hres⟩ := listLoop_spec env opts lay true offsets sizes
      ((List.range n).map (fun j => (data.drop (padded lay p + 32 * j)).take 32)) data
      (n - 1) 0 (padded lay p + 32 * n)
      (log ++ padEvents lay p ++ [.printf (.hasNames true), .malloc (n * 32)] ++
        (List.range n).map (fun j => Event.fread (padded lay p + 32 * j) 32))
    obtain ⟨k, rfl⟩ : ∃ j, n = j + 1 := ⟨n - 1, by omega⟩
    rcases hres with ⟨h1, _⟩ | ⟨h1, _⟩
    · rw [h1]
      refine ⟨0, padded lay p + 32 * (k + 1),
        (List.range k).map (fun j => Event.fread (padded lay p + 32 * (j + 1)) 32) ++ evs ++
          [.fcloseInput], ?_⟩
      simp [map_range_succ]
    · rw [h1]
      refine ⟨1, pos,
        (List.range k).map (fun j => Event.fread (padded lay p + 32 * (j + 1)) 32) ++ evs, ?_⟩
      simp [map_range_succ]
  · obtain ⟨pos, tl, he⟩ := readNames_short_head data n (padded lay p) []
      (log ++ padEvents lay p ++ [.printf (.hasNames true), .malloc (n * 32)]) hn0 hlen
    rw [he]
    exact ⟨1, pos, tl, by simp⟩

/-- A layout that `detect` goes on with has the table offset 0x17 when it is a Vector
layout. -/
theorem detect_vector_offset (env : Env) (opts : Options) (data : List Byte) (lay : Layout)
    (hdet : (detect env opts (opened data)).layout = some lay) (hv : lay.isVEC = true) :
    lay.offset = 0x17 := by
  obtain ⟨hlen, devs, hd, _⟩ := detect_ok env opts data lay hdet
  rw [opened, detect_eq env opts data [] hlen] at hd
  rcases Bool.eq_false_or_eq_true (memcmpEq (List.take 26 data) magicStr2 23) with h3 | h3
  · have htail := vector_tail data ((memcmp_magicStr2 data).mp h3)
    have hlk2 : ∀ k : KNOWN_FILES,
        lookupKnown ((data.take 26).drop 0x14) knownFiles = some k → k.offset = 0x17 := by
      intro k hk
      refine lookupKnown_vector _ ?_ k hk
      rw [drop_take26 data 20 3 (by omega)]; exact htail
    rcases Bool.eq_false_or_eq_true (memcmpEq (List.take 26 data) magicStr 5) with h1 | h1 <;>
    rcases Bool.eq_false_or_eq_true
      (memcmpEq (List.drop 15 (List.take 26 data)) subKindMarker 3) with h2 | h2 <;>
    rcases h4 : lookupKnown (List.drop 20 (List.take 26 data)) knownFiles with _ | k <;>
    simp [h1, h2, h3, h4] at hd <;>
    obtain ⟨hd, _⟩ := hd <;>
    subst hd <;>
    first
      | rfl
      | exact hlk2 k h4
      | exact Bool.noConfusion hv
  · rcases Bool.eq_false_or_eq_true (memcmpEq (List.take 26 data) magicStr 5) with h1 | h1 <;>
    rcases Bool.eq_false_or_eq_true
      (memcmpEq (List.drop 15 (List.take 26 data)) subKindMarker 3) with h2 | h2 <;>
    rcases h4 : lookupKnown (List.drop 20 (List.take 26 data)) knownFiles with _ | k <;>
    simp [h1, h2, h3, h4] at hd <;>
    obtain ⟨hd, _⟩ := hd <;>
    subst hd <;>
    exact Bool.noConfusion hv

/-! ## The line with the decision on the names -/

/-- A line "Has names" in the log of a run is the one decision the file gives, and the
table was read in full. -/
theorem hasNames_mem_run (env : Env) (opts : Options) (data : List Byte) (lay : Layout)
    (hdet : (detect env opts (opened data)).layout = some lay) (b : Bool)
    (hb : Event.printf (.hasNames b) ∈ (runFile env opts data).log) :
    adjustedCount data lay ≠ 0 ∧ tableEnd lay (adjustedCount data lay) ≤ data.length ∧
      b = fileHasNames data lay := by
  obtain ⟨m, devs, pre, post, hlog, _, _, _, hdev, hpre, hpost, _, _⟩ :=
    runFile_spec env opts data lay hdet
  rw [hlog] at hb
  rcases List.mem_append.mp hb with h | h
  · rcases List.mem_append.mp h with h | h
    · have := hdev _ h
      rw [hasNames_not_detectEvent] at this
      exact absurd this (by decide)
    · have := hpre _ h
      rw [hasNames_not_preEvent] at this
      exact absurd this (by decide)
  · rcases hpost with h0 | ⟨tl, htl, htail, hn, ht⟩
    · rw [h0] at h; simp at h
    · rw [htl] at h
      rcases List.mem_cons.mp h with h | h
      · injection h with h
        injection h with h
        exact ⟨hn, ht, h⟩
      · have := htail _ h
        rw [hasNames_not_tailEvent] at this
        exact absurd this (by decide)

/-- When the count and the table can be read and allocated, the log has the line with the
decision the file gives. -/
theorem hasNames_printed (env : Env) (opts : Options) (data : List Byte) (lay : Layout)
    (hdet : (detect env opts (opened data)).layout = some lay)
    (hcount : lay.offset + 2 ≤ data.length) (hn : adjustedCount data lay ≠ 0)
    (hmem : ∀ l b, env.mallocOk l b = true)
    (htable : tableEnd lay (adjustedCount data lay) ≤ data.length) :
    Event.printf (.hasNames (fileHasNames data lay)) ∈ (runFile env opts data).log := by
  obtain ⟨m, devs, pre, post, hlog, _, _, _, _, _, hpost, hne, _⟩ :=
    runFile_spec env opts data lay hdet
  have hp := hne hcount hn hmem htable
  rcases hpost with h0 | ⟨tl, htl, _⟩
  · exact absurd h0 hp
  · rw [hlog, htl]
    simp

/-- On a file that begins with `sampleStdHeader`, `detect` goes on with the Standard
variant, the offset and the extension of the options. -/
theorem detect_sampleStdHeader (env : Env) (opts : Options) (data : List Byte)
    (hlen : 26 ≤ data.length) (htake : data.take 26 = sampleStdHeader) :
    (detect env opts (opened data)).layout = some ⟨false, opts.offset, opts.outExt⟩ := by
  have h1 : memcmpEq (List.take 26 data) magicStr 5 = true := by rw [htake]; decide
  have h2 : memcmpEq (List.drop 15 (List.take 26 data)) subKindMarker 3 = true := by
    rw [htake]; decide
  have h4 : lookupKnown (List.drop 20 (List.take 26 data)) knownFiles = none := by
    rw [htake]; decide
  rw [opened, detect_eq env opts data [] hlen]
  rcases Bool.eq_false_or_eq_true opts.offsetFound with h5 | h5 <;>
  simp [h1, h2, h4, h5, Res.layout]

theorem endTable_file (mid : List Byte) (hmid : mid.length = 2 ^ 31 - 37) :
    (sampleStdHeader ++ mid ++ sampleEndTable).length = 2 ^ 31 - 1 ∧
    (sampleStdHeader ++ mid ++ sampleEndTable).take 26 = sampleStdHeader ∧
    (sampleStdHeader ++ mid ++ sampleEndTable).drop (2 ^ 31 - 11) = sampleEndTable := by
  have hh : sampleStdHeader.length = 26 := rfl
  have ht : sampleEndTable.length = 10 := rfl
  refine ⟨?_, ?_, ?_⟩
  · rw [List.length_append, List.length_append, hh, ht, hmid]; norm_num
  · rw [List.append_assoc]
    exact List.take_left' hh
  · exact List.drop_left' (by rw [List.length_append, hh, hmid]; norm_num)

theorem toInt32_gap (off0 p n : Nat) (hoff : off0 < 2 ^ 32) (hp : p ≤ 2 ^ 31)
    (h : namesDecision off0 p n = true) (hn : n ≠ 0) : p + 32 * (n - 1) ≤ off0 := by
  simp only [namesDecision, toInt32, decide_eq_true_eq] at h
  omega

/-- The run with `-offset 7FFFFFF5` on any file of `2^31 - 1` bytes that begins with
`sampleStdHeader` and ends with `sampleEndTable`. -/
theorem endTable_run (env : Env) (hmem : ∀ l b, env.mallocOk l b = true) (data : List Byte)
    (hlen : data.length = 2 ^ 31 - 1) (htake : data.take 26 = sampleStdHeader)
    (hdrop : data.drop (2 ^ 31 - 11) = sampleEndTable) :
    (detect env sampleHugeOpts (opened data)).layout =
      some ⟨false, 2 ^ 31 - 11, cstr ".bin"⟩ ∧
    adjustedCount data ⟨false, 2 ^ 31 - 11, cstr ".bin"⟩ = 2 ∧
    be32At data (2 ^ 31 - 11 + 2) = 0 ∧
    Event.printf (.hasNames true) ∈ (runFile env sampleHugeOpts data).log := by
  have hdet : (detect env sampleHugeOpts (opened data)).layout =
      some ⟨false, 2 ^ 31 - 11, cstr ".bin"⟩ :=
    detect_sampleStdHeader env sampleHugeOpts data (by rw [hlen]; norm_num) htake
  have hcnt : adjustedCount data ⟨false, 2 ^ 31 - 11, cstr ".bin"⟩ = 2 := by
    simp only [adjustedCount, be16At, hdrop]
    decide
  have hoff : be32At data (2 ^ 31 - 11 + 2) = 0 := by
    have : data.drop (2 ^ 31 - 11 + 2) = sampleEndTable.drop 2 := by
      rw [← hdrop, List.drop_drop]
    simp only [be32At, this]
    decide
  have hpad : padded ⟨false, 2 ^ 31 - 11, cstr ".bin"⟩
      (tableEnd ⟨false, 2 ^ 31 - 11, cstr ".bin"⟩ 2) = 2 ^ 31 + 1 := by
    simp [padded, tableEnd, entryWidth]
  have hfile : fileHasNames data ⟨false, 2 ^ 31 - 11, cstr ".bin"⟩ = true := by
    simp only [fileHasNames, hcnt, hpad, tableOffsets_getD data _ 2 0 (by omega)]
    simp only [Nat.mul_zero, Nat.add_zero, hoff]
    simp only [namesDecision, toInt32, decide_eq_true_eq]
    norm_num
  have hrep := hasNames_printed env sampleHugeOpts data
    ⟨false, 2 ^ 31 - 11, cstr ".bin"⟩ hdet (by rw [hlen]; norm_num)
    (by rw [hcnt]; decide) hmem
    (by rw [hcnt, hlen]; simp [tableEnd, entryWidth])
  rw [hfile] at hrep
  exact ⟨hdet, hcnt, hoff, hrep⟩

/-! ## The output files of a run -/

theorem opens_append (a b : List Event) : opens (a ++ b) = opens a ++ opens b := by
  induction a with
  | nil => rfl
  | cons e a ih => cases e <;> simp [opens, ih]

theorem listed_eq_nil_of_silent (evs : List Event) (h : ∀ e ∈ evs, silent e = true) :
    listed evs = [] := by
  apply listed_eq_nil_of_not_block
  intro e he
  have h1 := h e he
  cases e with
  | printf m => cases m <;> first | rfl | exact Bool.noConfusion h1
  | _ => rfl

theorem opens_eq_nil_of_silent (evs : List Event) (h : ∀ e ∈ evs, silent e = true) :
    opens evs = [] := by
  induction evs with
  | nil => rfl
  | cons e evs ih =>
    have h1 := h e (List.mem_cons_self _ _)
    have h2 := ih (fun x hx => h x (List.mem_cons_of_mem _ hx))
    cases e <;> first | exact h2 | exact Bool.noConfusion h1

theorem written_eq_nil_of_silent (name : CStr) (evs : List Event)
    (h : ∀ e ∈ evs, silent e = true) : written name evs = [] := by
  induction evs with
  | nil => rfl
  | cons e evs ih =>
    have h1 := h e (List.mem_cons_self _ _)
    have h2 := ih (fun x hx => h x (List.mem_cons_of_mem _ hx))
    cases e <;> first | exact h2 | exact Bool.noConfusion h1

theorem silent_of_detectEvent (e : Event) (h : detectEvent e = true) : silent e = true := by
  cases e with
  | printf m => cases m <;> first | rfl | exact Bool.noConfusion h
  | _ => first | rfl | exact Bool.noConfusion h

theorem silent_of_preEvent (e : Event) (h : preEvent e = true) : silent e = true := by
  cases e with
  | printf m => cases m <;> first | rfl | exact Bool.noConfusion h
  | _ => first | rfl | exact Bool.noConfusion h

theorem silent_of_namesEvent (e : Event) (h : namesEvent e = true) : silent e = true := by
  cases e with
  | printf m => cases m <;> first | rfl | exact Bool.noConfusion h
  | _ => first | rfl | exact Bool.noConfusion h

theorem silent_append {a b : List Event} (ha : ∀ e ∈ a, silent e = true)
    (hb : ∀ e ∈ b, silent e = true) : ∀ e ∈ a ++ b, silent e = true := by
  intro e he
  rcases List.mem_append.mp he with h | h
  · exact ha e h
  · exact hb e h

theorem copyBlocks_trace (env : Env) (filename : CStr) (data : List Byte) :
    ∀ (fuel bytesLeft p : Nat) (log : List Event),
      ∃ (r pos : Nat) (evs : List Event),
        copyBlocks env filename fuel bytesLeft ⟨⟨data, p⟩, log⟩ =
          .ok r ⟨⟨data, pos⟩, log ++ evs⟩ ∧
        opens evs = [] ∧
        (r = 0 → evs = copyEvents filename data fuel p bytesLeft) := by
  intro fuel
  induction fuel with
  | zero => intro b p log; exact ⟨0, p, [], by simp [copyBlocks], rfl, fun _ => rfl⟩
  | succ fuel ih =>
    intro b p log
    unfold copyBlocks copyEvents
    by_cases hb : b > 0
    · simp only [hb, if_true, bind_apply]
      generalize (if b < BLOCKSIZE then b else BLOCKSIZE) = c
      by_cases hr : p + c ≤ data.length
      · rw [fread_ok _ _ (by simpa using hr)]
        simp only [fwrite_apply]
        rcases Bool.eq_false_or_eq_true (env.fwriteOk (log ++ [.fread p c]) filename
          (List.take c (List.drop p data))) with hw | hw
        · obtain ⟨r, pos, evs, he, ho, h0⟩ := ih (b - c) (p + c)
            (log ++ [.fread p c] ++ [.fwrite filename (List.take c (List.drop p data))])
          refine ⟨r, pos, .fread p c :: .fwrite filename (List.take c (List.drop p data)) ::
            evs, ?_, ?_, ?_⟩
          · simpa [hw] using he
          · simpa [opens] using ho
          · intro hr0
            rw [h0 hr0]
        · refine ⟨1, p + c, [.fread p c,
            .fwrite filename (List.take c (List.drop p data)), .printf .dumpWriteFailed],
            ?_, rfl, fun h => by omega⟩
          simp [hw]
      · rw [fread_short _ _ (by simpa using hr)]
        refine ⟨1, max p data.length, [.fread p c, .printf .dumpReadFailed], ?_, rfl,
          fun h => by omega⟩
        simp
    · exact ⟨0, p, [], by simp [hb], rfl, fun _ => by simp [hb]⟩

theorem dumpResource_trace (env : Env) (offset byteCount : Nat) (filename : CStr)
    (data : List Byte) (p : Nat) (log : List Event) :
    ∃ (r pos : Nat) (evs : List Event),
      dumpResource env offset byteCount filename ⟨⟨data, p⟩, log⟩ =
        .ok r ⟨⟨data, pos⟩, log ++ evs⟩ ∧
      opens evs = [filename] ∧ listed evs = [] ∧
      (r = 0 → pos = p ∧ evs = dumpEvents filename data p offset byteCount) := by
  obtain ⟨r0, pos0, evs0, he0, hev0, _⟩ :=
    dumpResource_spec env offset byteCount filename data p log
  have hl0 : listed evs0 = [] :=
    listed_eq_nil_of_loopEvent evs0 (fun e he => loopEvent_of_dumpEvent e (hev0 e he))
  have key : ∃ (r pos : Nat) (evs : List Event),
      dumpResource env offset byteCount filename ⟨⟨data, p⟩, log⟩ =
        .ok r ⟨⟨data, pos⟩, log ++ evs⟩ ∧
      opens evs = [filename] ∧
      (r = 0 → pos = p ∧ evs = dumpEvents filename data p offset byteCount) := by
    unfold dumpResource
    simp only [bind_apply, fopenWrite_apply]
    rcases Bool.eq_false_or_eq_true (env.fopenWriteOk log filename) with ho | ho
    · obtain ⟨r, pos, evs, he, hop, h0⟩ := copyBlocks_trace env filename data byteCount
        byteCount offset (log ++ [.fopenWrite filename, .fseek offset])
      have hn : (log ++ [Event.fopenWrite filename] ++ [Event.fseek offset]) =
          log ++ [.fopenWrite filename, .fseek offset] := by simp
      by_cases hr : r = 0
      · subst hr
        refine ⟨0, p, .fopenWrite filename :: .fseek offset ::
          (evs ++ [.fclose filename, .fseek p]), ?_, ?_, fun _ => ⟨rfl, ?_⟩⟩
        · simp only [ho, Bool.not_true, Bool.false_eq_true, if_false, bind_apply, ftell_apply,
            fseek_apply, hn, he]
          simp
        · simp [opens, opens_append, hop]
        · rw [h0 rfl]; rfl
      · refine ⟨1, pos, .fopenWrite filename :: .fseek offset :: evs, ?_, ?_,
          fun h => by omega⟩
        · simp only [ho, Bool.not_true, Bool.false_eq_true, if_false, bind_apply, ftell_apply,
            fseek_apply, hn, he]
          simp [hr]
        · simp [opens, hop]
    · refine ⟨1, p, [.fopenWrite filename, .printf (.dumpOpenFailed filename)], ?_, rfl,
        fun h => by omega⟩
      simp [ho]
  obtain ⟨r, pos, evs, he, hop, h0⟩ := key
  have hsame := he0.symm.trans he
  injection hsame with _ hw
  injection hw with _ hlog
  have hevs := List.append_cancel_left hlog
  exact ⟨r, pos, evs, he, hop, by rw [← hevs]; exact hl0, h0⟩

theorem listLoop_trace (env : Env) (opts : Options) (lay : Layout) (hasNames : Bool)
    (offsets sizes : List Nat) (names : List (List Byte)) (data : List Byte) :
    ∀ (k i p : Nat) (log : List Event),
      ∃ (pos : Nat) (evs : List Event),
        opens evs = (if opts.dump then
          (listed evs).map (fun e => outName opts lay hasNames names e.1) else []) ∧
        ((listLoop env opts lay hasNames offsets sizes names k i ⟨⟨data, p⟩, log⟩ =
            .ok () ⟨⟨data, p⟩, log ++ evs⟩ ∧
          evs = ((List.range' i k).map (fun j => listEvents opts lay hasNames names data p
            (entryOf lay.isVEC hasNames offsets sizes names j))).flatten) ∨
         listLoop env opts lay hasNames offsets sizes names k i ⟨⟨data, p⟩, log⟩ =
            .exit 1 ⟨⟨data, pos⟩, log ++ evs⟩) := by
  intro k
  induction k with
  | zero =>
    intro i p log
    exact ⟨p, [], by simp [opens, listed], Or.inl ⟨by simp [listLoop], by simp⟩⟩
  | succ k ih =>
    intro i p log
    unfold listLoop
    simp only [bind_apply, printf_apply]
    have hfn : (if (!opts.usenames || !hasNames) = true then
        opts.outPrefix ++ fmt05u i ++ lay.outExt
        else opts.outPrefix ++ nameStr names i) = outName opts lay hasNames names i := rfl
    have hblk : Event.printf (.block i (offsets.getD i 0)
        (if lay.isVEC = true then sizes.getD i 0
          else (offsets.getD (i + 1) 0 + 2 ^ 32 - offsets.getD i 0) % 2 ^ 32)
        (if hasNames = true then nameStr names i else [])) =
        .printf (.block (entryOf lay.isVEC hasNames offsets sizes names i).1
          (entryOf lay.isVEC hasNames offsets sizes names i).2.1
          (entryOf lay.isVEC hasNames offsets sizes names i).2.2.1
          (entryOf lay.isVEC hasNames offsets sizes names i).2.2.2) := rfl
    have hsz : (if lay.isVEC = true then sizes.getD i 0
          else (offsets.getD (i + 1) 0 + 2 ^ 32 - offsets.getD i 0) % 2 ^ 32) =
        (entryOf lay.isVEC hasNames offsets sizes names i).2.2.1 := rfl
    have hoff : offsets.getD i 0 = (entryOf lay.isVEC hasNames offsets sizes names i).2.1 := rfl
    have hidx : (entryOf lay.isVEC hasNames offsets sizes names i).1 = i := rfl
    simp only [hfn, hblk]
    generalize hE : entryOf lay.isVEC hasNames offsets sizes names i = E at hsz hoff hidx ⊢
    have hlb : ∀ rest : List Event,
        listed (Event.printf (.block E.1 E.2.1 E.2.2.1 E.2.2.2) :: rest) = E :: listed rest :=
      fun rest => rfl
    rcases Bool.eq_false_or_eq_true opts.dump with hd | hd
    · -- dumping
      simp only [hd, if_true, bind_apply]
      rw [hsz, hoff]
      obtain ⟨r, pos, devs, hde, hop, hdl, h0⟩ := dumpResource_trace env E.2.1 E.2.2.1
        (outName opts lay hasNames names i) data p
        (log ++ [.printf (.block E.1 E.2.1 E.2.2.1 E.2.2.2)])
      rw [hde]
      by_cases hr : r = 0
      · subst hr
        obtain ⟨hp, hdevs⟩ := h0 rfl
        subst hp
        obtain ⟨pos2, evs, hop2, hres⟩ := ih (i + 1) pos
          (log ++ [.printf (.block E.1 E.2.1 E.2.2.1 E.2.2.2)] ++ devs ++
            [.printf (.dumpedTo (outName opts lay hasNames names i))] ++ [.printf .newline])
        refine ⟨pos2, .printf (.block E.1 E.2.1 E.2.2.1 E.2.2.2) :: (devs ++
            [.printf (.dumpedTo (outName opts lay hasNames names i)), .printf .newline] ++ evs),
          ?_, ?_⟩
        · rw [hlb, listed_append, listed_append, hdl]
          simp only [hd, if_true] at hop2 ⊢
          simp [opens, opens_append, hop, hop2, listed, hidx]
        · rcases hres with ⟨h1, h2⟩ | h1
          · left
            refine ⟨?_, ?_⟩
            · simp only [bne_self_eq_false, Bool.false_eq_true, if_false, pure_apply,
                bind_apply, printf_apply]
              simpa using h1
            · rw [List.range'_succ, List.map_cons, List.flatten_cons, ← h2, hE]
              simp only [listEvents, hd, if_true, hidx, hdevs]
              simp
          · right
            simp only [bne_self_eq_false, Bool.false_eq_true, if_false, pure_apply, bind_apply,
              printf_apply]
            simpa using h1
      · refine ⟨pos, .printf (.block E.1 E.2.1 E.2.2.1 E.2.2.2) :: (devs ++
            [.printf .dumpResourceFailed]), ?_, Or.inr ?_⟩
        · rw [hlb, listed_append, hdl]
          simp [opens, opens_append, hop, listed, hidx, hd]
        · simp [hr]
    · -- listing only
      simp only [hd, Bool.false_eq_true, if_false, pure_apply, bind_apply, printf_apply]
      obtain ⟨pos2, evs, hop2, hres⟩ := ih (i + 1) p
        (log ++ [.printf (.block E.1 E.2.1 E.2.2.1 E.2.2.2)] ++ [.printf .newline])
      refine ⟨pos2, .printf (.block E.1 E.2.1 E.2.2.1 E.2.2.2) :: .printf .newline :: evs,
        ?_, ?_⟩
      · simp only [hd, Bool.false_eq_true, if_false] at hop2 ⊢
        simp [opens, hop2]
      · rcases hres with ⟨h1, h2⟩ | h1
        · left
          refine ⟨by simpa using h1, ?_⟩
          rw [List.range'_succ, List.map_cons, List.flatten_cons, ← h2, hE]
          simp [listEvents, hd]
        · right
          simpa using h1

theorem outName_noNames (opts : Options) (lay : Layout) (a b : List (List Byte)) (i : Nat) :
    outName opts lay false a i = outName opts lay false b i := by
  simp [outName]

theorem listEvents_noNames (opts : Options) (lay : Layout) (a b : List (List Byte))
    (data : List Byte) (pos : Nat) (e : Nat × Nat × Nat × CStr) :
    listEvents opts lay false a data pos e = listEvents opts lay false b data pos e := by
  simp only [listEvents, outName_noNames opts lay a b]

/-- What the part of `main` after the table does with the output files: before the listing
loop nothing is listed, opened or written; the files the loop opens are, in order, those of
the `block` lines; and when `main` returns 0 the events of the loop are those of
`listEvents` for the indices `0 .. n-2`, followed by the closing of the input. -/
theorem listAll_trace (env : Env) (opts : Options) (lay : Layout) (n : Nat)
    (offsets sizes : List Nat) (data : List Byte) (p : Nat) (log : List Event) (hn0 : 0 < n) :
    ∃ (s pos : Nat) (hevs levs : List Event),
      listAll env opts lay n offsets sizes ⟨⟨data, p⟩, log⟩ =
        .exit s ⟨⟨data, pos⟩, log ++ hevs ++ levs⟩ ∧
      (∀ e ∈ hevs, silent e = true) ∧
      opens levs = (if opts.dump then
        (listed levs).map (fun e => outName opts lay
          (namesDecision (offsets.getD 0 0) (padded lay p) n)
          (nameRecords data (padded lay p) n) e.1) else []) ∧
      (s = 0 → ∃ q, levs = ((List.range' 0 (n - 1)).map (fun j => listEvents opts lay
          (namesDecision (offsets.getD 0 0) (padded lay p) n)
          (nameRecords data (padded lay p) n) data q
          (entryOf lay.isVEC (namesDecision (offsets.getD 0 0) (padded lay p) n) offsets sizes
            (nameRecords data (padded lay p) n) j))).flatten ++ [.fcloseInput]) := by
  have hpad : ∀ e ∈ padEvents lay p, silent e = true := by
    intro e he
    by_cases h : lay.offset = 0x1A <;> simp [padEvents, h] at he
    subst he; rfl
  unfold listAll
  simp only [bind_apply]
  rw [findNames_eq]
  rcases Bool.eq_false_or_eq_true (namesDecision (offsets.getD 0 0) (padded lay p) n)
    with hn | hn
  · -- names
    simp only [hn, if_true]
    rcases Bool.eq_false_or_eq_true (env.mallocOk (log ++ padEvents lay p ++
      [.printf (.hasNames true)]) (n * 32)) with hm | hm
    · simp only [hm, if_true]
      by_cases hlen : padded lay p + 32 * n ≤ data.length
      · rw [readNames_ok data n _ _ _ hlen]
        simp only [List.nil_append]
        obtain ⟨pos, evs, hop, hres⟩ := listLoop_trace env opts lay true offsets sizes
          ((List.range n).map (fun j => (data.drop (padded lay p + 32 * j)).take 32)) data
          (n - 1) 0 (padded lay p + 32 * n)
          (log ++ padEvents lay p ++ [.printf (.hasNames true), .malloc (n * 32)] ++
            (List.range n).map (fun j => Event.fread (padded lay p + 32 * j) 32))
        have hsil : ∀ e ∈ padEvents lay p ++ [.printf (.hasNames true), .malloc (n * 32)] ++
            (List.range n).map (fun j => Event.fread (padded lay p + 32 * j) 32),
            silent e = true := by
          refine silent_append (silent_append hpad ?_) ?_
          · intro e he
            simp at he
            rcases he with rfl | rfl <;> rfl
          · intro e he
            obtain ⟨j, _, rfl⟩ := List.mem_map.mp he
            rfl
        rcases hres with ⟨h1, h2⟩ | h1
        · rw [h1]
          refine ⟨0, padded lay p + 32 * n, _, evs ++ [.fcloseInput], ?_, hsil, ?_,
            fun _ => ⟨padded lay p + 32 * n, ?_⟩⟩
          · simp
          · rw [opens_append, listed_append, hop]
            simp [opens, listed, nameRecords]
          · rw [h2]; rfl
        · rw [h1]
          refine ⟨1, pos, _, evs, ?_, hsil, ?_, fun h => by omega⟩
          · simp
          · rw [hop]; rfl
      · obtain ⟨pos, evs, he, hev⟩ := readNames_short data n (padded lay p) []
          (log ++ padEvents lay p ++ [.printf (.hasNames true), .malloc (n * 32)]) hn0 hlen
        rw [he]
        refine ⟨1, pos, padEvents lay p ++ [.printf (.hasNames true), .malloc (n * 32)] ++ evs,
          [], by simp, ?_, by simp [opens, listed], fun h => by omega⟩
        refine silent_append (silent_append hpad ?_) (fun e h => silent_of_namesEvent e (hev e h))
        intro e he
        simp at he
        rcases he with rfl | rfl <;> rfl
    · simp only [hm, Bool.false_eq_true, if_false]
      refine ⟨1, padded lay p, padEvents lay p ++
        [.printf (.hasNames true), .malloc (n * 32), .printf .memNames], [], by simp, ?_,
        by simp [opens, listed], fun h => by omega⟩
      refine silent_append hpad ?_
      intro e he
      simp at he
      rcases he with rfl | rfl | rfl <;> rfl
  · -- no names
    simp only [hn, Bool.false_eq_true, if_false]
    obtain ⟨pos, evs, hop, hres⟩ := listLoop_trace env opts lay false offsets sizes
      [] data (n - 1) 0 (padded lay p) (log ++ padEvents lay p ++ [.printf (.hasNames false)])
    have hsil : ∀ e ∈ padEvents lay p ++ [.printf (.hasNames false)], silent e = true := by
      refine silent_append hpad ?_
      intro e he
      simp at he
      subst he; rfl
    have hnm : (fun e : Nat × Nat × Nat × CStr => outName opts lay false [] e.1) =
        (fun e => outName opts lay false (nameRecords data (padded lay p) n) e.1) := by
      funext e; exact outName_noNames _ _ _ _ _
    have hle : (fun j => listEvents opts lay false [] data (padded lay p)
          (entryOf lay.isVEC false offsets sizes [] j)) =
        (fun j => listEvents opts lay false (nameRecords data (padded lay p) n) data
          (padded lay p)
          (entryOf lay.isVEC false offsets sizes (nameRecords data (padded lay p) n) j)) := by
      funext j
      rw [listEvents_noNames opts lay [] (nameRecords data (padded lay p) n)]
      rfl
    rw [hnm] at hop
    rw [hle] at hres
    rcases hres with ⟨h1, h2⟩ | h1
    · rw [h1]
      refine ⟨0, padded lay p, _, evs ++ [.fcloseInput], ?_, hsil, ?_,
        fun _ => ⟨padded lay p, ?_⟩⟩
      · simp
      · rw [opens_append, listed_append, hop]
        simp [opens, listed]
      · rw [h2]
    · rw [h1]
      refine ⟨1, pos, _, evs, ?_, hsil, ?_, fun h => by omega⟩
      · simp
      · rw [hop]

/-- What a run does with the output files once `detect` has gone on with the layout `lay`:
the log is a silent part, in which nothing is listed, opened or written, followed by the
events of the listing loop; the files opened are, in order, those of the `block` lines; and
when the run returns 0 the events of the loop are those of `listEvents` for the indices
`0 .. n-2` of the table the file gives, followed by the closing of the input. -/
theorem runFile_outputs (env : Env) (opts : Options) (data : List Byte) (lay : Layout)
    (hdet : (detect env opts (opened data)).layout = some lay) :
    ∃ (hd levs : List Event),
      (runFile env opts data).log = hd ++ levs ∧
      (∀ e ∈ hd, silent e = true) ∧
      opens levs = (if opts.dump then
        (listed levs).map (fun e => outName opts lay (fileHasNames data lay)
          (nameRecords data (padded lay (tableEnd lay (adjustedCount data lay)))
            (adjustedCount data lay)) e.1) else []) ∧
      ((runFile env opts data).status = 0 →
        ∃ q, levs = ((List.range' 0 (adjustedCount data lay - 1)).map
          (fun j => listEvents opts lay (fileHasNames data lay)
            (nameRecords data (padded lay (tableEnd lay (adjustedCount data lay)))
              (adjustedCount data lay)) data q (fileEntry data lay j))).flatten ++
          [.fcloseInput]) := by
  obtain ⟨_, devs, hd, hdev⟩ := detect_ok env opts data lay hdet
  rw [opened] at hd
  have hsd : ∀ e ∈ devs, silent e = true := fun e h => silent_of_detectEvent e (hdev e h)
  have hcnt : ∀ e ∈ countEvents lay (adjustedCount data lay), silent e = true :=
    fun e h => silent_of_preEvent e (preEvent_countEvents _ _ e h)
  by_cases hcount : lay.offset + 2 ≤ data.length
  swap
  · have hp : parse env opts lay ⟨⟨data, 26⟩, devs⟩ = .exit 1 ⟨⟨data, max lay.offset data.length⟩,
        devs ++ [.fseek lay.offset, .fread lay.offset 2, .printf .readFailedCount]⟩ := by
      unfold parse
      simp only [bind_apply]
      rw [readCount_eq]
      simp only [hcount, if_false]
    have hrun : runFile env opts data =
        ⟨1, devs ++ [.fseek lay.offset, .fread lay.offset 2, .printf .readFailedCount]⟩ := by
      simp only [runFile, run_eq_of_detect hd, hp, Res.outcome]
    refine ⟨devs ++ [.fseek lay.offset, .fread lay.offset 2, .printf .readFailedCount], [],
      by rw [hrun]; simp, ?_, by simp [opens, listed],
      fun h => by rw [hrun] at h; simp at h⟩
    refine silent_append hsd ?_
    intro e he
    simp at he
    rcases he with rfl | rfl | rfl <;> rfl
  by_cases hn : adjustedCount data lay = 0
  · have hp : parse env opts lay ⟨⟨data, 26⟩, devs⟩ = .exit 1 ⟨⟨data, lay.offset + 2⟩,
        devs ++ [.fseek lay.offset, .fread lay.offset 2, .printf (.resourceCount (-1)),
          .printf .noResources]⟩ := by
      unfold parse
      simp only [bind_apply]
      rw [readCount_eq]
      simp only [hcount, hn, if_true]
    have hrun : runFile env opts data = ⟨1, devs ++ [.fseek lay.offset, .fread lay.offset 2,
        .printf (.resourceCount (-1)), .printf .noResources]⟩ := by
      simp only [runFile, run_eq_of_detect hd, hp, Res.outcome]
    refine ⟨devs ++ [.fseek lay.offset, .fread lay.offset 2, .printf (.resourceCount (-1)),
        .printf .noResources], [],
      by rw [hrun]; simp, ?_, by simp [opens, listed],
      fun h => by rw [hrun] at h; simp at h⟩
    refine silent_append hsd ?_
    intro e he
    simp at he
    rcases he with rfl | rfl | rfl | rfl <;> rfl
  rcases Bool.eq_false_or_eq_true (allocOk env lay (adjustedCount data lay)
      (devs ++ countEvents lay (adjustedCount data lay))) with halloc | halloc
  swap
  · obtain ⟨aevs, hae, hal⟩ := allocTable_fail env lay (adjustedCount data lay)
      ⟨⟨data, lay.offset + 2⟩, devs ++ countEvents lay (adjustedCount data lay)⟩ halloc
    have hp : parse env opts lay ⟨⟨data, 26⟩, devs⟩ = .exit 1 ⟨⟨data, lay.offset + 2⟩,
        devs ++ countEvents lay (adjustedCount data lay) ++ aevs⟩ := by
      unfold parse
      simp only [bind_apply]
      rw [readCount_eq]
      simp only [hcount, hn, if_true, if_false]
      rw [hae]
    have hrun : runFile env opts data =
        ⟨1, devs ++ countEvents lay (adjustedCount data lay) ++ aevs⟩ := by
      simp only [runFile, run_eq_of_detect hd, hp, Res.outcome]
    exact ⟨devs ++ countEvents lay (adjustedCount data lay) ++ aevs, [],
      by rw [hrun]; simp,
      silent_append (silent_append hsd hcnt) (fun e h => silent_of_preEvent e (hal e h)),
      by simp [opens, listed], fun h => by rw [hrun] at h; simp at h⟩
  have hsa : ∀ e ∈ allocEvents lay (adjustedCount data lay), silent e = true :=
    fun e h => silent_of_preEvent e (preEvent_allocEvents _ _ e h)
  by_cases htable : tableEnd lay (adjustedCount data lay) ≤ data.length
  · have hp := parse_table_ok env opts lay data 26 devs hcount hn halloc htable
    obtain ⟨s, pos, hevs, levs, he, hsil, hop, h0⟩ := listAll_trace env opts lay
      (adjustedCount data lay) (tableOffsets data lay (adjustedCount data lay))
      (tableSizes data lay (adjustedCount data lay)) data
      (tableEnd lay (adjustedCount data lay))
      (devs ++ countEvents lay (adjustedCount data lay) ++
        allocEvents lay (adjustedCount data lay) ++
        tableReads lay.isVEC (lay.offset + 2) (adjustedCount data lay))
      (Nat.pos_of_ne_zero hn)
    have hrun : runFile env opts data = ⟨s, devs ++ countEvents lay (adjustedCount data lay) ++
        allocEvents lay (adjustedCount data lay) ++
        tableReads lay.isVEC (lay.offset + 2) (adjustedCount data lay) ++ hevs ++ levs⟩ := by
      simp only [runFile, run_eq_of_detect hd, hp, he, Res.outcome]
    refine ⟨devs ++ countEvents lay (adjustedCount data lay) ++
        allocEvents lay (adjustedCount data lay) ++
        tableReads lay.isVEC (lay.offset + 2) (adjustedCount data lay) ++ hevs, levs,
      by rw [hrun], ?_, hop, fun h => by rw [hrun] at h; exact h0 h⟩
    exact silent_append (silent_append (silent_append (silent_append hsd hcnt) hsa)
      (fun e h => silent_of_preEvent e
        (preEvent_of_tableEvent e (tableEvent_tableReads _ _ _ e h)))) hsil
  · obtain ⟨pos, tevs, hte, htev⟩ := readTable_short env lay.isVEC data
      (adjustedCount data lay) (lay.offset + 2) [] []
      (devs ++ countEvents lay (adjustedCount data lay) ++
        allocEvents lay (adjustedCount data lay))
      (Nat.pos_of_ne_zero hn) htable
    have hp : parse env opts lay ⟨⟨data, 26⟩, devs⟩ = .exit 1 ⟨⟨data, pos⟩,
        devs ++ countEvents lay (adjustedCount data lay) ++
          allocEvents lay (adjustedCount data lay) ++ tevs⟩ := by
      unfold parse
      simp only [bind_apply]
      rw [readCount_eq]
      simp only [hcount, hn, if_true, if_false]
      rw [allocTable_ok env lay _ _ halloc]
      simp only []
      rw [hte]
    have hrun : runFile env opts data = ⟨1, devs ++ countEvents lay (adjustedCount data lay) ++
        allocEvents lay (adjustedCount data lay) ++ tevs⟩ := by
      simp only [runFile, run_eq_of_detect hd, hp, Res.outcome]
    exact ⟨devs ++ countEvents lay (adjustedCount data lay) ++
        allocEvents lay (adjustedCount data lay) ++ tevs, [],
      by rw [hrun]; simp,
      silent_append (silent_append (silent_append hsd hcnt) hsa)
        (fun e h => silent_of_preEvent e (preEvent_of_tableEvent e (htev e h))),
      by simp [opens, listed], fun h => by rw [hrun] at h; simp at h⟩

theorem written_copyEvents (filename : CStr) (data : List Byte) :
    ∀ (fuel p bytesLeft : Nat), bytesLeft ≤ fuel →
      written filename (copyEvents filename data fuel p bytesLeft) =
        (data.drop p).take bytesLeft := by
  intro fuel
  induction fuel with
  | zero =>
    intro p b hb
    have hb0 : b = 0 := by omega
    subst hb0
    simp [copyEvents, written]
  | succ fuel ih =>
    intro p b hb
    unfold copyEvents
    by_cases hb0 : b > 0
    · simp only [hb0, if_true]
      have hcb : (if b < BLOCKSIZE then b else BLOCKSIZE) ≤ b := by
        split <;> simp only [BLOCKSIZE] at * <;> omega
      have hc0 : 0 < (if b < BLOCKSIZE then b else BLOCKSIZE) := by
        split <;> simp only [BLOCKSIZE] at * <;> omega
      generalize (if b < BLOCKSIZE then b else BLOCKSIZE) = c at hcb hc0 ⊢
      simp only [written, if_true, ih (p + c) (b - c) (by omega)]
      exact take_drop_split data p c b hcb
    · have hb1 : b = 0 := by omega
      subst hb1
      simp [written]

/-- The bytes of a call of `dumpResource` that returns 0 go to its file and are the slice
`data[offset .. offset + byteCount)`. -/
theorem written_dumpEvents (filename : CStr) (data : List Byte) (oldPos offset byteCount : Nat) :
    written filename (dumpEvents filename data oldPos offset byteCount) =
      (data.drop offset).take byteCount := by
  simp only [dumpEvents, written_append, written_copyEvents filename data byteCount offset
    byteCount (le_refl _)]
  simp [written]

/-- The first steps of `parse`: the seek to the table offset and the read of the count
there. -/
theorem parse_head (env : Env) (opts : Options) (lay : Layout) (data : List Byte)
    (p : Nat) (log : List Event) :
    ∃ (s pos : Nat) (tl : List Event),
      parse env opts lay ⟨⟨data, p⟩, log⟩ =
        .exit s ⟨⟨data, pos⟩, log ++ .fseek lay.offset :: .fread lay.offset 2 :: tl⟩ := by
  by_cases hcount : lay.offset + 2 ≤ data.length
  swap
  · refine ⟨1, max lay.offset data.length, [.printf .readFailedCount], ?_⟩
    unfold parse
    simp only [bind_apply]
    rw [readCount_eq]
    simp only [hcount, if_false]
  by_cases hn : adjustedCount data lay = 0
  · refine ⟨1, lay.offset + 2, [.printf (.resourceCount (-1)), .printf .noResources], ?_⟩
    unfold parse
    simp only [bind_apply]
    rw [readCount_eq]
    simp only [hcount, hn, if_true]
  · obtain ⟨s, pos, tl, hp, _, _⟩ := parse_trace env opts lay data p log hcount hn
    refine ⟨s, pos, .printf (.resourceCount ((adjustedCount data lay : Int) - 1)) ::
      .malloc (4 * adjustedCount data lay) :: tl, ?_⟩
    rw [hp]
    simp [countEvents]

theorem written_listEvents (opts : Options) (lay : Layout) (b : Bool)
    (names : List (List Byte)) (data : List Byte) (q : Nat) (e : Nat × Nat × Nat × CStr) :
    written (outName opts lay b names e.1) (listEvents opts lay b names data q e) =
      if opts.dump then (data.drop e.2.1).take e.2.2.1 else [] := by
  rcases Bool.eq_false_or_eq_true opts.dump with hdump | hdump
  · simp only [listEvents, hdump, if_true]
    have h : ∀ X : List Event,
        (Event.printf (.block e.1 e.2.1 e.2.2.1 e.2.2.2) ::
          (X ++ [Event.printf (.dumpedTo (outName opts lay b names e.1))]) ++
            [Event.printf .newline]) =
        [Event.printf (.block e.1 e.2.1 e.2.2.1 e.2.2.2)] ++ X ++
          [Event.printf (.dumpedTo (outName opts lay b names e.1))] ++
            [Event.printf .newline] := by
      intro X; simp
    rw [h, written_append, written_append, written_append, written_dumpEvents]
    simp [written]
  · simp only [listEvents, hdump, Bool.false_eq_true, if_false, List.nil_append]
    rfl

/-! # The claims -/

/-- C1. For a Standard-variant file whose table (count field `n`, so `n + 1` offsets) holds
the big-endian offsets `o`, non-decreasing, the run lists the resources `0 .. m-1` with
offset `o[i]` and size `o[i+1] - o[i]`, and `m = n` (all of them) when the run succeeds. -/
theorem C1_standard_sizes (env : Env) (opts : Options) (data : List Byte) (lay : Layout)
    (o : List Nat)
    (hdet : (detect env opts (opened data)).layout = some lay) (hstd : lay.isVEC = false)
    (hcount : be16At data lay.offset + 1 = o.length)
    (htab : ∀ j, j < o.length → be32At data (lay.offset + 2 + 4 * j) = o.getD j 0)
    (hmono : ∀ j, j + 1 < o.length → o.getD j 0 ≤ o.getD (j + 1) 0) :
    ∃ m, m ≤ o.length - 1 ∧ ((runFile env opts data).status = 0 → m = o.length - 1) ∧
      (listed (runFile env opts data).log).map (fun e => (e.1, e.2.1, e.2.2.1)) =
        (List.range m).map (fun i => (i, o.getD i 0, o.getD (i + 1) 0 - o.getD i 0)) := by
  obtain ⟨m, devs, pre, post, _, _, hm, hs0, _, _, _, _, hl⟩ :=
    runFile_spec env opts data lay hdet
  have hc := be16_lt (data.drop lay.offset)
  have hadj : adjustedCount data lay - 1 ≤ o.length - 1 ∧
      (adjustedCount data lay ≠ 0 → adjustedCount data lay = o.length) := by
    simp only [adjustedCount, be16At] at hcount ⊢
    omega
  refine ⟨m, by omega, ?_, ?_⟩
  · intro h
    obtain ⟨h1, h2, _⟩ := hs0 h
    rw [h1, hadj.2 h2]
  · rw [hl, range'_zero_eq_range, List.map_map]
    apply List.map_congr_left
    intro i hi
    have hi2 : i < m := List.mem_range.mp hi
    have hn0 : adjustedCount data lay ≠ 0 := by omega
    have hlen := hadj.2 hn0
    have h1 : i < adjustedCount data lay := by omega
    have h2 : i + 1 < adjustedCount data lay := by omega
    have e1 := htab i (by omega)
    have e2 := htab (i + 1) (by omega)
    have hle := hmono i (by omega)
    have hb := be32At_lt data (lay.offset + 2 + 4 * (i + 1))
    simp only [Function.comp, fileEntry, entryOf, hstd, Bool.false_eq_true, if_false,
      tableOffsets_getD data lay _ i h1, tableOffsets_getD data lay _ (i + 1) h2, entryWidth,
      e1, e2]
    rw [e2] at hb
    congr 2
    omega

set_option maxRecDepth 100000 in
theorem C1_standard_sizes_witness :
    (listed (runFile sampleEnv Options.init sampleStdFile).log).map
      (fun e => (e.1, e.2.1, e.2.2.1)) = [(0, 100, 50), (1, 150, 50), (2, 200, 50)] := by
  obtain ⟨m, _, hm, hl⟩ := C1_standard_sizes sampleEnv Options.init sampleStdFile
    ⟨false, 0x22, cstr ".bin"⟩ [100, 150, 200, 250] (by decide!) rfl (by decide!)
    (by intro j hj
        have h4 : j < 4 := hj
        interval_cases j <;> decide!)
    (by intro j hj
        have h4 : j + 1 < 4 := hj
        have h3 : j < 3 := by omega
        interval_cases j <;> decide)
  have h3 : m = 3 := hm (by decide!)
  subst h3
  rw [hl]
  decide

/-- C2. For a Vector-variant file the table entry `i` is the pair at `T + 2 + 8*i`: the
offset, then the size. The run lists the resources `0 .. m-1` (all `n - 1` of them when it
succeeds) with exactly that offset and that on-disk size. Two Vector files with the same
count field and the same size fields, whatever their offset fields, list the same sizes
when both runs succeed. -/
theorem C2_vector_sizes (env : Env) (opts : Options) (data : List Byte) (lay : Layout)
    (hdet : (detect env opts (opened data)).layout = some lay) (hvec : lay.isVEC = true) :
    (∃ m, m ≤ adjustedCount data lay - 1 ∧
      ((runFile env opts data).status = 0 → m = adjustedCount data lay - 1) ∧
      (listed (runFile env opts data).log).map (fun e => (e.1, e.2.1, e.2.2.1)) =
        (List.range m).map (fun i => (i, be32At data (lay.offset + 2 + 8 * i),
          be32At data (lay.offset + 2 + 8 * i + 4)))) ∧
    (∀ (opts2 : Options) (data2 : List Byte) (lay2 : Layout),
      (detect env opts2 (opened data2)).layout = some lay2 → lay2.isVEC = true →
      be16At data2 lay2.offset = be16At data lay.offset →
      (∀ i, be32At data2 (lay2.offset + 2 + 8 * i + 4) =
        be32At data (lay.offset + 2 + 8 * i + 4)) →
      (runFile env opts data).status = 0 → (runFile env opts2 data2).status = 0 →
      (listed (runFile env opts2 data2).log).map (fun e => e.2.2.1) =
        (listed (runFile env opts data).log).map (fun e => e.2.2.1)) := by
  have key : ∀ (op : Options) (d : List Byte) (l : Layout),
      (detect env op (opened d)).layout = some l → l.isVEC = true →
      ∃ m, m ≤ adjustedCount d l - 1 ∧
        ((runFile env op d).status = 0 → m = adjustedCount d l - 1) ∧
        listed (runFile env op d).log =
          (List.range m).map (fun i => (i, be32At d (l.offset + 2 + 8 * i),
            be32At d (l.offset + 2 + 8 * i + 4),
            (fileEntry d l i).2.2.2)) := by
    intro op d l hd hv
    obtain ⟨m, devs, pre, post, _, _, hm, hs0, _, _, _, _, hl⟩ := runFile_spec env op d l hd
    refine ⟨m, hm, fun h => (hs0 h).1, ?_⟩
    rw [hl, range'_zero_eq_range]
    apply List.map_congr_left
    intro i hi
    have hi2 : i < m := List.mem_range.mp hi
    have h1 : i < adjustedCount d l := by omega
    simp only [fileEntry, entryOf, hv, if_true, tableOffsets_getD d l _ i h1,
      tableSizes_getD d l _ i h1 hv, entryWidth]
  refine ⟨?_, ?_⟩
  · obtain ⟨m, hm, hs, hl⟩ := key opts data lay hdet hvec
    refine ⟨m, hm, hs, ?_⟩
    rw [hl, List.map_map]
    rfl
  · intro opts2 data2 lay2 hdet2 hvec2 hc hsz hs1 hs2
    obtain ⟨m, _, hs, hl⟩ := key opts data lay hdet hvec
    obtain ⟨m2, _, hs', hl2⟩ := key opts2 data2 lay2 hdet2 hvec2
    have hmm : m2 = m := by
      rw [hs hs1, hs' hs2]
      simp only [adjustedCount, hc]
    rw [hl, hl2, hmm, List.map_map, List.map_map]
    apply List.map_congr_left
    intro i _
    simp only [Function.comp, hsz i]

set_option maxRecDepth 100000 in
theorem C2_vector_sizes_witness :
    (listed (runFile sampleEnv Options.init sampleVecFile).log).map
      (fun e => (e.1, e.2.1, e.2.2.1)) = [(0, 60, 5)] := by
  obtain ⟨m, _, hm, hl⟩ := (C2_vector_sizes sampleEnv Options.init sampleVecFile
    ⟨true, 0x17, cstr ".bin"⟩ (by decide!) rfl).1
  have h1 : m = 1 := by rw [hm (by decide!)]; decide!
  subst h1
  rw [hl]
  decide!

/-- C3. On a file with a full 26-byte header, `detect` goes on as Standard exactly when
bytes 0..4 are `"MMFW "` and bytes 0x0F..0x11 are NUL, 'M', 'M'; otherwise as Vector exactly
when bytes 0..22 are `"Vector File Version 1.0"`; otherwise `main` returns 1 after the
line "Not a recognised MMFW file". Two headers that agree on bytes 0..4 and 0x0F..0x11 are
both Standard or both not (the bytes 5..14 do not matter), and no header has both magics. -/
theorem C3_detect_classification (env : Env) (opts : Options) (data : List Byte)
    (hlen : 26 ≤ data.length) :
    ((detect env opts (opened data)).variant = some .standard ↔
      (data.take 5 = cstr "MMFW " ∧ (data.drop 0x0F).take 3 = [0, ch 'M', ch 'M'])) ∧
    ((detect env opts (opened data)).variant = some .vector ↔
      (¬ (data.take 5 = cstr "MMFW " ∧ (data.drop 0x0F).take 3 = [0, ch 'M', ch 'M']) ∧
        data.take 23 = cstr "Vector File Version 1.0")) ∧
    ((detect env opts (opened data)).variant = none ↔
      (¬ (data.take 5 = cstr "MMFW " ∧ (data.drop 0x0F).take 3 = [0, ch 'M', ch 'M']) ∧
        ¬ data.take 23 = cstr "Vector File Version 1.0")) ∧
    ((detect env opts (opened data)).variant = none →
      detect env opts (opened data) =
        .exit 1 ⟨⟨data, 26⟩, [.fseek 0, .fread 0 26, .printf .notRecognised]⟩) ∧
    (∀ data2 : List Byte, 26 ≤ data2.length → data2.take 5 = data.take 5 →
      (data2.drop 0x0F).take 3 = (data.drop 0x0F).take 3 →
      (detect env opts (opened data)).variant = some .standard →
      (detect env opts (opened data2)).variant = some .standard) ∧
    ¬ (data.take 5 = cstr "MMFW " ∧ data.take 23 = cstr "Vector File Version 1.0") := by
  have key : ∀ d : List Byte, 26 ≤ d.length →
      ((detect env opts (opened d)).variant = some .standard ↔
        (d.take 5 = cstr "MMFW " ∧ (d.drop 0x0F).take 3 = [0, ch 'M', ch 'M'])) := by
    intro d hd
    rw [opened, detect_variant env opts d [] hd, ← memcmp_magicStr, ← memcmp_marker]
    rcases Bool.eq_false_or_eq_true (memcmpEq (List.take 26 d) magicStr 5) with h1 | h1 <;>
    rcases Bool.eq_false_or_eq_true
      (memcmpEq (List.drop 15 (List.take 26 d)) subKindMarker 3) with h2 | h2 <;>
    rcases Bool.eq_false_or_eq_true (memcmpEq (List.take 26 d) magicStr2 23) with h3 | h3 <;>
    simp [h1, h2, h3]
  refine ⟨key data hlen, ?_, ?_, ?_, ?_, std_vec_exclusive data⟩
  · rw [opened, detect_variant env opts data [] hlen, ← memcmp_magicStr, ← memcmp_marker,
      ← memcmp_magicStr2]
    rcases Bool.eq_false_or_eq_true (memcmpEq (List.take 26 data) magicStr 5) with h1 | h1 <;>
    rcases Bool.eq_false_or_eq_true
      (memcmpEq (List.drop 15 (List.take 26 data)) subKindMarker 3) with h2 | h2 <;>
    rcases Bool.eq_false_or_eq_true (memcmpEq (List.take 26 data) magicStr2 23) with h3 | h3 <;>
    simp [h1, h2, h3]
  · rw [opened, detect_variant env opts data [] hlen, ← memcmp_magicStr, ← memcmp_marker,
      ← memcmp_magicStr2]
    rcases Bool.eq_false_or_eq_true (memcmpEq (List.take 26 data) magicStr 5) with h1 | h1 <;>
    rcases Bool.eq_false_or_eq_true
      (memcmpEq (List.drop 15 (List.take 26 data)) subKindMarker 3) with h2 | h2 <;>
    rcases Bool.eq_false_or_eq_true (memcmpEq (List.take 26 data) magicStr2 23) with h3 | h3 <;>
    simp [h1, h2, h3]
  · rw [opened, detect_variant env opts data [] hlen, detect_eq env opts data [] hlen]
    rcases Bool.eq_false_or_eq_true (memcmpEq (List.take 26 data) magicStr 5) with h1 | h1 <;>
    rcases Bool.eq_false_or_eq_true
      (memcmpEq (List.drop 15 (List.take 26 data)) subKindMarker 3) with h2 | h2 <;>
    rcases Bool.eq_false_or_eq_true (memcmpEq (List.take 26 data) magicStr2 23) with h3 | h3 <;>
    simp [h1, h2, h3]
  · intro d hd h5 h15 hs
    rw [key d hd, h5, h15]
    exact (key data hlen).mp hs

theorem C3_detect_classification_witness :
    (detect sampleEnv Options.init (opened sampleStdHeader)).variant = some .standard ∧
    (detect sampleEnv Options.init (opened sampleVecHeader)).variant = some .vector :=
  ⟨(C3_detect_classification sampleEnv Options.init sampleStdHeader (by decide)).1.mpr
      (by decide),
   (C3_detect_classification sampleEnv Options.init sampleVecHeader (by decide)).2.1.mpr
      (by decide)⟩

/-- C4. On a file of at least 26 bytes whose first five bytes are neither `"MMFW "` nor
`"Vecto"`, the run returns 1 and all it has done is: seek to 0, read the 26 header bytes,
print "Not a recognised MMFW file". No count, no table entry and no name is read, nothing is
allocated and nothing is listed. -/
theorem C4_unrecognised_fails_first (env : Env) (opts : Options) (data : List Byte)
    (hlen : 26 ≤ data.length) (h1 : data.take 5 ≠ cstr "MMFW ")
    (h2 : data.take 5 ≠ cstr "Vecto") :
    runFile env opts data =
      { status := 1, log := [.fseek 0, .fread 0 26, .printf .notRecognised] } := by
  have hs : memcmpEq (data.take 26) magicStr 5 = false := by
    rw [Bool.eq_false_iff, Ne, memcmp_magicStr]; exact h1
  have hv : memcmpEq (data.take 26) magicStr2 23 = false := by
    rw [Bool.eq_false_iff, Ne, memcmp_magicStr2]
    intro h
    apply h2
    have h3 : (data.take 23).take 5 = data.take 5 := by
      rw [List.take_take]; rfl
    rw [← h3, h]; decide
  have hd : detect env opts ⟨⟨data, 0⟩, []⟩ =
      .exit 1 ⟨⟨data, 26⟩, [.fseek 0, .fread 0 26, .printf .notRecognised]⟩ := by
    rw [detect_eq env opts data [] hlen]
    simp [hs, hv]
  simp [runFile, run_eq_of_detect_exit hd, Res.outcome]

theorem C4_unrecognised_fails_first_witness :
    runFile sampleEnv Options.init (List.replicate 40 0) =
      { status := 1, log := [.fseek 0, .fread 0 26, .printf .notRecognised] } :=
  C4_unrecognised_fails_first sampleEnv Options.init (List.replicate 40 0) (by decide)
    (by decide) (by decide)

/-- C5, as amended. On a recognised file whose six bytes at 0x14 are the magic of an entry
`k` of `knownFiles`, whatever offset the options carry: `detect` goes on with the offset and
the extension of `k`; the first steps of the run after the header are the seek to
`k.offset` and the read of the count there; and every output file the run opens is that of
a listed resource `i`, named `prefix ++ %05u i ++ k.ext` unless `-usenames` is given and
names are reported present, in which case it is named `prefix ++ name i` and carries no
extension. -/
theorem C5_registry_entry_decides (env : Env) (opts : Options) (data : List Byte)
    (k : KNOWN_FILES) (hlen : 26 ≤ data.length)
    (hrec : (detect env opts (opened data)).variant ≠ none)
    (hk : k ∈ knownFiles) (hsig : (data.drop 0x14).take 6 = k.magic) :
    ∃ (isVEC : Bool) (w : World),
      detect env opts (opened data) =
        .ok { isVEC := isVEC, offset := k.offset, outExt := k.ext } w ∧
      run env opts (opened data) =
        parse env opts { isVEC := isVEC, offset := k.offset, outExt := k.ext } w ∧
      (∀ e ∈ w.log, detectEvent e = true) ∧
      (∃ tl, (runFile env opts data).log =
        w.log ++ .fseek k.offset :: .fread k.offset 2 :: tl) ∧
      opens (runFile env opts data).log =
        (if opts.dump then (listed (runFile env opts data).log).map
          (fun e =>
            if !opts.usenames || !fileHasNames data ⟨isVEC, k.offset, k.ext⟩ then
              opts.outPrefix ++ fmt05u e.1 ++ k.ext
            else opts.outPrefix ++ nameStr (nameRecords data
              (padded ⟨isVEC, k.offset, k.ext⟩ (tableEnd ⟨isVEC, k.offset, k.ext⟩
                (adjustedCount data ⟨isVEC, k.offset, k.ext⟩)))
              (adjustedCount data ⟨isVEC, k.offset, k.ext⟩)) e.1)
        else []) := by
  have hl : lookupKnown ((data.take 26).drop 0x14) knownFiles = some k := by
    apply lookupKnown_of_mem _ _ hk
    rw [drop_take26 data 20 6 (by omega)]; exact hsig
  have hrec2 := hrec
  rw [opened, detect_variant env opts data [] hlen] at hrec2
  have hd := detect_eq env opts data [] hlen
  simp only [hl] at hd
  have key : ∃ (isVEC : Bool) (w : World),
      detect env opts ⟨⟨data, 0⟩, []⟩ =
        .ok { isVEC := isVEC, offset := k.offset, outExt := k.ext } w := by
    rcases Bool.eq_false_or_eq_true (memcmpEq (List.take 26 data) magicStr 5) with h1 | h1 <;>
    rcases Bool.eq_false_or_eq_true
      (memcmpEq (List.drop 15 (List.take 26 data)) subKindMarker 3) with h2 | h2 <;>
    rcases Bool.eq_false_or_eq_true (memcmpEq (List.take 26 data) magicStr2 23)
      with h3 | h3 <;>
    simp [h1, h2, h3] at hd hrec2 <;>
    exact ⟨_, _, hd⟩
  obtain ⟨isVEC, w, hw⟩ := key
  have hdet : (detect env opts (opened data)).layout = some ⟨isVEC, k.offset, k.ext⟩ := by
    rw [opened, hw]; rfl
  obtain ⟨_, devs, hd2, hdev⟩ := detect_ok env opts data _ hdet
  rw [opened] at hd2
  have hww : w = ⟨⟨data, 26⟩, devs⟩ := by
    have := hw.symm.trans hd2
    injection this
  subst hww
  obtain ⟨s, pos, tl, hp⟩ := parse_head env opts ⟨isVEC, k.offset, k.ext⟩ data 26 devs
  obtain ⟨hd3, levs, hlog, hsil, hop, _⟩ := runFile_outputs env opts data _ hdet
  refine ⟨isVEC, _, hw, run_eq_of_detect hw, hdev, ⟨tl, ?_⟩, ?_⟩
  · simp only [runFile, run_eq_of_detect hw, hp, Res.outcome]
  · have hlhd : listed (runFile env opts data).log = listed levs := by
      rw [hlog, listed_append, listed_eq_nil_of_silent hd3 hsil, List.nil_append]
    rw [hlhd, hlog, opens_append, opens_eq_nil_of_silent hd3 hsil, List.nil_append, hop]
    rfl

set_option maxRecDepth 100000 in
theorem C5_registry_entry_decides_witness :
    ∃ (isVEC : Bool) (w : World),
      detect sampleEnv sampleCgmOpts (opened sampleCgmFile) =
        .ok { isVEC := isVEC, offset := 0x17, outExt := cstr ".cgm" } w ∧
      (∃ tl, (runFile sampleEnv sampleCgmOpts sampleCgmFile).log =
        w.log ++ .fseek 0x17 :: .fread 0x17 2 :: tl) ∧
      opens (runFile sampleEnv sampleCgmOpts sampleCgmFile).log =
        (if sampleCgmOpts.dump then
          (listed (runFile sampleEnv sampleCgmOpts sampleCgmFile).log).map
          (fun e =>
            if !sampleCgmOpts.usenames ||
                !fileHasNames sampleCgmFile ⟨isVEC, 0x17, cstr ".cgm"⟩ then
              sampleCgmOpts.outPrefix ++ fmt05u e.1 ++ cstr ".cgm"
            else sampleCgmOpts.outPrefix ++ nameStr (nameRecords sampleCgmFile
              (padded ⟨isVEC, 0x17, cstr ".cgm"⟩ (tableEnd ⟨isVEC, 0x17, cstr ".cgm"⟩
                (adjustedCount sampleCgmFile ⟨isVEC, 0x17, cstr ".cgm"⟩)))
              (adjustedCount sampleCgmFile ⟨isVEC, 0x17, cstr ".cgm"⟩)) e.1)
        else []) ∧
      sampleCgmOpts.offset = 0x50 ∧ sampleCgmOpts.usenames = false := by
  obtain ⟨isVEC, w, h1, _, _, h4, h5⟩ := C5_registry_entry_decides sampleEnv sampleCgmOpts
    sampleCgmFile
    ⟨[0x31, 0x2E, 0x30, 0x00, 0xFA, 0x00], cstr "MUpsVec.VEC", 0x17, 0, cstr ".cgm"⟩
    (by decide!) (by decide!) (by decide!) (by decide!)
  exact ⟨isVEC, w, h1, h4, h5, rfl, rfl⟩

set_option maxRecDepth 100000 in
/-- C5, counterexample. `sampleKnownNamesFile` carries the signature of `TarzanPI.mmp`,
whose extension is `.bin`, and has a name table. With `-dump out -usenames` the run returns
0 and the one file it writes, for resource 0 with the name `abc`, is `outabc`: the
extension of the entry is not used. -/
theorem C5_counterexample :
    (⟨[0x45, 0x02, 0x9d, 0x88, 0x00, 0x65], cstr "TarzanPI.mmp", 0x22, 1, cstr ".bin"⟩ :
      KNOWN_FILES) ∈ knownFiles ∧
    (sampleKnownNamesFile.drop 0x14).take 6 = [0x45, 0x02, 0x9d, 0x88, 0x00, 0x65] ∧
    (detect sampleEnv sampleUsenamesOpts (opened sampleKnownNamesFile)).layout =
      some ⟨false, 0x22, cstr ".bin"⟩ ∧
    (runFile sampleEnv sampleUsenamesOpts sampleKnownNamesFile).status = 0 ∧
    opens (runFile sampleEnv sampleUsenamesOpts sampleKnownNamesFile).log = [cstr "outabc"] ∧
    written (cstr "outabc") (runFile sampleEnv sampleUsenamesOpts sampleKnownNamesFile).log =
      (sampleKnownNamesFile.drop 78).take 2 := by
  decide!

/-- C6. On a file that `detect` takes for a Vector file, it goes on with the table offset
0x17, whatever offset the options carry, and the rest of the run is `parse` at 0x17; an
entry of `knownFiles` that the lookup on the bytes at 0x14 finds can only have the offset
0x17 itself. -/
theorem C6_vector_forces_offset (env : Env) (opts : Options) (data : List Byte)
    (hlen : 26 ≤ data.length)
    (hvec : (detect env opts (opened data)).variant = some .vector) :
    (∃ (ext : CStr) (w : World),
      detect env opts (opened data) = .ok { isVEC := true, offset := 0x17, outExt := ext } w ∧
      run env opts (opened data) =
        parse env opts { isVEC := true, offset := 0x17, outExt := ext } w) ∧
    (∀ k : KNOWN_FILES, lookupKnown (data.drop 0x14) knownFiles = some k → k.offset = 0x17) := by
  have hv := hvec
  rw [opened, detect_variant env opts data [] hlen] at hv
  have hd := detect_eq env opts data [] hlen
  have h3 : memcmpEq (List.take 26 data) magicStr2 23 = true := by
    rcases Bool.eq_false_or_eq_true (memcmpEq (List.take 26 data) magicStr2 23) with h | h
    · exact h
    · rw [h] at hv
      split at hv <;> simp at hv
  have htail := vector_tail data ((memcmp_magicStr2 data).mp h3)
  have hlk : ∀ k : KNOWN_FILES, lookupKnown (data.drop 0x14) knownFiles = some k →
      k.offset = 0x17 := by
    intro k hk
    exact lookupKnown_vector _ htail k hk
  have hlk2 : ∀ k : KNOWN_FILES, lookupKnown ((data.take 26).drop 0x14) knownFiles = some k →
      k.offset = 0x17 := by
    intro k hk
    refine lookupKnown_vector _ ?_ k hk
    rw [drop_take26 data 20 3 (by omega)]; exact htail
  refine ⟨?_, hlk⟩
  rcases Bool.eq_false_or_eq_true (memcmpEq (List.take 26 data) magicStr 5) with h1 | h1 <;>
  rcases Bool.eq_false_or_eq_true
    (memcmpEq (List.drop 15 (List.take 26 data)) subKindMarker 3) with h2 | h2 <;>
  rcases h4 : lookupKnown (List.drop 20 (List.take 26 data)) knownFiles with _ | k <;>
  simp [h1, h2, h3, h4] at hd hv
  all_goals first
    | exact ⟨_, _, hd, run_eq_of_detect hd⟩
    | (have hk := hlk2 k h4
       rw [hk] at hd
       exact ⟨_, _, hd, run_eq_of_detect hd⟩)

theorem C6_vector_forces_offset_witness :
    (∃ (ext : CStr) (w : World),
      detect sampleEnv { Options.init with offset := 0x50, offsetFound := true }
          (opened sampleVecHeader) =
        .ok { isVEC := true, offset := 0x17, outExt := ext } w ∧
      run sampleEnv { Options.init with offset := 0x50, offsetFound := true }
          (opened sampleVecHeader) =
        parse sampleEnv { Options.init with offset := 0x50, offsetFound := true }
          { isVEC := true, offset := 0x17, outExt := ext } w) ∧
    (∀ k : KNOWN_FILES, lookupKnown (sampleVecHeader.drop 0x14) knownFiles = some k →
      k.offset = 0x17) :=
  C6_vector_forces_offset sampleEnv { Options.init with offset := 0x50, offsetFound := true }
    sampleVecHeader (by decide) (by decide)

/-- C7, as amended. With `gap` the difference between the first offset of the table and
the position after the table and the padding, converted to a 32-bit `int` (reduced modulo
`2^32` into `[-2^31, 2^31)`), and `n` the adjusted count: the decision on the names that a
run prints is `gap ≥ 32 * (n - 1)`, and it is printed whenever the count and the table can
be read and allocated. So names are reported present exactly when `gap ≥ 32 * (n - 1)`: a
`gap` of exactly `32 * (n - 1)` gives names, a `gap` of `32 * (n - 1) - 1` gives none. The
options and the environment enter only through the layout that `detect` has found; the
`hasFilenames` field of the registry enters nowhere. -/
theorem C7_names_decision (env : Env) (opts : Options) (data : List Byte) (lay : Layout)
    (hdet : (detect env opts (opened data)).layout = some lay) :
    (∀ b, Event.printf (.hasNames b) ∈ (runFile env opts data).log →
      b = decide (toInt32 ((be32At data (lay.offset + 2) : Int) -
            (padded lay (tableEnd lay (adjustedCount data lay)) : Int)) ≥
          32 * ((adjustedCount data lay : Int) - 1))) ∧
    (lay.offset + 2 ≤ data.length → adjustedCount data lay ≠ 0 →
      (∀ l b, env.mallocOk l b = true) →
      tableEnd lay (adjustedCount data lay) ≤ data.length →
      Event.printf (.hasNames (decide (toInt32 ((be32At data (lay.offset + 2) : Int) -
            (padded lay (tableEnd lay (adjustedCount data lay)) : Int)) ≥
          32 * ((adjustedCount data lay : Int) - 1)))) ∈ (runFile env opts data).log) ∧
    (lay.offset + 2 ≤ data.length → adjustedCount data lay ≠ 0 →
      (∀ l b, env.mallocOk l b = true) →
      tableEnd lay (adjustedCount data lay) ≤ data.length →
      (Event.printf (.hasNames true) ∈ (runFile env opts data).log ↔
        toInt32 ((be32At data (lay.offset + 2) : Int) -
            (padded lay (tableEnd lay (adjustedCount data lay)) : Int)) ≥
          32 * ((adjustedCount data lay : Int) - 1)) ∧
      (toInt32 ((be32At data (lay.offset + 2) : Int) -
            (padded lay (tableEnd lay (adjustedCount data lay)) : Int)) =
          32 * ((adjustedCount data lay : Int) - 1) →
        Event.printf (.hasNames true) ∈ (runFile env opts data).log) ∧
      (toInt32 ((be32At data (lay.offset + 2) : Int) -
            (padded lay (tableEnd lay (adjustedCount data lay)) : Int)) =
          32 * ((adjustedCount data lay : Int) - 1) - 1 →
        Event.printf (.hasNames false) ∈ (runFile env opts data).log ∧
        ¬ Event.printf (.hasNames true) ∈ (runFile env opts data).log)) ∧
    (∀ z : Int, -2 ^ 31 ≤ toInt32 z ∧ toInt32 z < 2 ^ 31 ∧ (toInt32 z - z) % 2 ^ 32 = 0) := by
  obtain ⟨m, devs, pre, post, hlog, _, _, _, hdev, hpre, hpost, hne, _⟩ :=
    runFile_spec env opts data lay hdet
  have hfile : adjustedCount data lay ≠ 0 → fileHasNames data lay =
      decide (toInt32 ((be32At data (lay.offset + 2) : Int) -
            (padded lay (tableEnd lay (adjustedCount data lay)) : Int)) ≥
          32 * ((adjustedCount data lay : Int) - 1)) := by
    intro hn
    simp only [fileHasNames, namesDecision,
      tableOffsets_getD data lay _ 0 (Nat.pos_of_ne_zero hn), Nat.mul_zero, Nat.add_zero]
  have hone : ∀ b, Event.printf (.hasNames b) ∈ (runFile env opts data).log →
      adjustedCount data lay ≠ 0 ∧ b = fileHasNames data lay := by
    intro b hb
    rw [hlog] at hb
    rcases List.mem_append.mp hb with h | h
    · rcases List.mem_append.mp h with h | h
      · have := hdev _ h
        rw [hasNames_not_detectEvent] at this
        exact absurd this (by decide)
      · have := hpre _ h
        rw [hasNames_not_preEvent] at this
        exact absurd this (by decide)
    · rcases hpost with h0 | ⟨tl, htl, htail, hn, _⟩
      · rw [h0] at h; simp at h
      · rw [htl] at h
        rcases List.mem_cons.mp h with h | h
        · injection h with h
          injection h with h
          exact ⟨hn, h⟩
        · have := htail _ h
          rw [hasNames_not_tailEvent] at this
          exact absurd this (by decide)
  have htwo : lay.offset + 2 ≤ data.length → adjustedCount data lay ≠ 0 →
      (∀ l b, env.mallocOk l b = true) →
      tableEnd lay (adjustedCount data lay) ≤ data.length →
      Event.printf (.hasNames (fileHasNames data lay)) ∈ (runFile env opts data).log := by
    intro h1 h2 h3 h4
    have hp := hne h1 h2 h3 h4
    rcases hpost with h0 | ⟨tl, htl, _⟩
    · exact absurd h0 hp
    · rw [hlog, htl]
      exact List.mem_append_right _ (List.mem_cons_self _ _)
  have hiff : lay.offset + 2 ≤ data.length → adjustedCount data lay ≠ 0 →
      (∀ l b, env.mallocOk l b = true) →
      tableEnd lay (adjustedCount data lay) ≤ data.length →
      (Event.printf (.hasNames true) ∈ (runFile env opts data).log ↔
        toInt32 ((be32At data (lay.offset + 2) : Int) -
            (padded lay (tableEnd lay (adjustedCount data lay)) : Int)) ≥
          32 * ((adjustedCount data lay : Int) - 1)) := by
    intro h1 h2 h3 h4
    constructor
    · intro hb
      obtain ⟨hn, hb2⟩ := hone true hb
      rw [hfile hn] at hb2
      exact of_decide_eq_true hb2.symm
    · intro hg
      have := htwo h1 h2 h3 h4
      rw [hfile h2, decide_eq_true hg] at this
      exact this
  refine ⟨?_, ?_, ?_, ?_⟩
  · intro b hb
    obtain ⟨hn, hb2⟩ := hone b hb
    rw [hb2, hfile hn]
  · intro h1 h2 h3 h4
    rw [← hfile h2]
    exact htwo h1 h2 h3 h4
  · intro h1 h2 h3 h4
    refine ⟨hiff h1 h2 h3 h4, fun hg => (hiff h1 h2 h3 h4).mpr (le_of_eq hg.symm), ?_⟩
    intro hg
    have hnot : ¬ toInt32 ((be32At data (lay.offset + 2) : Int) -
            (padded lay (tableEnd lay (adjustedCount data lay)) : Int)) ≥
          32 * ((adjustedCount data lay : Int) - 1) := by
      rw [hg]; omega
    refine ⟨?_, fun hb => hnot ((hiff h1 h2 h3 h4).mp hb)⟩
    have := htwo h1 h2 h3 h4
    rw [hfile h2, decide_eq_false hnot] at this
    exact this
  · intro z
    simp only [toInt32]
    omega

set_option maxRecDepth 100000 in
theorem C7_names_decision_witness :
    Event.printf (.hasNames true) ∈ (runFile sampleEnv Options.init sampleBoundaryFile).log ∧
    ¬ Event.printf (.hasNames true) ∈ (runFile sampleEnv Options.init sampleBelowFile).log :=
  ⟨((C7_names_decision sampleEnv Options.init sampleBoundaryFile ⟨false, 0x22, cstr ".bin"⟩
      (by decide!)).2.2.1 (by decide!) (by decide!) (fun _ _ => rfl) (by decide!)).2.1
      (by decide!),
   (((C7_names_decision sampleEnv Options.init sampleBelowFile
      ⟨false, 0x22, cstr ".bin"⟩ (by decide!)).2.2.1 (by decide!) (by decide!) (fun _ _ => rfl)
      (by decide!)).2.2 (by decide!)).2⟩

set_option maxRecDepth 100000 in
/-- C7, counterexample. In `sampleWrapFile` the first offset is 0xFFFFFFFF and the position
after the table and the padding is 46, so the difference is far above `32 * (n - 1) = 32`;
yet the run reports no names, since the difference converted to `int` is negative. -/
theorem C7_counterexample :
    adjustedCount sampleWrapFile ⟨false, 0x22, cstr ".bin"⟩ = 2 ∧
    (be32At sampleWrapFile (0x22 + 2) : Int) -
        (padded ⟨false, 0x22, cstr ".bin"⟩ (tableEnd ⟨false, 0x22, cstr ".bin"⟩ 2) : Int) ≥
      32 * ((2 : Int) - 1) ∧
    (detect sampleEnv Options.init (opened sampleWrapFile)).layout =
      some ⟨false, 0x22, cstr ".bin"⟩ ∧
    Event.printf (.hasNames false) ∈ (runFile sampleEnv Options.init sampleWrapFile).log ∧
    ¬ Event.printf (.hasNames true) ∈ (runFile sampleEnv Options.init sampleWrapFile).log := by
  decide!

/-- C8, as amended. For a Standard-variant file, whether its offsets are non-decreasing or
not, the run lists the resources `0 .. m-1` (all `n - 1` of them when it succeeds), resource
`i` with offset `offsets[i]` and size `(offsets[i+1] - offsets[i]) mod 2^32`. Every listed
size is an unsigned 32-bit value, and where `offsets[i+1] < offsets[i]` the size is
`2^32 - (offsets[i] - offsets[i+1])`. -/
theorem C8_sizes_wrap (env : Env) (opts : Options) (data : List Byte) (lay : Layout)
    (hdet : (detect env opts (opened data)).layout = some lay) (hstd : lay.isVEC = false) :
    (∃ m, m ≤ adjustedCount data lay - 1 ∧
      ((runFile env opts data).status = 0 → m = adjustedCount data lay - 1) ∧
      (listed (runFile env opts data).log).map (fun e => (e.1, e.2.1, e.2.2.1)) =
        (List.range m).map (fun i => (i, be32At data (lay.offset + 2 + 4 * i),
          (be32At data (lay.offset + 2 + 4 * (i + 1)) + 2 ^ 32 -
            be32At data (lay.offset + 2 + 4 * i)) % 2 ^ 32))) ∧
    (∀ e ∈ listed (runFile env opts data).log, e.2.2.1 < 2 ^ 32) ∧
    (∀ i, be32At data (lay.offset + 2 + 4 * (i + 1)) < be32At data (lay.offset + 2 + 4 * i) →
      (be32At data (lay.offset + 2 + 4 * (i + 1)) + 2 ^ 32 -
          be32At data (lay.offset + 2 + 4 * i)) % 2 ^ 32 =
        2 ^ 32 - (be32At data (lay.offset + 2 + 4 * i) -
          be32At data (lay.offset + 2 + 4 * (i + 1)))) := by
  obtain ⟨m, devs, pre, post, _, _, hm, hs0, _, _, _, _, hl⟩ :=
    runFile_spec env opts data lay hdet
  have hmap : (listed (runFile env opts data).log).map (fun e => (e.1, e.2.1, e.2.2.1)) =
      (List.range m).map (fun i => (i, be32At data (lay.offset + 2 + 4 * i),
        (be32At data (lay.offset + 2 + 4 * (i + 1)) + 2 ^ 32 -
          be32At data (lay.offset + 2 + 4 * i)) % 2 ^ 32)) := by
    rw [hl, range'_zero_eq_range, List.map_map]
    apply List.map_congr_left
    intro i hi
    have hi2 : i < m := List.mem_range.mp hi
    have h1 : i < adjustedCount data lay := by omega
    have h2 : i + 1 < adjustedCount data lay := by omega
    simp only [Function.comp, fileEntry, entryOf, hstd, Bool.false_eq_true, if_false,
      tableOffsets_getD data lay _ i h1, tableOffsets_getD data lay _ (i + 1) h2, entryWidth]
  refine ⟨⟨m, hm, fun h => (hs0 h).1, hmap⟩, ?_, ?_⟩
  · intro e he
    have h1 : (e.1, e.2.1, e.2.2.1) ∈
        (listed (runFile env opts data).log).map (fun e => (e.1, e.2.1, e.2.2.1)) :=
      List.mem_map_of_mem _ he
    rw [hmap] at h1
    obtain ⟨i, _, hi⟩ := List.mem_map.mp h1
    have h3 : e.2.2.1 = (be32At data (lay.offset + 2 + 4 * (i + 1)) + 2 ^ 32 -
        be32At data (lay.offset + 2 + 4 * i)) % 2 ^ 32 := by
      have := congrArg (fun t : Nat × Nat × Nat => t.2.2) hi
      exact this.symm
    rw [h3]
    exact Nat.mod_lt _ (by norm_num)
  · intro i hi
    have h1 := be32At_lt data (lay.offset + 2 + 4 * (i + 1))
    have h2 := be32At_lt data (lay.offset + 2 + 4 * i)
    omega

set_option maxRecDepth 100000 in
theorem C8_sizes_wrap_witness :
    (listed (runFile sampleEnv Options.init sampleDecreasingFile).log).map
      (fun e => (e.1, e.2.1, e.2.2.1)) = [(0, 60, 4294967286)] := by
  obtain ⟨m, _, hm, hl⟩ := (C8_sizes_wrap sampleEnv Options.init sampleDecreasingFile
    ⟨false, 0x22, cstr ".bin"⟩ (by decide!) rfl).1
  have h1 : m = 1 := by rw [hm (by decide!)]; decide!
  subst h1
  rw [hl]
  decide!

set_option maxRecDepth 100000 in
/-- C8, counterexample. `sampleDecreasingFile` is a Standard file whose table holds the
offsets 60 and 50; the run returns 0 and lists resource 0 with the size `2^32 - 10`. -/
theorem C8_counterexample :
    (detect sampleEnv Options.init (opened sampleDecreasingFile)).variant = some .standard ∧
    be32At sampleDecreasingFile (0x22 + 2) = 60 ∧
    be32At sampleDecreasingFile (0x22 + 2 + 4) = 50 ∧
    (runFile sampleEnv Options.init sampleDecreasingFile).status = 0 ∧
    listed (runFile sampleEnv Options.init sampleDecreasingFile).log =
      [(0, 60, 4294967286, [])] := by
  decide!

set_option maxRecDepth 100000 in
/-- C9, the code at the failing input. `sampleZeroCountFile` is a Standard file whose count
field is 0. The run prints the count 0, allocates the offsets, reads the one table entry,
prints its decision on the names, lists nothing and returns 0; it never prints
"No resources!". -/
theorem C9_count_zero_proceeds :
    be16At sampleZeroCountFile 0x22 = 0 ∧
    runFile sampleEnv Options.init sampleZeroCountFile =
      { status := 0,
        log := [.fseek 0, .fread 0 26, .printf (.fileHeader (cstr "MMFW Pictures")),
          .printf (.mmfwVersion 3), .printf (.usingDefaultOffset 0x22),
          .fseek 0x22, .fread 0x22 2, .printf (.resourceCount 0), .malloc 4, .fread 36 4,
          .fseek 42, .printf (.hasNames false), .fcloseInput] } := by
  decide!

/-- C10. When the run succeeds, the listed indices are exactly `0, 1, ..., n-2` in this
order, `n` being the adjusted count, and their number `n - 1` is the value of the count
field. With `-dump` the files opened are, in order, those of the indices `0 .. n-2`, and
without it none is. The log of a successful run is a part in which nothing is listed,
opened or written, then for each index `i = 0 .. n-2` the events of `listEvents`, then the
closing of the input: the `block` line of `i` and, with `-dump`, the call of `dumpResource`
on the offset of table entry `i` with the listed size, which writes the bytes
`data[offset .. offset + size)` to the file of index `i`. In every run, successful or not,
each listed index is below `n - 1` and every file opened is that of a listed index: the
last table entry (index `n - 1`) is never listed or extracted. -/
theorem C10_listed_indices (env : Env) (opts : Options) (data : List Byte) (lay : Layout)
    (hdet : (detect env opts (opened data)).layout = some lay) :
    ((runFile env opts data).status = 0 →
      (listed (runFile env opts data).log).map (fun e => e.1) =
        List.range (adjustedCount data lay - 1) ∧
      adjustedCount data lay - 1 = be16At data lay.offset ∧
      (listed (runFile env opts data).log).length = be16At data lay.offset ∧
      opens (runFile env opts data).log =
        (if opts.dump then (List.range (adjustedCount data lay - 1)).map
          (fun i => outName opts lay (fileHasNames data lay)
            (nameRecords data (padded lay (tableEnd lay (adjustedCount data lay)))
              (adjustedCount data lay)) i) else []) ∧
      ∃ (hd : List Event) (q : Nat),
        (∀ e ∈ hd, silent e = true) ∧
        (runFile env opts data).log = hd ++
          ((List.range (adjustedCount data lay - 1)).map
            (fun i => listEvents opts lay (fileHasNames data lay)
              (nameRecords data (padded lay (tableEnd lay (adjustedCount data lay)))
                (adjustedCount data lay)) data q (fileEntry data lay i))).flatten ++
          [.fcloseInput]) ∧
    (∀ e ∈ listed (runFile env opts data).log, e.1 < adjustedCount data lay - 1) ∧
    opens (runFile env opts data).log =
      (if opts.dump then (listed (runFile env opts data).log).map
        (fun e => outName opts lay (fileHasNames data lay)
          (nameRecords data (padded lay (tableEnd lay (adjustedCount data lay)))
            (adjustedCount data lay)) e.1) else []) ∧
    (∀ i, i < adjustedCount data lay - 1 →
      (fileEntry data lay i).1 = i ∧
      (fileEntry data lay i).2.1 = be32At data (lay.offset + 2 + entryWidth lay.isVEC * i) ∧
      (fileEntry data lay i).2.2.1 =
        (if lay.isVEC then be32At data (lay.offset + 2 + 8 * i + 4)
         else (be32At data (lay.offset + 2 + 4 * (i + 1)) + 2 ^ 32 -
           be32At data (lay.offset + 2 + 4 * i)) % 2 ^ 32)) ∧
    (∀ (names : List (List Byte)) (b : Bool) (q : Nat) (e : Nat × Nat × Nat × CStr),
      written (outName opts lay b names e.1) (listEvents opts lay b names data q e) =
        if opts.dump then (data.drop e.2.1).take e.2.2.1 else []) := by
  obtain ⟨m, devs, pre, post, _, _, hm, hs0, _, _, _, _, hl⟩ :=
    runFile_spec env opts data lay hdet
  obtain ⟨hd, levs, hlog, hsil, hop, hok⟩ := runFile_outputs env opts data lay hdet
  have hidx : (listed (runFile env opts data).log).map (fun e => e.1) = List.range m := by
    rw [hl, range'_zero_eq_range, List.map_map]
    conv_rhs => rw [← List.map_id (List.range m)]
    apply List.map_congr_left
    intro i _
    rfl
  have hlhd : listed (runFile env opts data).log = listed levs := by
    rw [hlog, listed_append, listed_eq_nil_of_silent hd hsil, List.nil_append]
  have hopens : opens (runFile env opts data).log =
      (if opts.dump then (listed (runFile env opts data).log).map
        (fun e => outName opts lay (fileHasNames data lay)
          (nameRecords data (padded lay (tableEnd lay (adjustedCount data lay)))
            (adjustedCount data lay)) e.1) else []) := by
    rw [hlhd, ← hop, hlog, opens_append, opens_eq_nil_of_silent hd hsil, List.nil_append]
  refine ⟨?_, ?_, hopens, ?_, ?_⟩
  · intro h
    obtain ⟨h1, h2, _⟩ := hs0 h
    have hc := be16_lt (data.drop lay.offset)
    have hcnt : adjustedCount data lay - 1 = be16At data lay.offset := by
      simp only [adjustedCount, be16At] at h2 ⊢
      omega
    refine ⟨by rw [hidx, h1], hcnt, ?_, ?_, ?_⟩
    · have := congrArg List.length hidx
      simp only [List.length_map, List.length_range] at this
      rw [this, h1, hcnt]
    · rw [hopens]
      rcases Bool.eq_false_or_eq_true opts.dump with hdump | hdump
      · simp only [hdump, if_true]
        have hcomp : (listed (runFile env opts data).log).map
            (fun e => outName opts lay (fileHasNames data lay)
              (nameRecords data (padded lay (tableEnd lay (adjustedCount data lay)))
                (adjustedCount data lay)) e.1) =
            ((listed (runFile env opts data).log).map (fun e => e.1)).map
              (fun i => outName opts lay (fileHasNames data lay)
                (nameRecords data (padded lay (tableEnd lay (adjustedCount data lay)))
                  (adjustedCount data lay)) i) := by
          rw [List.map_map]; rfl
        rw [hcomp, hidx, h1]
      · simp only [hdump, Bool.false_eq_true, if_false]
    · obtain ⟨q, hq⟩ := hok h
      refine ⟨hd, q, hsil, ?_⟩
      rw [hlog, hq, range'_zero_eq_range, List.append_assoc]
  · intro e he
    have h1 : e.1 ∈ (listed (runFile env opts data).log).map (fun e => e.1) :=
      List.mem_map_of_mem _ he
    rw [hidx] at h1
    have := List.mem_range.mp h1
    omega
  · intro i hi
    have h1 : i < adjustedCount data lay := by omega
    have h2 : i + 1 < adjustedCount data lay := by omega
    refine ⟨rfl, ?_, ?_⟩
    · simp only [fileEntry, entryOf, tableOffsets_getD data lay _ i h1]
    · rcases Bool.eq_false_or_eq_true lay.isVEC with hv | hv
      · simp only [fileEntry, entryOf, hv, if_true, tableSizes_getD data lay _ i h1 hv]
      · simp only [fileEntry, entryOf, hv, Bool.false_eq_true, if_false,
          tableOffsets_getD data lay _ i h1, tableOffsets_getD data lay _ (i + 1) h2,
          entryWidth]
  · intro names b q e
    exact written_listEvents opts lay b names data q e

set_option maxRecDepth 100000 in
theorem C10_listed_indices_witness :
    (listed (runFile sampleEnv sampleDumpOpts sampleStdFile).log).map (fun e => e.1) =
      List.range (adjustedCount sampleStdFile ⟨false, 0x22, cstr ".bin"⟩ - 1) ∧
    adjustedCount sampleStdFile ⟨false, 0x22, cstr ".bin"⟩ - 1 = 3 ∧
    opens (runFile sampleEnv sampleDumpOpts sampleStdFile).log =
      [cstr "out00000.bin", cstr "out00001.bin", cstr "out00002.bin"] ∧
    written (cstr "out00002.bin") (runFile sampleEnv sampleDumpOpts sampleStdFile).log =
      (sampleStdFile.drop 200).take 50 := by
  obtain ⟨h1, _, _, h4, _⟩ := (C10_listed_indices sampleEnv sampleDumpOpts sampleStdFile
    ⟨false, 0x22, cstr ".bin"⟩ (by decide!)).1 (by decide!)
  refine ⟨h1, by decide!, ?_, by decide!⟩
  rw [h4]
  decide!

/-- C11. The program decodes big-endian on either host: two bytes `b0 b1` in file order,
loaded natively and passed through `reverseByteOrder2`, give `256*b0 + b1`; four bytes
`b0 b1 b2 b3`, loaded natively and passed through `reverseByteOrder4`, give
`2^24*b0 + 2^16*b1 + 2^8*b2 + b3`. In particular the version that `detect` prints for a
recognised file is `256 * header[0x12] + header[0x13]`. -/
theorem C11_big_endian_decoding :
    (∀ (le : Bool) (b0 b1 : Byte),
      reverseByteOrder2 le (load16 le [b0, b1]) = 256 * b0.val + b1.val) ∧
    (∀ (le : Bool) (b0 b1 b2 b3 : Byte),
      reverseByteOrder4 le (load32 le [b0, b1, b2, b3]) =
        2 ^ 24 * b0.val + 2 ^ 16 * b1.val + 2 ^ 8 * b2.val + b3.val) ∧
    (∀ (env : Env) (opts : Options) (data : List Byte),
      (detect env opts (opened data)).variant ≠ none →
      Event.printf (.mmfwVersion (256 * (data.getD 0x12 0).val + (data.getD 0x13 0).val))
        ∈ (detect env opts (opened data)).log) := by
  refine ⟨?_, ?_, ?_⟩
  · intro le b0 b1
    rw [decode16]
    rfl
  · intro le b0 b1 b2 b3
    rw [decode32]
    rfl
  · intro env opts data hd
    have hlen : 26 ≤ data.length := by
      by_contra hlen
      rw [opened, detect_short env opts data [] hlen] at hd
      exact hd rfl
    have hver : reverseByteOrder2 env.littleEndian
        (load16 env.littleEndian ((data.take 26).drop 0x12)) =
        256 * (data.getD 0x12 0).val + (data.getD 0x13 0).val := by
      rw [decode16]
      simp only [be16, getD_drop_take26 data 18 0 (by omega),
        getD_drop_take26 data 18 1 (by omega)]
      rfl
    rw [opened] at hd ⊢
    rw [detect_eq env opts data [] hlen] at hd ⊢
    simp only [hver] at hd ⊢
    rcases Bool.eq_false_or_eq_true (memcmpEq (List.take 26 data) magicStr 5) with h1 | h1 <;>
    rcases Bool.eq_false_or_eq_true
      (memcmpEq (List.drop 15 (List.take 26 data)) subKindMarker 3) with h2 | h2 <;>
    rcases Bool.eq_false_or_eq_true (memcmpEq (List.take 26 data) magicStr2 23) with h3 | h3 <;>
    rcases Bool.eq_false_or_eq_true opts.offsetFound with h5 | h5 <;>
    rcases h4 : lookupKnown (List.drop 20 (List.take 26 data)) knownFiles with _ | k <;>
    simp [h1, h2, h3, h4, h5, Res.variant, Res.log] at hd ⊢

set_option maxRecDepth 100000 in
theorem C11_big_endian_decoding_witness :
    Event.printf (.mmfwVersion (256 * 0 + 3)) ∈
      (detect sampleEnv Options.init (opened sampleStdHeader)).log :=
  C11_big_endian_decoding.2.2 sampleEnv Options.init sampleStdHeader (by decide!)

/-- C12. Reversing the byte order twice gives the value back, on either host: for every
16-bit `x`, `reverseByteOrder2 (reverseByteOrder2 x) = x`, and for every 32-bit `x`,
`reverseByteOrder4 (reverseByteOrder4 x) = x`. -/
theorem C12_reverse_twice (le : Bool) :
    (∀ x, x < 2 ^ 16 → reverseByteOrder2 le (reverseByteOrder2 le x) = x) ∧
    (∀ x, x < 2 ^ 32 → reverseByteOrder4 le (reverseByteOrder4 le x) = x) := by
  cases le
  · exact ⟨fun x _ => by rw [reverseByteOrder2_be, reverseByteOrder2_be],
      fun x _ => by rw [reverseByteOrder4_be, reverseByteOrder4_be]⟩
  · refine ⟨fun x hx => ?_, fun x hx => ?_⟩
    · rw [reverseByteOrder2_le, reverseByteOrder2_le]
      have hx0 : x = 256 * (x / 256 % 256) + x % 256 := by omega
      have ha : x % 256 < 256 := Nat.mod_lt _ (by norm_num)
      have hb : x / 256 % 256 < 256 := Nat.mod_lt _ (by norm_num)
      generalize x % 256 = a at hx0 ha ⊢
      generalize x / 256 % 256 = b at hx0 hb ⊢
      have e1 : (256 * a + b) % 256 = b := by omega
      have e2 : (256 * a + b) / 256 = a := by omega
      have e3 : a % 256 = a := by omega
      rw [e1, e2, e3]
      omega
    · rw [reverseByteOrder4_le, reverseByteOrder4_le]
      have hx0 : x = 16777216 * (x / 16777216 % 256) + 65536 * (x / 65536 % 256)
          + 256 * (x / 256 % 256) + x % 256 := by omega
      have ha : x % 256 < 256 := Nat.mod_lt _ (by norm_num)
      have hb : x / 256 % 256 < 256 := Nat.mod_lt _ (by norm_num)
      have hc : x / 65536 % 256 < 256 := Nat.mod_lt _ (by norm_num)
      have hd : x / 16777216 % 256 < 256 := Nat.mod_lt _ (by norm_num)
      generalize x % 256 = a at hx0 ha ⊢
      generalize x / 256 % 256 = b at hx0 hb ⊢
      generalize x / 65536 % 256 = c at hx0 hc ⊢
      generalize x / 16777216 % 256 = d at hx0 hd ⊢
      have e1 : (16777216 * a + 65536 * b + 256 * c + d) % 256 = d := by omega
      have e2 : (16777216 * a + 65536 * b + 256 * c + d) / 256 = 65536 * a + 256 * b + c := by
        omega
      have e3 : (65536 * a + 256 * b + c) % 256 = c := by omega
      have e4 : (16777216 * a + 65536 * b + 256 * c + d) / 65536 = 256 * a + b := by omega
      have e5 : (256 * a + b) % 256 = b := by omega
      have e6 : (16777216 * a + 65536 * b + 256 * c + d) / 16777216 = a := by omega
      have e7 : a % 256 = a := by omega
      rw [e1, e2, e3, e4, e5, e6, e7]
      omega

theorem C12_reverse_twice_witness :
    reverseByteOrder2 true (reverseByteOrder2 true 0x1234) = 0x1234 ∧
    reverseByteOrder4 true (reverseByteOrder4 true 0x01234567) = 0x01234567 :=
  ⟨(C12_reverse_twice true).1 0x1234 (by decide),
   (C12_reverse_twice true).2 0x01234567 (by decide)⟩

/-- C13. For a recognised file whose adjusted resource count exceeds a quarter of the file
size, the run returns 1, lists no resource and opens or writes no output file: the table of
that many entries cannot be read from the file. -/
theorem C13_absurd_count_fails (env : Env) (opts : Options) (data : List Byte)
    (lay : Layout) (hdet : (detect env opts (opened data)).layout = some lay)
    (habs : adjustedCount data lay > data.length / 4) :
    (runFile env opts data).status = 1 ∧ listed (runFile env opts data).log = [] ∧
    (∀ e ∈ (runFile env opts data).log,
      (∀ name, e ≠ .fopenWrite name) ∧ (∀ name bytes, e ≠ .fwrite name bytes)) := by
  obtain ⟨m, devs, pre, post, hlog, hs, _, hs0, hdev, hpre, hpost, _, _⟩ :=
    runFile_spec env opts data lay hdet
  have h4 := four_mul_le_tableEnd lay (adjustedCount data lay)
  have hnot : ¬ tableEnd lay (adjustedCount data lay) ≤ data.length := by omega
  have hp : post = [] := by
    rcases hpost with h | ⟨tl, _, _, _, ht⟩
    · exact h
    · exact absurd ht hnot
  refine ⟨?_, ?_, ?_⟩
  · rcases hs with h | h
    · exact absurd (hs0 h).2.2 hnot
    · exact h
  · rw [hlog, hp, List.append_nil, listed_append, listed_eq_nil_of_detectEvent devs hdev,
      listed_eq_nil_of_preEvent pre hpre]
    rfl
  · intro e he
    rw [hlog, hp, List.append_nil] at he
    rcases List.mem_append.mp he with h | h
    · have h1 := hdev e h
      exact ⟨fun name hc => by rw [hc] at h1; exact Bool.noConfusion h1,
        fun name bytes hc => by rw [hc] at h1; exact Bool.noConfusion h1⟩
    · have h1 := hpre e h
      exact ⟨fun name hc => by rw [hc] at h1; exact Bool.noConfusion h1,
        fun name bytes hc => by rw [hc] at h1; exact Bool.noConfusion h1⟩

set_option maxRecDepth 100000 in
theorem C13_absurd_count_fails_witness :
    (runFile sampleEnv Options.init sampleAbsurdFile).status = 1 ∧
    listed (runFile sampleEnv Options.init sampleAbsurdFile).log = [] :=
  ⟨(C13_absurd_count_fails sampleEnv Options.init sampleAbsurdFile
      ⟨false, 0x22, cstr ".bin"⟩ (by decide!) (by decide!)).1,
   (C13_absurd_count_fails sampleEnv Options.init sampleAbsurdFile
      ⟨false, 0x22, cstr ".bin"⟩ (by decide!) (by decide!)).2.1⟩

set_option maxRecDepth 100000 in
/-- C14, the code at the failing input. The argument loop has no case for `-ext`: whatever
the arguments, it leaves `outExt` as it was. On the command line
`mmex in.mmp -dump out -ext .cgm`, with `in.mmp` a Standard file of one resource, the run
prints "Unknown parameter" for `-ext` and for `.cgm` and writes resource 0 to
`out00000.bin`. -/
theorem C14_ext_not_parsed :
    (∀ (env : Env) (args : List CStr) (o o2 : Options) (w w2 : World),
      parseArgs env args o w = .ok o2 w2 → o2.outExt = o.outExt) ∧
    (runMain sampleEnvWithFile sampleExtArgv).status = 0 ∧
    opens (runMain sampleEnvWithFile sampleExtArgv).log = [cstr "out00000.bin"] ∧
    Event.printf (.unknownParameter (cstr "-ext")) ∈
      (runMain sampleEnvWithFile sampleExtArgv).log ∧
    Event.printf (.unknownParameter (cstr ".cgm")) ∈
      (runMain sampleEnvWithFile sampleExtArgv).log :=
  ⟨parseArgs_outExt, by decide!, by decide!, by decide!, by decide!⟩

/-- C15. The magics of `knownFiles` are pairwise distinct; for any bytes at 0x14 at most one
entry matches; and the lookup over any reordering of the entries gives the same result. -/
theorem C15_registry_no_duplicates :
    (knownFiles.map (fun k => k.magic)).Nodup ∧
    (∀ (fileID : List Byte) (k1 k2 : KNOWN_FILES), k1 ∈ knownFiles → k2 ∈ knownFiles →
      memcmpEq fileID k1.magic 6 = true → memcmpEq fileID k2.magic 6 = true → k1 = k2) ∧
    (∀ (fileID : List Byte) (l : List KNOWN_FILES), l.Perm knownFiles →
      lookupKnown fileID l = lookupKnown fileID knownFiles) := by
  refine ⟨by decide, knownFiles_match_unique, ?_⟩
  intro fileID l hp
  rcases h1 : lookupKnown fileID l with _ | k1 <;>
  rcases h2 : lookupKnown fileID knownFiles with _ | k2
  · rfl
  · obtain ⟨hm, hk⟩ := lookupKnown_some fileID _ k2 h2
    have := lookupKnown_none fileID l h1 k2 (hp.mem_iff.mpr hm)
    rw [hk] at this
    exact absurd this (by decide)
  · obtain ⟨hm, hk⟩ := lookupKnown_some fileID _ k1 h1
    have := lookupKnown_none fileID _ h2 k1 (hp.mem_iff.mp hm)
    rw [hk] at this
    exact absurd this (by decide)
  · obtain ⟨hm1, hk1⟩ := lookupKnown_some fileID _ k1 h1
    obtain ⟨hm2, hk2⟩ := lookupKnown_some fileID _ k2 h2
    rw [knownFiles_match_unique fileID k1 k2 (hp.mem_iff.mp hm1) hm2 hk1 hk2]

theorem C15_registry_no_duplicates_witness :
    lookupKnown [0x45, 0x02, 0x9d, 0x88, 0x00, 0x65] knownFiles.reverse =
      lookupKnown [0x45, 0x02, 0x9d, 0x88, 0x00, 0x65] knownFiles :=
  C15_registry_no_duplicates.2.2 _ _ (List.reverse_perm knownFiles)

/-- C16. `dumpResource` returns 0 or 1. When it returns 0, the bytes written to the output
file are exactly `source[offset .. offset+byteCount)`, in order, `byteCount` of them, and
the read position of the source is the one before the call. It does
return 0 whenever the output file can be opened, every write succeeds and
`offset + byteCount` is within the file. -/
theorem C16_dumpResource_copies (env : Env) (offset byteCount : Nat) (filename : CStr)
    (data : List Byte) (p : Nat) (log : List Event) :
    ∃ (r pos : Nat) (evs : List Event),
      dumpResource env offset byteCount filename ⟨⟨data, p⟩, log⟩ =
        .ok r ⟨⟨data, pos⟩, log ++ evs⟩ ∧
      (r = 0 ∨ r = 1) ∧
      (r = 0 → pos = p ∧ written filename evs = (data.drop offset).take byteCount ∧
        (written filename evs).length = byteCount) ∧
      (env.fopenWriteOk log filename = true →
        (∀ l bs, env.fwriteOk l filename bs = true) →
        offset + byteCount ≤ data.length → r = 0) := by
  unfold dumpResource
  simp only [bind_apply, fopenWrite_apply]
  rcases Bool.eq_false_or_eq_true (env.fopenWriteOk log filename) with ho | ho
  · obtain ⟨r, pos, evs, he, hr01, hr0, hrok⟩ := copyBlocks_exact env filename data byteCount
      byteCount offset (log ++ [.fopenWrite filename, .fseek offset]) (le_refl _)
    have hn : (log ++ [Event.fopenWrite filename] ++ [Event.fseek offset]) =
        log ++ [.fopenWrite filename, .fseek offset] := by simp
    by_cases hr : r = 0
    · subst hr
      obtain ⟨_, h2, h3⟩ := hr0 rfl
      refine ⟨0, p, .fopenWrite filename :: .fseek offset ::
        (evs ++ [.fclose filename, .fseek p]), ?_, Or.inl rfl, fun _ => ⟨rfl, ?_, ?_⟩,
        fun _ _ _ => rfl⟩
      · simp only [ho, Bool.not_true, Bool.false_eq_true, if_false, bind_apply, ftell_apply,
          fseek_apply, hn, he]
        simp
      · simp only [written, written_append, h3, List.append_nil]
      · simp only [written, written_append, h3, List.append_nil, List.length_take,
          List.length_drop]
        by_cases hb : 0 < byteCount
        · have := h2 hb
          omega
        · omega
    · refine ⟨1, pos, .fopenWrite filename :: .fseek offset :: evs, ?_, Or.inr rfl,
        fun h => by omega, fun _ hall hlen => absurd (hrok hall hlen) hr⟩
      simp only [ho, Bool.not_true, Bool.false_eq_true, if_false, bind_apply, ftell_apply,
        fseek_apply, hn, he]
      simp [hr]
  · refine ⟨1, p, [.fopenWrite filename, .printf (.dumpOpenFailed filename)], ?_, Or.inr rfl,
      fun h => by omega, fun h => by rw [ho] at h; exact absurd h (by decide)⟩
    simp [ho]

theorem C16_dumpResource_copies_witness :
    ∃ (r pos : Nat) (evs : List Event),
      dumpResource sampleEnv 100 5000 (cstr "out") ⟨⟨List.replicate 6000 7, 33⟩, []⟩ =
        .ok r ⟨⟨List.replicate 6000 7, pos⟩, [] ++ evs⟩ ∧ r = 0 ∧ pos = 33 ∧
      written (cstr "out") evs = ((List.replicate 6000 7).drop 100).take 5000 := by
  obtain ⟨r, pos, evs, he, _, h0, hok⟩ := C16_dumpResource_copies sampleEnv 100 5000
    (cstr "out") (List.replicate 6000 7) 33 []
  have hr : r = 0 := hok rfl (fun _ _ => rfl) (by rw [List.length_replicate]; omega)
  exact ⟨r, pos, evs, he, hr, (h0 hr).1, (h0 hr).2.1⟩

/-- C17. Among the files whose header is recognised and whose count field can be read, the
adjusted count `(field + 1) mod 2^16` is 0 exactly when the field is 0xFFFF, and the run
prints "No resources!" exactly then. When the field is 0xFFFF the run returns 1 right after
that line. For every other field the adjusted count is the field plus 1, at least 1, the run
goes on to ask for the memory of the offsets and, when the memory is there, to the first
read of the offset table at `T + 2`. -/
theorem C17_no_resources_iff (env : Env) (opts : Options) (data : List Byte) (lay : Layout)
    (hdet : (detect env opts (opened data)).layout = some lay)
    (hcount : lay.offset + 2 ≤ data.length) :
    (adjustedCount data lay = 0 ↔ be16At data lay.offset = 0xFFFF) ∧
    (Event.printf .noResources ∈ (runFile env opts data).log ↔
      be16At data lay.offset = 0xFFFF) ∧
    (be16At data lay.offset = 0xFFFF →
      (runFile env opts data).status = 1 ∧
      ∃ devs, (∀ e ∈ devs, detectEvent e = true) ∧
        (runFile env opts data).log = devs ++ [.fseek lay.offset, .fread lay.offset 2,
          .printf (.resourceCount (-1)), .printf .noResources]) ∧
    (be16At data lay.offset ≠ 0xFFFF →
      adjustedCount data lay = be16At data lay.offset + 1 ∧ 1 ≤ adjustedCount data lay ∧
      ∃ devs tl, (∀ e ∈ devs, detectEvent e = true) ∧
        (runFile env opts data).log = devs ++ countEvents lay (adjustedCount data lay) ++
          .malloc (4 * adjustedCount data lay) :: tl ∧
        (allocOk env lay (adjustedCount data lay)
            (devs ++ countEvents lay (adjustedCount data lay)) = true →
          ∃ tl2, Event.malloc (4 * adjustedCount data lay) :: tl =
            allocEvents lay (adjustedCount data lay) ++ .fread (lay.offset + 2) 4 :: tl2)) := by
  obtain ⟨_, devs, hd, hdev⟩ := detect_ok env opts data lay hdet
  rw [opened] at hd
  have hz := adjustedCount_eq_zero_iff data lay
  have hlt := be16_lt (data.drop lay.offset)
  have hyes : be16At data lay.offset = 0xFFFF →
      runFile env opts data = ⟨1, devs ++ [.fseek lay.offset, .fread lay.offset 2,
        .printf (.resourceCount (-1)), .printf .noResources]⟩ := by
    intro h
    have hn : adjustedCount data lay = 0 := hz.mpr h
    have hp : parse env opts lay ⟨⟨data, 26⟩, devs⟩ =
        .exit 1 ⟨⟨data, lay.offset + 2⟩, devs ++ [.fseek lay.offset, .fread lay.offset 2,
          .printf (.resourceCount (-1)), .printf .noResources]⟩ := by
      unfold parse
      simp only [bind_apply]
      rw [readCount_eq]
      simp only [hcount, hn, if_true]
    simp only [runFile, run_eq_of_detect hd, hp, Res.outcome]
  have hno : be16At data lay.offset ≠ 0xFFFF →
      ∃ tl, runFile env opts data =
          ⟨(runFile env opts data).status, devs ++ countEvents lay (adjustedCount data lay) ++
            .malloc (4 * adjustedCount data lay) :: tl⟩ ∧
        (∀ e ∈ tl, e ≠ .printf .noResources) ∧
        (allocOk env lay (adjustedCount data lay)
            (devs ++ countEvents lay (adjustedCount data lay)) = true →
          ∃ tl2, Event.malloc (4 * adjustedCount data lay) :: tl =
            allocEvents lay (adjustedCount data lay) ++ .fread (lay.offset + 2) 4 :: tl2) := by
    intro h
    have hn : adjustedCount data lay ≠ 0 := fun h0 => h (hz.mp h0)
    obtain ⟨s, pos, tl, hp, htl, hal⟩ := parse_trace env opts lay data 26 devs hcount hn
    refine ⟨tl, ?_, htl, hal⟩
    simp only [runFile, run_eq_of_detect hd, hp, Res.outcome]
  refine ⟨hz, ⟨?_, ?_⟩, ?_, ?_⟩
  · intro hmem
    by_contra h
    obtain ⟨tl, hr, htl, _⟩ := hno h
    rw [hr] at hmem
    rcases List.mem_append.mp hmem with h1 | h1
    · rcases List.mem_append.mp h1 with h1 | h1
      · exact noResources_not_detectEvent _ (hdev _ h1) rfl
      · exact noResources_not_countEvents _ _ _ h1 rfl
    · rcases List.mem_cons.mp h1 with h1 | h1
      · exact Event.noConfusion h1
      · exact htl _ h1 rfl
  · intro h
    rw [hyes h]
    simp
  · intro h
    rw [hyes h]
    exact ⟨rfl, devs, hdev, rfl⟩
  · intro h
    obtain ⟨tl, hr, _, hal⟩ := hno h
    refine ⟨?_, ?_, devs, tl, hdev, by rw [hr], hal⟩
    · simp only [adjustedCount, be16At] at hlt h ⊢
      omega
    · have hn : adjustedCount data lay ≠ 0 := fun h0 => h (hz.mp h0)
      omega

set_option maxRecDepth 100000 in
theorem C17_no_resources_iff_witness :
    (Event.printf .noResources ∈
        (runFile sampleEnv Options.init sampleNoResourcesFile).log ∧
      (runFile sampleEnv Options.init sampleNoResourcesFile).status = 1) ∧
    (¬ Event.printf .noResources ∈ (runFile sampleEnv Options.init sampleStdFile).log ∧
      adjustedCount sampleStdFile ⟨false, 0x22, cstr ".bin"⟩ = 4) :=
  ⟨⟨(C17_no_resources_iff sampleEnv Options.init sampleNoResourcesFile
        ⟨false, 0x22, cstr ".bin"⟩ (by decide!) (by decide!)).2.1.mpr (by decide!),
      ((C17_no_resources_iff sampleEnv Options.init sampleNoResourcesFile
        ⟨false, 0x22, cstr ".bin"⟩ (by decide!) (by decide!)).2.2.1 (by decide!)).1⟩,
    fun h => absurd ((C17_no_resources_iff sampleEnv Options.init sampleStdFile
        ⟨false, 0x22, cstr ".bin"⟩ (by decide!) (by decide!)).2.1.mp h) (by decide!),
    ((C17_no_resources_iff sampleEnv Options.init sampleStdFile
        ⟨false, 0x22, cstr ".bin"⟩ (by decide!) (by decide!)).2.2.2 (by decide!)).1⟩

/-- C18. Once the count and the table are read, the two bytes after the table are skipped
exactly when the table offset `T` is not 0x1A, for both variants. The position `q` at which
the program stands when it decides on the names is `T + 2 + w*n + (0 if T = 0x1A else 2)`,
with `n` the adjusted count and `w = 4` for Standard, `w = 8` for Vector; a Vector file has
`T = 0x17`, so its two bytes are skipped. The run reads the count and the table, seeks to `q`
when `T` is not 0x1A and not at all otherwise, prints the decision computed with `q`, and
when the decision is for names its next read, after the allocation, is the first name
record at `q`. -/
theorem C18_padding_skip (env : Env) (opts : Options) (data : List Byte) (lay : Layout)
    (hdet : (detect env opts (opened data)).layout = some lay)
    (hcount : lay.offset + 2 ≤ data.length) (hn : adjustedCount data lay ≠ 0)
    (hmem : ∀ l b, env.mallocOk l b = true)
    (htable : tableEnd lay (adjustedCount data lay) ≤ data.length) :
    ∃ (q : Nat) (devs tl : List Event),
      q = lay.offset + 2 + (if lay.isVEC then 8 else 4) * adjustedCount data lay +
        (if lay.offset = 0x1A then 0 else 2) ∧
      (lay.isVEC = true → lay.offset = 0x17 ∧ q = 0x17 + 2 + 8 * adjustedCount data lay + 2) ∧
      (∀ e ∈ devs, detectEvent e = true) ∧
      (runFile env opts data).log =
        devs ++ countEvents lay (adjustedCount data lay) ++
          allocEvents lay (adjustedCount data lay) ++
          tableReads lay.isVEC (lay.offset + 2) (adjustedCount data lay) ++
          (if lay.offset = 0x1A then [] else [.fseek q]) ++
          .printf (.hasNames (decide (toInt32 ((be32At data (lay.offset + 2) : Int) - (q : Int)) ≥
            32 * ((adjustedCount data lay : Int) - 1)))) :: tl ∧
      (∀ e ∈ tl, tailEvent e = true) ∧
      (decide (toInt32 ((be32At data (lay.offset + 2) : Int) - (q : Int)) ≥
          32 * ((adjustedCount data lay : Int) - 1)) = true →
        ∃ tl2, tl = .malloc (adjustedCount data lay * 32) :: .fread q 32 :: tl2) := by
  obtain ⟨_, devs, hd, hdev⟩ := detect_ok env opts data lay hdet
  rw [opened] at hd
  have hq : padded lay (tableEnd lay (adjustedCount data lay)) =
      lay.offset + 2 + (if lay.isVEC then 8 else 4) * adjustedCount data lay +
        (if lay.offset = 0x1A then 0 else 2) := by
    by_cases h : lay.offset = 0x1A <;> simp [padded, tableEnd, entryWidth, h]
  have hpad : padEvents lay (tableEnd lay (adjustedCount data lay)) =
      if lay.offset = 0x1A then []
      else [.fseek (padded lay (tableEnd lay (adjustedCount data lay)))] := by
    by_cases h : lay.offset = 0x1A <;> simp [padEvents, padded, h]
  have hoff : (tableOffsets data lay (adjustedCount data lay)).getD 0 0 =
      be32At data (lay.offset + 2) := by
    rw [tableOffsets_getD data lay _ 0 (Nat.pos_of_ne_zero hn), Nat.mul_zero, Nat.add_zero]
  have halloc : allocOk env lay (adjustedCount data lay)
      (devs ++ countEvents lay (adjustedCount data lay)) = true := by
    simp [allocOk, hmem]
  have hp := parse_table_ok env opts lay data 26 devs hcount hn halloc htable
  have hrun : runFile env opts data = (listAll env opts lay (adjustedCount data lay)
      (tableOffsets data lay (adjustedCount data lay))
      (tableSizes data lay (adjustedCount data lay))
      ⟨⟨data, tableEnd lay (adjustedCount data lay)⟩,
        devs ++ countEvents lay (adjustedCount data lay) ++
          allocEvents lay (adjustedCount data lay) ++
          tableReads lay.isVEC (lay.offset + 2) (adjustedCount data lay)⟩).outcome := by
    simp only [runFile, run_eq_of_detect hd, hp]
  refine ⟨padded lay (tableEnd lay (adjustedCount data lay)), devs, ?_⟩
  have hvec : lay.isVEC = true → lay.offset = 0x17 ∧
      padded lay (tableEnd lay (adjustedCount data lay)) =
        0x17 + 2 + 8 * adjustedCount data lay + 2 := by
    intro hv
    have ho := detect_vector_offset env opts data lay hdet hv
    exact ⟨ho, by rw [hq, hv, ho]; rfl⟩
  rw [← hpad]
  rcases Bool.eq_false_or_eq_true (namesDecision
    ((tableOffsets data lay (adjustedCount data lay)).getD 0 0)
    (padded lay (tableEnd lay (adjustedCount data lay))) (adjustedCount data lay)) with hdec | hdec
  · obtain ⟨s, pos, tl2, he⟩ := listAll_names_head env opts lay (adjustedCount data lay)
      (tableOffsets data lay (adjustedCount data lay))
      (tableSizes data lay (adjustedCount data lay)) data
      (tableEnd lay (adjustedCount data lay))
      (devs ++ countEvents lay (adjustedCount data lay) ++
        allocEvents lay (adjustedCount data lay) ++
        tableReads lay.isVEC (lay.offset + 2) (adjustedCount data lay))
      (Nat.pos_of_ne_zero hn) hdec (hmem _ _)
    obtain ⟨s2, m, pos2, evs, he2, _, _, _, _, htl⟩ := listAll_spec env opts lay
      (adjustedCount data lay) (tableOffsets data lay (adjustedCount data lay))
      (tableSizes data lay (adjustedCount data lay)) data
      (tableEnd lay (adjustedCount data lay))
      (devs ++ countEvents lay (adjustedCount data lay) ++
        allocEvents lay (adjustedCount data lay) ++
        tableReads lay.isVEC (lay.offset + 2) (adjustedCount data lay))
      (Nat.pos_of_ne_zero hn)
    have hsame := he.symm.trans he2
    rw [hdec] at hsame
    injection hsame with _ hw
    injection hw with _ hlog
    simp only [List.append_assoc, List.cons_append, List.nil_append, List.singleton_append]
      at hlog
    have hlog2 := List.append_cancel_left (List.append_cancel_left
      (List.append_cancel_left (List.append_cancel_left (List.append_cancel_left hlog))))
    injection hlog2 with _ hevs
    rw [hoff] at hdec
    simp only [namesDecision] at hdec
    refine ⟨.malloc (adjustedCount data lay * 32) ::
      .fread (padded lay (tableEnd lay (adjustedCount data lay))) 32 :: tl2,
      hq, hvec, hdev, ?_, ?_, fun _ => ⟨tl2, rfl⟩⟩
    · rw [hrun, he, hdec]
      simp only [Res.outcome, List.append_assoc, List.cons_append, List.nil_append]
    · rw [hevs]; exact htl
  · obtain ⟨s2, m, pos2, evs, he2, _, _, _, _, htl⟩ := listAll_spec env opts lay
      (adjustedCount data lay) (tableOffsets data lay (adjustedCount data lay))
      (tableSizes data lay (adjustedCount data lay)) data
      (tableEnd lay (adjustedCount data lay))
      (devs ++ countEvents lay (adjustedCount data lay) ++
        allocEvents lay (adjustedCount data lay) ++
        tableReads lay.isVEC (lay.offset + 2) (adjustedCount data lay))
      (Nat.pos_of_ne_zero hn)
    rw [hdec] at he2
    rw [hoff] at hdec
    simp only [namesDecision] at hdec
    refine ⟨evs, hq, hvec, hdev, ?_, htl,
      fun h => by rw [hdec] at h; exact absurd h (by decide)⟩
    rw [hrun, he2, hdec]
    simp only [Res.outcome, List.append_assoc, List.cons_append, List.nil_append]

set_option maxRecDepth 100000 in
theorem C18_padding_skip_witness :
    Event.fseek 46 ∈ (runFile sampleEnv Options.init sampleBoundaryFile).log ∧
    Event.fread 46 32 ∈ (runFile sampleEnv Options.init sampleBoundaryFile).log := by
  obtain ⟨q, devs, tl, hq, _, _, hlog, _, hnames⟩ := C18_padding_skip sampleEnv Options.init
    sampleBoundaryFile ⟨false, 0x22, cstr ".bin"⟩ (by decide!) (by decide!) (by decide!)
    (fun _ _ => rfl) (by decide!)
  have hq2 : q = 46 := by rw [hq]; decide!
  subst hq2
  obtain ⟨tl2, htl⟩ := hnames (by decide!)
  rw [hlog, htl]
  constructor
  · simp
  · simp

/-- C19. In a Standard-variant run, with `o j` the table entry `j`, each listed resource
`i` has `offset = o i` and `(offset + size) mod 2^32 = o (i+1)`, and the sizes of the `m`
listed resources add up to `o m - o 0` modulo `2^32`, where `o m` is the end-of-file entry
when the run succeeds (`m = n - 1`). When the offsets are non-decreasing both equalities
hold without the modulus. -/
theorem C19_sizes_tile (env : Env) (opts : Options) (data : List Byte) (lay : Layout)
    (hdet : (detect env opts (opened data)).layout = some lay) (hstd : lay.isVEC = false) :
    ∃ m, m ≤ adjustedCount data lay - 1 ∧
      ((runFile env opts data).status = 0 → m = adjustedCount data lay - 1) ∧
      (listed (runFile env opts data).log).length = m ∧
      (∀ e ∈ listed (runFile env opts data).log,
        e.2.1 = be32At data (lay.offset + 2 + 4 * e.1) ∧
        (e.2.1 + e.2.2.1) % 2 ^ 32 = be32At data (lay.offset + 2 + 4 * (e.1 + 1))) ∧
      ((listed (runFile env opts data).log).map (fun e => e.2.2.1)).sum % 2 ^ 32 =
        (be32At data (lay.offset + 2 + 4 * m) + 2 ^ 32 - be32At data (lay.offset + 2 + 4 * 0))
          % 2 ^ 32 ∧
      ((∀ j, j < m → be32At data (lay.offset + 2 + 4 * j) ≤
          be32At data (lay.offset + 2 + 4 * (j + 1))) →
        (∀ e ∈ listed (runFile env opts data).log,
          e.2.1 + e.2.2.1 = be32At data (lay.offset + 2 + 4 * (e.1 + 1))) ∧
        ((listed (runFile env opts data).log).map (fun e => e.2.2.1)).sum =
          be32At data (lay.offset + 2 + 4 * m) - be32At data (lay.offset + 2 + 4 * 0)) := by
  obtain ⟨m, devs, pre, post, _, _, hm, hs0, _, _, _, _, hl⟩ :=
    runFile_spec env opts data lay hdet
  have ho : ∀ j, be32At data (lay.offset + 2 + 4 * j) < 2 ^ 32 := fun j => be32At_lt _ _
  have hl2 : listed (runFile env opts data).log =
      (List.range m).map (fun i => (i, be32At data (lay.offset + 2 + 4 * i),
        (be32At data (lay.offset + 2 + 4 * (i + 1)) + 2 ^ 32 -
          be32At data (lay.offset + 2 + 4 * i)) % 2 ^ 32, (fileEntry data lay i).2.2.2)) := by
    rw [hl, range'_zero_eq_range]
    apply List.map_congr_left
    intro i hi
    have hi2 : i < m := List.mem_range.mp hi
    have h1 : i < adjustedCount data lay := by omega
    have h2 : i + 1 < adjustedCount data lay := by omega
    simp only [fileEntry, entryOf, hstd, Bool.false_eq_true, if_false,
      tableOffsets_getD data lay _ i h1, tableOffsets_getD data lay _ (i + 1) h2, entryWidth]
  have hsizes : (listed (runFile env opts data).log).map (fun e => e.2.2.1) =
      (List.range m).map (fun i => (be32At data (lay.offset + 2 + 4 * (i + 1)) + 2 ^ 32 -
          be32At data (lay.offset + 2 + 4 * i)) % 2 ^ 32) := by
    rw [hl2, List.map_map]
    rfl
  have hentry : ∀ e ∈ listed (runFile env opts data).log, e.1 < m ∧
      e.2.1 = be32At data (lay.offset + 2 + 4 * e.1) ∧
      e.2.2.1 = (be32At data (lay.offset + 2 + 4 * (e.1 + 1)) + 2 ^ 32 -
          be32At data (lay.offset + 2 + 4 * e.1)) % 2 ^ 32 := by
    intro e he
    rw [hl2] at he
    obtain ⟨i, hi, rfl⟩ := List.mem_map.mp he
    exact ⟨List.mem_range.mp hi, rfl, rfl⟩
  refine ⟨m, hm, fun h => (hs0 h).1, by rw [hl2]; simp, ?_, ?_, ?_⟩
  · intro e he
    obtain ⟨_, h1, h2⟩ := hentry e he
    refine ⟨h1, ?_⟩
    rw [h1, h2]
    have a1 := ho e.1
    have a2 := ho (e.1 + 1)
    omega
  · rw [hsizes]
    exact sum_wrapped_sizes (fun j => be32At data (lay.offset + 2 + 4 * j)) ho m
  · intro hmono
    refine ⟨?_, ?_⟩
    · intro e he
      obtain ⟨hlt, h1, h2⟩ := hentry e he
      rw [h1, h2]
      have a1 := ho e.1
      have a2 := ho (e.1 + 1)
      have a3 := hmono e.1 hlt
      omega
    · rw [hsizes]
      exact (sum_exact_sizes (fun j => be32At data (lay.offset + 2 + 4 * j)) ho m hmono).1

set_option maxRecDepth 100000 in
theorem C19_sizes_tile_witness :
    ((listed (runFile sampleEnv Options.init sampleStdFile).log).map (fun e => e.2.2.1)).sum
      = 250 - 100 := by
  obtain ⟨m, _, hm, _, _, _, hex⟩ := C19_sizes_tile sampleEnv Options.init sampleStdFile
    ⟨false, 0x22, cstr ".bin"⟩ (by decide!) rfl
  have h3 : m = 3 := by rw [hm (by decide!)]; decide!
  subst h3
  have h := (hex (by
    intro j hj
    interval_cases j <;> decide!)).2
  rw [h]
  decide!

/-- C20, as amended. For every file smaller than `2^31 - 1` bytes on which the run prints
that names are present, with `n` the adjusted count and `p` the position after the table
and the padding: the name record of every real resource `i < n - 1`, the 32 bytes of the
file from `p + 32*i`, ends at or before the first offset of the table,
`p + 32*(i+1) ≤ offsets[0]`; and every listed resource `i` carries as its label the string
that starts at name record `i`. -/
theorem C20_names_before_first_offset (env : Env) (opts : Options) (data : List Byte)
    (lay : Layout) (hdet : (detect env opts (opened data)).layout = some lay)
    (hlen : data.length < 2 ^ 31 - 1)
    (hnames : Event.printf (.hasNames true) ∈ (runFile env opts data).log) :
    ∃ p : Nat,
      p = lay.offset + 2 + (if lay.isVEC then 8 else 4) * adjustedCount data lay +
        (if lay.offset = 0x1A then 0 else 2) ∧
      (∀ i, i < adjustedCount data lay - 1 →
        p + 32 * (i + 1) ≤ be32At data (lay.offset + 2)) ∧
      (∀ i, i < adjustedCount data lay →
        (nameRecords data p (adjustedCount data lay)).getD i [] =
          (data.drop (p + 32 * i)).take 32) ∧
      ∃ m, m ≤ adjustedCount data lay - 1 ∧
        ((runFile env opts data).status = 0 → m = adjustedCount data lay - 1) ∧
        (listed (runFile env opts data).log).map (fun e => (e.1, e.2.2.2)) =
          (List.range m).map
            (fun i => (i, nameStr (nameRecords data p (adjustedCount data lay)) i)) := by
  obtain ⟨hn, htable, hfile⟩ := hasNames_mem_run env opts data lay hdet true hnames
  obtain ⟨m, devs, pre, post, _, _, hm, hs0, _, _, _, _, hl⟩ :=
    runFile_spec env opts data lay hdet
  have hq : padded lay (tableEnd lay (adjustedCount data lay)) =
      lay.offset + 2 + (if lay.isVEC then 8 else 4) * adjustedCount data lay +
        (if lay.offset = 0x1A then 0 else 2) := by
    by_cases h : lay.offset = 0x1A <;> simp [padded, tableEnd, entryWidth, h]
  have hp : padded lay (tableEnd lay (adjustedCount data lay)) ≤ 2 ^ 31 := by
    have : padded lay (tableEnd lay (adjustedCount data lay)) ≤
        tableEnd lay (adjustedCount data lay) + 2 := by
      simp only [padded]; split <;> omega
    omega
  have hoff : (tableOffsets data lay (adjustedCount data lay)).getD 0 0 =
      be32At data (lay.offset + 2) := by
    rw [tableOffsets_getD data lay _ 0 (Nat.pos_of_ne_zero hn), Nat.mul_zero, Nat.add_zero]
  have hdec := hfile.symm
  simp only [fileHasNames, hoff] at hdec
  have hgap := toInt32_gap _ _ _ (be32At_lt data (lay.offset + 2)) hp hdec hn
  refine ⟨padded lay (tableEnd lay (adjustedCount data lay)), hq, ?_, ?_, m, hm,
    fun h => (hs0 h).1, ?_⟩
  · intro i hi
    omega
  · intro i hi
    simp only [nameRecords]
    rw [List.getD_eq_getElem?_getD, List.getElem?_map, List.getElem?_range hi]
    rfl
  · rw [hl, range'_zero_eq_range, List.map_map]
    apply List.map_congr_left
    intro i _
    simp only [Function.comp, fileEntry, entryOf, ← hfile, if_true]

set_option maxRecDepth 100000 in
theorem C20_names_before_first_offset_witness :
    46 + 32 * (0 + 1) ≤ be32At sampleBoundaryFile (0x22 + 2) ∧
    (listed (runFile sampleEnv Options.init sampleBoundaryFile).log).map
      (fun e => (e.1, e.2.2.2)) = [(0, cstr "abc")] := by
  obtain ⟨p, hp, hbefore, _, m, hm, hs, hl⟩ := C20_names_before_first_offset sampleEnv
    Options.init sampleBoundaryFile ⟨false, 0x22, cstr ".bin"⟩ (by decide!) (by decide!)
    (by decide!)
  have hp2 : p = 46 := by rw [hp]; decide!
  subst hp2
  refine ⟨hbefore 0 (by decide!), ?_⟩
  have hm2 : m = 1 := hs (by decide!)
  subst hm2
  rw [hl]
  decide!

/-- C20, counterexample. The file `sampleHugeFile` has `2^31 - 1` bytes, fewer than `2^31`,
and its table is its last ten bytes: with `-offset 7FFFFFF5` the adjusted count is 2, the
first offset is 0, and the position after the table and the padding is `2^31 + 1`. The
difference `0 - (2^31 + 1)` converted to `int` is `2^31 - 1`, so the run prints that names
are present; yet the name record of resource 0, at `2^31 + 1`, does not end before the
first offset. -/
theorem C20_counterexample :
    sampleHugeFile.length < 2 ^ 31 ∧
    (detect sampleEnv sampleHugeOpts (opened sampleHugeFile)).layout =
      some ⟨false, 2 ^ 31 - 11, cstr ".bin"⟩ ∧
    adjustedCount sampleHugeFile ⟨false, 2 ^ 31 - 11, cstr ".bin"⟩ = 2 ∧
    be32At sampleHugeFile (2 ^ 31 - 11 + 2) = 0 ∧
    padded ⟨false, 2 ^ 31 - 11, cstr ".bin"⟩ (tableEnd ⟨false, 2 ^ 31 - 11, cstr ".bin"⟩ 2) =
      2 ^ 31 + 1 ∧
    Event.printf (.hasNames true) ∈ (runFile sampleEnv sampleHugeOpts sampleHugeFile).log ∧
    ¬ (2 ^ 31 + 1 + 32 * (0 + 1) ≤ be32At sampleHugeFile (2 ^ 31 - 11 + 2)) := by
  obtain ⟨hlen, htake, hdrop⟩ := endTable_file (List.replicate (2 ^ 31 - 37) 0)
    (List.length_replicate _ _)
  obtain ⟨hdet, hcnt, hoff, hrep⟩ := endTable_run sampleEnv (fun _ _ => rfl)
    (sampleStdHeader ++ List.replicate (2 ^ 31 - 37) 0 ++ sampleEndTable) hlen htake hdrop
  refine ⟨?_, hdet, hcnt, hoff, ?_, hrep, ?_⟩
  · exact lt_of_eq_of_lt hlen (by norm_num)
  · simp [padded, tableEnd, entryWidth]
  · exact fun h => absurd (le_of_le_of_eq h hoff) (by norm_num)

end Mmex
